import Mathlib

/-!
Shallow embedding of the VROOM symmetric-TSP local search core
(src/heuristics/local_search.cpp, src/heuristics/tsp_strategy.cpp,
src/structures/tsp.cpp, src/structures/matrix.h) and proofs about it.

Conventions of the embedding:
* distance_t and index_t are modelled as Nat.  The spec (section 7) makes
  freedom from arithmetic overflow a precondition on the distance type, so
  gains and costs are computed in unbounded Nat exactly as the source
  computes them in machine integers under that precondition.
* the successor array _edges is a List Nat of length N; _edges.at(i) reads
  are edgeAt (List.getD with default 0; all reads performed by the
  operators are in range under the Hamiltonian-cycle invariant), writes are
  List.set.  The constructor, whose failure behaviour is under scrutiny in
  one claim, models .at bounds checking explicitly via Option (setAtChecked).
* the C++ while loops that walk the cycle are modelled with fuel equal to
  the number of nodes; under the single-cycle invariant the walk reaches
  its stopping node strictly before the fuel runs out, so the fuelled
  function agrees with the source loop.
* each operator step runs the per-worker scans sequentially over the same
  ranges the threads get; during the search phase the workers only read
  shared state and write disjoint result slots, so the sequential model is
  the exact deterministic semantics of the threaded code.
-/

/-- Read of the successor array: _edges.at(i) in a context where i is known
to be in range (the operators only look up nodes of the tour). -/
def edgeAt (edges : List Nat) (i : Nat) : Nat :=
  edges.getD i 0

/-- Sum of d over consecutive hops: starting point prev, then the list. -/
def pathCost (d : Nat → Nat → Nat) : Nat → List Nat → Nat
  | _, [] => 0
  | prev, x :: rest => d prev x + pathCost d x rest

/-- tsp::cost (src/structures/tsp.cpp): sums d over consecutive elements of
the tour list and then adds the closing hop from the last element back to
the first.  For a tour x :: rest this is exactly pathCost d x (rest ++ [x]);
the empty tour costs 0 (the loop body and the closing add are guarded by
tour.size() > 0). -/
def tspCost (d : Nat → Nat → Nat) : List Nat → Nat
  | [] => 0
  | x :: rest => pathCost d x (rest ++ [x])

/-- Walk the successor array from cur, collecting visited nodes, stopping
(exclusively) when target is reached.  Models the while loops of
two_opt_step (to_reverse collection) and get_tour; fuel bounds the walk,
and under the single-cycle invariant the target is reached before the fuel
(number of nodes) is exhausted. -/
def walkTo (edges : List Nat) : Nat → Nat → Nat → List Nat
  | _, _, 0 => []
  | cur, target, fuel + 1 =>
    if cur = target then []
    else cur :: walkTo edges (edgeAt edges cur) target fuel

/-- local_search::get_tour: emit the cycle starting from first_index. -/
def getTour (edges : List Nat) (first : Nat) : List Nat :=
  first :: walkTo edges (edgeAt edges first) first edges.length

/-- Per-worker best-candidate accumulator: (best_gain, best_edge_1_start,
best_edge_2_start).  The C++ result vectors are value-initialised, so a
worker that never improves reports (0, 0, 0). -/
abbrev Best : Type := Nat × Nat × Nat

/-- Strict-improvement update shared by all three operators: a candidate
replaces the incumbent only when its gain is strictly greater. -/
def mergeBest (acc c : Best) : Best :=
  if acc.1 < c.1 then c else acc

/-- Body of the two-opt inner loop for one pair (edge_1_start, edge_2_start):
skip the pairs for which the operator makes no sense, otherwise update the
accumulator on strict gain improvement. -/
def twoOptCheck (d : Nat → Nat → Nat) (edges : List Nat) (e1s : Nat)
    (acc : Best) (e2s : Nat) : Best :=
  let e1e := edgeAt edges e1s
  let e2e := edgeAt edges e2s
  if e2s = e1e ∨ e2e = e1s then acc
  else
    let before := d e1s e1e + d e2s e2e
    let after := d e1s e2s + d e1e e2e
    if after < before then mergeBest acc (before - after, e1s, e2s) else acc

/-- look_up lambda of two_opt_step: scan edge_1_start in [start, stop) and
edge_2_start in (edge_1_start, N). -/
def twoOptLookUp (d : Nat → Nat → Nat) (edges : List Nat)
    (start stop : Nat) : Best :=
  (List.range' start (stop - start)).foldl
    (fun acc e1s =>
      (List.range' (e1s + 1) (edges.length - (e1s + 1))).foldl
        (twoOptCheck d edges e1s) acc)
    (0, 0, 0)

/-- Inner while loop of relocate_step: walk edge_2_start around the cycle
from next until edge_1_start is reached, testing reinsertion of edge_1_end
between edge_2_start and edge_2_end. -/
def relocateInner (d : Nat → Nat → Nat) (edges : List Nat)
    (e1s e1e nxt : Nat) : Nat → Nat → Best → Best
  | 0, _, acc => acc
  | fuel + 1, e2s, acc =>
    if e2s = e1s then acc
    else
      let e2e := edgeAt edges e2s
      let before := d e1s e1e + d e1e nxt + d e2s e2e
      let after := d e1s nxt + d e2s e1e + d e1e e2e
      let acc' :=
        if after < before then mergeBest acc (before - after, e1s, e2s)
        else acc
      relocateInner d edges e1s e1e nxt fuel e2e acc'

/-- look_up lambda of relocate_step. -/
def relocateLookUp (d : Nat → Nat → Nat) (edges : List Nat)
    (start stop : Nat) : Best :=
  (List.range' start (stop - start)).foldl
    (fun acc e1s =>
      let e1e := edgeAt edges e1s
      let nxt := edgeAt edges e1e
      relocateInner d edges e1s e1e nxt edges.length nxt acc)
    (0, 0, 0)

/-- Inner while loop of or_opt_step: walk edge_2_start from next_2 until
edge_1_start is reached, testing reinsertion of the pair
(edge_1_end, next) between edge_2_start and edge_2_end. -/
def orOptInner (d : Nat → Nat → Nat) (edges : List Nat)
    (e1s e1e nxt nxt2 : Nat) : Nat → Nat → Best → Best
  | 0, _, acc => acc
  | fuel + 1, e2s, acc =>
    if e2s = e1s then acc
    else
      let e2e := edgeAt edges e2s
      let before := d e1s e1e + d nxt nxt2 + d e2s e2e
      let after := d e1s nxt2 + d e2s e1e + d nxt e2e
      let acc' :=
        if after < before then mergeBest acc (before - after, e1s, e2s)
        else acc
      orOptInner d edges e1s e1e nxt nxt2 fuel e2e acc'

/-- look_up lambda of or_opt_step. -/
def orOptLookUp (d : Nat → Nat → Nat) (edges : List Nat)
    (start stop : Nat) : Best :=
  (List.range' start (stop - start)).foldl
    (fun acc e1s =>
      let e1e := edgeAt edges e1s
      let nxt := edgeAt edges e1e
      let nxt2 := edgeAt edges nxt
      orOptInner d edges e1s e1e nxt nxt2 edges.length nxt2 acc)
    (0, 0, 0)

/-- Per-worker results: worker i runs the look_up lambda on the range
[limits[i], limits[i+1]).  The limits list has one more entry than there
are workers, so the worker ranges are the consecutive pairs of limits. -/
def workerResults (lookUp : Nat → Nat → Best) (limits : List Nat) :
    List Best :=
  (limits.zip limits.tail).map (fun p => lookUp p.1 p.2)

/-- Reduction across workers: std::max_element over the gain vector returns
the first (leftmost) maximum, and the corresponding edge entries are taken
from that worker.  Folding mergeBest from (0,0,0) is that exact semantics:
a later worker wins only on strictly greater gain, and a worker that found
nothing holds (0,0,0). -/
def reduceBest (rs : List Best) : Best :=
  rs.foldl mergeBest (0, 0, 0)

/-- Rewrite loop of the two_opt_step mutation: starting at current, write
arr[current] = next and advance current, for each element of L in turn.
Returns the rewritten array and the final current. -/
def chainWrite (arr : List Nat) (cur : Nat) (L : List Nat) :
    List Nat × Nat :=
  L.foldl (fun q nx => (q.1.set q.2 nx, nx)) (arr, cur)

/-- Mutation phase of two_opt_step: collect the to_reverse chain from
edge_1_end up to (and excluding) edge_2_start, set the first rewired edge,
walk the collected chain in reverse rewriting successors, and close with
edge_2_end. -/
def twoOptApply (edges : List Nat) (e1s e2s : Nat) : List Nat :=
  let e1e := edgeAt edges e1s
  let e2e := edgeAt edges e2s
  let toReverse := walkTo edges e1e e2s edges.length
  let p := chainWrite (edges.set e1s e2s) e2s toReverse.reverse
  p.1.set p.2 e2e

/-- Mutation phase of relocate_step: the three successor rewrites in source
order (the ends are snapshotted before any write, as in the source). -/
def relocateApply (edges : List Nat) (e1s e2s : Nat) : List Nat :=
  let e1e := edgeAt edges e1s
  let e2e := edgeAt edges e2s
  let a1 := edges.set e1s (edgeAt edges e1e)
  let a2 := a1.set e1e e2e
  a2.set e2s e1e

/-- Mutation phase of or_opt_step, in source order: the second write reads
_edges.at(best_edge_2_start) after the first write has happened, which is
faithful here because the intermediate list a1 is used for that read. -/
def orOptApply (edges : List Nat) (e1s e2s : Nat) : List Nat :=
  let e1e := edgeAt edges e1s
  let nxt := edgeAt edges e1e
  let a1 := edges.set e1s (edgeAt edges nxt)
  let a2 := a1.set nxt (edgeAt a1 e2s)
  a2.set e2s e1e

/-- local_search::two_opt_step with an explicit worker-limits list: refuse
below 4 nodes, scan all worker ranges, reduce, apply on strictly positive
gain.  Returns (gain, new successor array). -/
def twoOptStepW (d : Nat → Nat → Nat) (edges : List Nat)
    (limits : List Nat) : Nat × List Nat :=
  if edges.length < 4 then (0, edges)
  else
    let best := reduceBest (workerResults (twoOptLookUp d edges) limits)
    if 0 < best.1 then (best.1, twoOptApply edges best.2.1 best.2.2)
    else (best.1, edges)

/-- local_search::relocate_step with an explicit worker-limits list. -/
def relocateStepW (d : Nat → Nat → Nat) (edges : List Nat)
    (limits : List Nat) : Nat × List Nat :=
  if edges.length < 3 then (0, edges)
  else
    let best := reduceBest (workerResults (relocateLookUp d edges) limits)
    if 0 < best.1 then (best.1, relocateApply edges best.2.1 best.2.2)
    else (best.1, edges)

/-- local_search::or_opt_step with an explicit worker-limits list. -/
def orOptStepW (d : Nat → Nat → Nat) (edges : List Nat)
    (limits : List Nat) : Nat × List Nat :=
  if edges.length < 4 then (0, edges)
  else
    let best := reduceBest (workerResults (orOptLookUp d edges) limits)
    if 0 < best.1 then (best.1, orOptApply edges best.2.1 best.2.2)
    else (best.1, edges)

/-- Checked write modelling std::vector::at on the left-hand side: the C++
throws std::out_of_range when the index is not below the size. -/
def setAtChecked (edges : List Nat) (i v : Nat) : Option (List Nat) :=
  if i < edges.length then some (edges.set i v) else none

/-- Constructor loop of local_search building _edges from the initial tour
list: _edges starts as n default-initialised entries (n = matrix size),
then _edges.at(last) = current for each consecutive pair, closing the cycle
with _edges.at(last) = first.  none models the construction throwing.  The
empty tour dereferences the end iterator in the source (undefined
behaviour) and is mapped to none here; the claims only concern nonempty
tours. -/
def buildEdges (n : Nat) (tour : List Nat) : Option (List Nat) :=
  match tour with
  | [] => none
  | first :: rest =>
    (rest.foldl
      (fun acc cur =>
        acc.bind (fun p => (setAtChecked p.1 p.2 cur).map (fun e => (e, cur))))
      (some (List.replicate n 0, first))).bind
      (fun p => setAtChecked p.1 p.2 first)

/-- Relocate / or-opt worker limits (_rank_limits): iota then scaling by
range_width = n / T gives (n / T) * i, and the shifting loop adds the
saturating shift min i (n % T) (shift is incremented once per index while
it is still below the remainder, hence equals min i (n % T) at index i);
finally n is pushed. -/
def buildRankLimits (n T : Nat) : List Nat :=
  ((List.range T).map (fun i => n / T * i + min i (n % T))) ++ [n]

/-- number_of_lookups array of the two-opt partition: size n - 1; entry 0
is set to n - 3 and the reverse iota fills entries 1 .. n - 2 with
n - 3, n - 4, ..., 0 (entry i gets n - 2 - i).  In the source the
arithmetic is unsigned; for n = 2 the single entry underflows there, but
the resulting rank limits agree with this Nat-truncated model (see
buildSymTwoOptRankLimits). -/
def numberOfLookups (n : Nat) : List Nat :=
  (n - 3) :: (List.range (n - 2)).map (fun j => n - 3 - j)

/-- std::partial_sum: running sums of the list, given the accumulator. -/
def runningSums : List Nat → Nat → List Nat
  | [], _ => []
  | x :: xs, acc => (acc + x) :: runningSums xs (acc + x)

/-- total_lookups of the two-opt partition as the source computes it. -/
def totalLookups (n : Nat) : Nat :=
  n * (n - 3) / 2

/-- While loop advancing rank until cumulated_lookups[rank] reaches the
target; the bounds guard stops the source's out-of-range read (which never
fires for the inputs the constructor produces). -/
def findRank (cum : List Nat) (rank target : Nat) : Nat :=
  if h : rank < cum.length ∧ cum.getD rank 0 < target then
    findRank cum (rank + 1) target
  else rank
termination_by cum.length - rank
decreasing_by omega

/-- Loop of the two-opt partition recording one boundary per worker index
i in [1, T): advance rank to the first cumulated value reaching i * share,
step once more, record. -/
def symRankLoop (cum : List Nat) (share T : Nat) (i rank : Nat) :
    List Nat :=
  if i < T then
    let r := findRank cum rank (i * share) + 1
    r :: symRankLoop cum share T (i + 1) r
  else []
termination_by T - i
decreasing_by omega

/-- _sym_two_opt_rank_limits construction: push 0; when more than one
worker, compute the lookup workload, its running sums, the total and the
per-worker share, then record T - 1 boundaries; finally push n. -/
def buildSymTwoOptRankLimits (n T : Nat) : List Nat :=
  if T ≤ 1 then [0, n]
  else
    0 ::
      (symRankLoop (runningSums (numberOfLookups n) 0)
        (totalLookups n / T) T 1 0 ++ [n])

/-- perform_all loop of an operator (perform_all_two_opt_steps and
friends): repeatedly invoke the step, recording the gain of every iteration
in which the move was applied (gain > 0), until a step returns 0.  The fuel
argument bounds the iteration count; any fuel exceeding the current tour
cost is enough (each applied move costs at least one unit), so the fuel
branch is never the exit taken under the invariant. -/
def performAllTrace (step : List Nat → Nat × List Nat) :
    Nat → List Nat → List Nat × List Nat
  | 0, edges => ([], edges)
  | fuel + 1, edges =>
    let r := step edges
    if 0 < r.1 then
      let p := performAllTrace step fuel r.2
      (r.1 :: p.1, p.2)
    else ([], edges)

/-- total_gain returned by a perform-all routine: the sum of the recorded
per-iteration gains. -/
def performAll (step : List Nat → Nat × List Nat) (fuel : Nat)
    (edges : List Nat) : Nat × List Nat :=
  let p := performAllTrace step fuel edges
  (p.1.sum, p.2)

/-- One round of the outer loop of solve_symmetric_tsp: run all 2-opt
steps, then all relocate steps, then all or-opt steps; return the three
round gains and the final array.  tl are the two-opt limits, rl the
relocate/or-opt limits. -/
def driverRound (d : Nat → Nat → Nat) (rl tl : List Nat) (fuel : Nat)
    (edges : List Nat) : (Nat × Nat × Nat) × List Nat :=
  let p2 := performAll (fun e => twoOptStepW d e tl) fuel edges
  let pr := performAll (fun e => relocateStepW d e rl) fuel p2.2
  let po := performAll (fun e => orOptStepW d e rl) fuel pr.2
  ((p2.1, pr.1, po.1), po.2)

/-- Outer driver loop of solve_symmetric_tsp: rounds repeat while any of
the three round gains is positive; the same fuel bounds every loop. -/
def driverLoop (d : Nat → Nat → Nat) (rl tl : List Nat) :
    Nat → List Nat → List Nat
  | 0, edges => edges
  | fuel + 1, edges =>
    let r := driverRound d rl tl (fuel + 1) edges
    if 0 < r.1.1 ∨ 0 < r.1.2.1 ∨ 0 < r.1.2.2 then
      driverLoop d rl tl fuel r.2
    else r.2

/-- Diagonal behaviour of line::operator[] (src/structures/matrix.h): the
diagonal entry is 3 * (max representable distance / 4); the off-diagonal
entries are the rounded Euclidean distances, a floating-point computation
abstracted here as an arbitrary function (no claim depends on its values).
distMax stands for std::numeric_limits of the distance type. -/
def lineEntry (offDiag : Nat → Nat → Nat) (distMax : Nat)
    (row idx : Nat) : Nat :=
  if row = idx then 3 * (distMax / 4) else offDiag row idx

/-- Tour list t traces the successor array as one closed cycle: consecutive
elements follow edgeAt and the last wraps to the first. -/
def TourChain (edges : List Nat) : List Nat → Prop
  | [] => False
  | x :: xs => List.Chain (fun a b => edgeAt edges a = b) x (xs ++ [x])

/-- t is a Hamiltonian tour of the successor array: it traces the cycle and
visits exactly the nodes 0 .. N - 1 once each. -/
def HamTour (edges t : List Nat) : Prop :=
  TourChain edges t ∧ t.Perm (List.range edges.length)

/-- The successor array is a permutation of {0..N-1} forming exactly one
cycle through all N nodes. -/
def HamCycle (edges : List Nat) : Prop :=
  ∃ t, HamTour edges t

/-- Worker-limits list splitting [0, n) into consecutive ranges: starts at
0, ends at n, nondecreasing.  The relocate limits the constructor builds
satisfy this for every worker count. -/
def validPartition (n : Nat) (limits : List Nat) : Prop :=
  limits.head? = some 0 ∧ limits.getLast? = some n ∧
    List.Chain' (· ≤ ·) limits

/-! Basic facts about reads and writes of the successor array. -/

theorem edgeAt_set_self (edges : List Nat) (i v : Nat)
    (hi : i < edges.length) : edgeAt (edges.set i v) i = v := by
  simp [edgeAt, List.getD_eq_getElem?_getD, List.getElem?_set, hi]

theorem edgeAt_set_ne (edges : List Nat) (i v j : Nat) (hj : j ≠ i) :
    edgeAt (edges.set i v) j = edgeAt edges j := by
  have hij : i ≠ j := Ne.symm hj
  simp [edgeAt, List.getD_eq_getElem?_getD, List.getElem?_set, hij]

/-! Rotation of tour chains. -/

theorem tourChain_rotate_once {edges : List Nat} {x : Nat} {xs : List Nat}
    (h : TourChain edges (x :: xs)) : TourChain edges (xs ++ [x]) := by
  cases xs with
  | nil => simpa using h
  | cons y ys =>
    simp only [TourChain, List.cons_append, List.chain_cons] at h
    have hchain : List.Chain (fun a b => edgeAt edges a = b) y
        (ys ++ x :: [y]) := by
      rw [List.chain_split]
      exact ⟨h.2, List.chain_cons.2 ⟨h.1, List.Chain.nil⟩⟩
    simpa [TourChain, List.append_assoc] using hchain

theorem tourChain_rotation {edges : List Nat} :
    ∀ (l₁ : List Nat) (a : Nat) (l₂ : List Nat),
      TourChain edges (l₁ ++ a :: l₂) → TourChain edges (a :: (l₂ ++ l₁))
  | [], a, l₂, h => by simpa using h
  | x :: l₁, a, l₂, h => by
    have h1 : TourChain edges ((l₁ ++ a :: l₂) ++ [x]) :=
      tourChain_rotate_once h
    have h2 : TourChain edges (l₁ ++ a :: (l₂ ++ [x])) := by
      simpa [List.append_assoc] using h1
    have h3 := tourChain_rotation l₁ a (l₂ ++ [x]) h2
    simpa [List.append_assoc] using h3

/-! Basic consequences of being a Hamiltonian tour. -/

theorem hamTour_ne_nil {edges t : List Nat} (h : HamTour edges t) :
    t ≠ [] := by
  intro he
  rw [he] at h
  exact h.1

theorem hamTour_nodup {edges t : List Nat} (h : HamTour edges t) :
    t.Nodup :=
  (h.2.symm.nodup (List.nodup_range _))

theorem hamTour_length {edges t : List Nat} (h : HamTour edges t) :
    t.length = edges.length := by
  simpa using h.2.length_eq

theorem hamTour_mem_lt {edges t : List Nat} (h : HamTour edges t)
    {a : Nat} (ha : a ∈ t) : a < edges.length := by
  have := h.2.mem_iff.1 ha
  simpa using this

theorem hamTour_mem_of_lt {edges t : List Nat} (h : HamTour edges t)
    {a : Nat} (ha : a < edges.length) : a ∈ t := by
  exact h.2.mem_iff.2 (by simpa using ha)

theorem hamTour_rotate_to {edges t : List Nat} (h : HamTour edges t)
    {a : Nat} (ha : a ∈ t) :
    ∃ u, HamTour edges (a :: u) ∧ (a :: u).Perm t := by
  obtain ⟨s, r, rfl⟩ := List.append_of_mem ha
  have hperm : (a :: (r ++ s)).Perm (s ++ a :: r) :=
    ((List.Perm.cons a List.perm_append_comm).trans List.perm_middle.symm)
  exact ⟨r ++ s, ⟨tourChain_rotation s a r h.1, hperm.trans h.2⟩, hperm⟩

/-! Successor map along a chain, injectivity of the successor function. -/

theorem chain_map_edgeAt {edges : List Nat} :
    ∀ (l : List Nat) (x z : Nat),
      List.Chain (fun a b => edgeAt edges a = b) x (l ++ [z]) →
      (x :: l).map (edgeAt edges) = l ++ [z]
  | [], x, z, h => by
    simp only [List.nil_append, List.chain_cons] at h
    simp [h.1]
  | y :: l, x, z, h => by
    simp only [List.cons_append, List.chain_cons] at h
    have := chain_map_edgeAt l y z h.2
    simp [h.1, this]

theorem hamTour_map_edgeAt {edges t : List Nat} (h : HamTour edges t) :
    ∃ x xs, t = x :: xs ∧ t.map (edgeAt edges) = xs ++ [x] := by
  cases t with
  | nil => exact absurd h.1 (by simp [TourChain])
  | cons x xs => exact ⟨x, xs, rfl, chain_map_edgeAt xs x x h.1⟩

theorem hamTour_succ_injOn {edges t : List Nat} (h : HamTour edges t)
    {a b : Nat} (ha : a ∈ t) (hb : b ∈ t)
    (hab : edgeAt edges a = edgeAt edges b) : a = b := by
  obtain ⟨x, xs, rfl, hmap⟩ := hamTour_map_edgeAt h
  have hnd : ((x :: xs).map (edgeAt edges)).Nodup := by
    rw [hmap]
    have hp : (x :: xs).Perm (xs ++ [x]) := by
      simpa using (@List.perm_middle Nat x xs []).symm
    exact hp.nodup (hamTour_nodup h)
  exact List.inj_on_of_nodup_map hnd ha hb hab

theorem hamTour_succ_mem {edges t : List Nat} (h : HamTour edges t)
    {a : Nat} (ha : a ∈ t) : edgeAt edges a ∈ t := by
  obtain ⟨x, xs, rfl, hmap⟩ := hamTour_map_edgeAt h
  have : edgeAt edges a ∈ (x :: xs).map (edgeAt edges) :=
    List.mem_map_of_mem _ ha
  rw [hmap] at this
  rcases List.mem_append.1 this with h1 | h1
  · exact List.mem_cons_of_mem _ h1
  · simp only [List.mem_singleton] at h1
    simp [h1]

/-! Transport of a chain along an array that agrees on the chain sources. -/

theorem chain_congr_edges {edges edges2 : List Nat} :
    ∀ (l : List Nat) (x tgt : Nat),
      (∀ b ∈ x :: l, edgeAt edges2 b = edgeAt edges b) →
      List.Chain (fun a b => edgeAt edges a = b) x (l ++ [tgt]) →
      List.Chain (fun a b => edgeAt edges2 a = b) x (l ++ [tgt])
  | [], x, tgt, hagree, h => by
    simp only [List.nil_append, List.chain_cons] at h ⊢
    exact ⟨(hagree x (by simp)).trans h.1, List.Chain.nil⟩
  | y :: l, x, tgt, hagree, h => by
    simp only [List.cons_append, List.chain_cons] at h ⊢
    refine ⟨(hagree x (by simp)).trans h.1, ?_⟩
    exact chain_congr_edges l y tgt
      (fun b hb => hagree b (List.mem_cons_of_mem _ hb)) h.2

/-! The fuelled walk recovers the chain segment exactly. -/

theorem walkTo_self (edges : List Nat) (t fuel : Nat) :
    walkTo edges t t fuel = [] := by
  cases fuel <;> simp [walkTo]

theorem walkTo_eq {edges : List Nat} :
    ∀ (l : List Nat) (x tgt fuel : Nat),
      List.Chain (fun a b => edgeAt edges a = b) x (l ++ [tgt]) →
      (x :: l).Nodup → tgt ∉ x :: l → (x :: l).length ≤ fuel →
      walkTo edges x tgt fuel = x :: l
  | [], x, tgt, fuel, hchain, _, htgt, hfuel => by
    simp only [List.nil_append, List.chain_cons] at hchain
    obtain ⟨fuel, rfl⟩ : ∃ f, fuel = f + 1 := by
      cases fuel with
      | zero => simp at hfuel
      | succ f => exact ⟨f, rfl⟩
    have hx : x ≠ tgt := by
      intro he
      exact htgt (by simp [he])
    simp [walkTo, hx, hchain.1, walkTo_self]
  | y :: l, x, tgt, fuel, hchain, hnd, htgt, hfuel => by
    simp only [List.cons_append, List.chain_cons] at hchain
    obtain ⟨fuel, rfl⟩ : ∃ f, fuel = f + 1 := by
      cases fuel with
      | zero => simp at hfuel
      | succ f => exact ⟨f, rfl⟩
    have hx : x ≠ tgt := by
      intro he
      exact htgt (by simp [he])
    have hrec := walkTo_eq l y tgt fuel hchain.2 (by simpa using hnd.of_cons)
      (fun hm => htgt (List.mem_cons_of_mem _ hm))
      (by simpa using Nat.succ_le_succ_iff.1 hfuel)
    simp [walkTo, hx, hchain.1, hrec]

/-! Specification of the two-opt rewrite loop. -/

theorem chainWrite_spec {L : List Nat} :
    ∀ (arr : List Nat) (cur : Nat),
      (cur :: L).Nodup → (∀ b ∈ cur :: L, b < arr.length) →
      (chainWrite arr cur L).2 = L.getLastD cur ∧
      (chainWrite arr cur L).1.length = arr.length ∧
      (∀ j, j ∉ cur :: L.dropLast →
        edgeAt (chainWrite arr cur L).1 j = edgeAt arr j) ∧
      List.Chain (fun a b => edgeAt (chainWrite arr cur L).1 a = b) cur L := by
  induction L with
  | nil =>
    intro arr cur _ _
    simp [chainWrite]
  | cons nx L ih =>
    intro arr cur hnd hbnd
    have hcur : cur < arr.length := hbnd cur (by simp)
    have hnd' : (nx :: L).Nodup := hnd.of_cons
    have hbnd' : ∀ b ∈ nx :: L, b < (arr.set cur nx).length := by
      intro b hb
      rw [List.length_set]
      exact hbnd b (List.mem_cons_of_mem _ hb)
    have hcw : chainWrite arr cur (nx :: L) = chainWrite (arr.set cur nx) nx L := by
      simp [chainWrite]
    obtain ⟨h2, hlen, huntouched, hchain⟩ := ih (arr.set cur nx) nx hnd' hbnd'
    have hcurnot : cur ∉ nx :: L.dropLast := by
      intro hm
      have : cur ∈ nx :: L := by
        rcases List.mem_cons.1 hm with h1 | h1
        · simp [h1]
        · exact List.mem_cons_of_mem _ ((List.dropLast_sublist L).subset h1)
      exact (List.nodup_cons.1 hnd).1 this
    refine ⟨?_, ?_, ?_, ?_⟩
    · rw [hcw, h2, List.getLastD_cons]
    · rw [hcw, hlen, List.length_set]
    · intro j hj
      have hjc : j ≠ cur := by
        intro he
        exact hj (by simp [he])
      cases L with
      | nil =>
        have hone : chainWrite arr cur [nx] = (arr.set cur nx, nx) := by
          simp [chainWrite]
        rw [hone]
        exact edgeAt_set_ne _ _ _ _ hjc
      | cons a L' =>
        have hjrest : j ∉ nx :: (a :: L').dropLast := by
          intro hm
          apply hj
          simp only [List.dropLast_cons₂]
          exact List.mem_cons_of_mem _ hm
        rw [hcw, huntouched j hjrest, edgeAt_set_ne _ _ _ _ hjc]
    · rw [hcw]
      refine List.chain_cons.2 ⟨?_, hchain⟩
      rw [huntouched cur hcurnot, edgeAt_set_self _ _ _ hcur]

/-! Path cost algebra. -/

theorem pathCost_cons (d : Nat → Nat → Nat) (p x : Nat)
    (rest : List Nat) :
    pathCost d p (x :: rest) = d p x + pathCost d x rest := rfl

theorem pathCost_append (d : Nat → Nat → Nat) :
    ∀ (l₁ : List Nat) (x : Nat) (l₂ : List Nat),
      pathCost d x (l₁ ++ l₂) =
        pathCost d x l₁ + pathCost d (l₁.getLastD x) l₂
  | [], x, l₂ => by simp [pathCost]
  | y :: l₁, x, l₂ => by
    rw [List.cons_append, pathCost_cons, pathCost_cons,
      pathCost_append d l₁ y l₂, List.getLastD_cons]
    omega

theorem pathCost_reverse (d : Nat → Nat → Nat)
    (hsym : ∀ i j, d i j = d j i) :
    ∀ (l : List Nat) (x y : Nat),
      pathCost d x (l ++ [y]) = pathCost d y (l.reverse ++ [x])
  | [], x, y => by simp [pathCost, hsym x y]
  | z :: l, x, y => by
    rw [List.cons_append, pathCost_cons, pathCost_reverse d hsym l z y,
      List.reverse_cons, List.append_assoc,
      pathCost_append d l.reverse y ([z] ++ [x]),
      pathCost_append d l.reverse y [z]]
    simp [pathCost, hsym x z]
    omega

theorem tspCost_rotate_once (d : Nat → Nat → Nat) (x : Nat)
    (xs : List Nat) : tspCost d (x :: xs) = tspCost d (xs ++ [x]) := by
  cases xs with
  | nil => rfl
  | cons y ys =>
    have h1 : tspCost d (x :: y :: ys) =
        d x y + pathCost d y (ys ++ [x]) := rfl
    have h2 : tspCost d ((y :: ys) ++ [x]) =
        pathCost d y ((ys ++ [x]) ++ [y]) := by
      simp [tspCost, List.append_assoc]
    rw [h1, h2, pathCost_append d (ys ++ [x]) y [y]]
    simp only [List.getLastD_concat]
    simp [pathCost]
    omega

theorem tspCost_rotation (d : Nat → Nat → Nat) :
    ∀ (l₁ : List Nat) (a : Nat) (l₂ : List Nat),
      tspCost d (a :: (l₂ ++ l₁)) = tspCost d (l₁ ++ a :: l₂)
  | [], a, l₂ => by simp
  | x :: l₁, a, l₂ =>
    calc tspCost d (a :: (l₂ ++ x :: l₁))
        = tspCost d (a :: ((l₂ ++ [x]) ++ l₁)) := by
          simp [List.append_assoc]
      _ = tspCost d (l₁ ++ a :: (l₂ ++ [x])) :=
          tspCost_rotation d l₁ a (l₂ ++ [x])
      _ = tspCost d ((l₁ ++ a :: l₂) ++ [x]) := by
          simp [List.append_assoc]
      _ = tspCost d (x :: (l₁ ++ a :: l₂)) :=
          (tspCost_rotate_once d x (l₁ ++ a :: l₂)).symm
      _ = tspCost d ((x :: l₁) ++ a :: l₂) := by simp

/-! get_tour emits exactly the Hamiltonian tour starting at the given
node, and the cost of a Hamiltonian tour of a given successor array does
not depend on the starting node. -/

theorem hamTour_getTour {edges : List Nat} {a : Nat} {u : List Nat}
    (h : HamTour edges (a :: u)) : getTour edges a = a :: u := by
  cases u with
  | nil =>
    have hself : edgeAt edges a = a := by
      have := h.1
      simp only [TourChain, List.nil_append, List.chain_cons] at this
      exact this.1
    simp [getTour, hself, walkTo_self]
  | cons y u =>
    have hchain := h.1
    simp only [TourChain, List.cons_append, List.chain_cons] at hchain
    have hnd := hamTour_nodup h
    have hlen := hamTour_length h
    have hwalk := walkTo_eq u y a edges.length hchain.2
      (by simpa using hnd.of_cons)
      (by
        intro hm
        exact (List.nodup_cons.1 hnd).1 hm)
      (by simp at hlen ⊢; omega)
    simp [getTour, hchain.1, hwalk]

theorem hamTour_unique {edges t₁ t₂ : List Nat} (h₁ : HamTour edges t₁)
    (h₂ : HamTour edges t₂) (hhead : t₁.head? = t₂.head?) : t₁ = t₂ := by
  cases t₁ with
  | nil => exact absurd h₁.1 (by simp [TourChain])
  | cons a u₁ =>
    cases t₂ with
    | nil => exact absurd h₂.1 (by simp [TourChain])
    | cons b u₂ =>
      simp only [List.head?_cons, Option.some.injEq] at hhead
      subst hhead
      rw [← hamTour_getTour h₁, ← hamTour_getTour h₂]

theorem tspCost_hamTour_eq (d : Nat → Nat → Nat) {edges t₁ t₂ : List Nat}
    (h₁ : HamTour edges t₁) (h₂ : HamTour edges t₂) :
    tspCost d t₁ = tspCost d t₂ := by
  cases t₂ with
  | nil => exact absurd h₂.1 (by simp [TourChain])
  | cons b v =>
    have hb : b ∈ t₁ :=
      hamTour_mem_of_lt h₁ (hamTour_mem_lt h₂ (by simp))
    obtain ⟨s, r, rfl⟩ := List.append_of_mem hb
    have hrot : HamTour edges (b :: (r ++ s)) := by
      refine ⟨tourChain_rotation s b r h₁.1, ?_⟩
      have hperm : (b :: (r ++ s)).Perm (s ++ b :: r) :=
        ((List.Perm.cons b List.perm_append_comm).trans List.perm_middle.symm)
      exact hperm.trans h₁.2
    have := hamTour_unique hrot h₂ (by simp)
    rw [← this, tspCost_rotation d s b r]

/-! Length preservation of the mutation phases. -/

theorem relocateApply_length (edges : List Nat) (e1s e2s : Nat) :
    (relocateApply edges e1s e2s).length = edges.length := by
  simp [relocateApply]

theorem orOptApply_length (edges : List Nat) (e1s e2s : Nat) :
    (orOptApply edges e1s e2s).length = edges.length := by
  simp [orOptApply]

theorem chainWrite_length_eq (arr : List Nat) (cur : Nat) :
    ∀ L : List Nat, (chainWrite arr cur L).1.length = arr.length := by
  intro L
  induction L generalizing arr cur with
  | nil => simp [chainWrite]
  | cons nx L ih =>
    have : chainWrite arr cur (nx :: L) = chainWrite (arr.set cur nx) nx L := by
      simp [chainWrite]
    rw [this, ih, List.length_set]

theorem twoOptApply_length (edges : List Nat) (e1s e2s : Nat) :
    (twoOptApply edges e1s e2s).length = edges.length := by
  simp [twoOptApply, chainWrite_length_eq]

/-- relocate_step mutation restores the Hamiltonian-cycle invariant: if the
tour reads e1s, e1e, then u, then e2s, then v, the new tour moves e1e to
sit right after e2s. -/
theorem relocateApply_hamTour {edges : List Nat} {e1s e1e e2s : Nat}
    {u v : List Nat}
    (h : HamTour edges (e1s :: e1e :: (u ++ e2s :: v))) :
    HamTour (relocateApply edges e1s e2s)
      (e1s :: (u ++ e2s :: e1e :: v)) := by
  have hnd := hamTour_nodup h
  have hbnd : ∀ b ∈ e1s :: e1e :: (u ++ e2s :: v), b < edges.length :=
    fun b hb => hamTour_mem_lt h hb
  -- distinctness facts
  have h1 : e1s ∉ e1e :: (u ++ e2s :: v) := (List.nodup_cons.1 hnd).1
  have hnd1 := (List.nodup_cons.1 hnd).2
  have h2 : e1e ∉ u ++ e2s :: v := (List.nodup_cons.1 hnd1).1
  have hnduv : (u ++ e2s :: v).Nodup := (List.nodup_cons.1 hnd1).2
  have h12 : e1s ≠ e1e := fun he => h1 (by simp [he])
  have h1u : e1s ∉ u := fun hm => h1 (by simp [hm])
  have h1e2 : e1s ≠ e2s := fun he => h1 (by simp [he])
  have h1v : e1s ∉ v := fun hm => h1 (by simp [hm])
  have h2u : e1e ∉ u := fun hm => h2 (by simp [hm])
  have h2e2 : e1e ≠ e2s := fun he => h2 (by simp [he])
  have h2v : e1e ∉ v := fun hm => h2 (by simp [hm])
  have hue2 : e2s ∉ u := by
    intro hm
    have := (List.nodup_append.1 hnduv).2.2
    exact this hm (by simp)
  have huv : ∀ a ∈ u, a ∉ v := by
    intro a ha hav
    have := (List.nodup_append.1 hnduv).2.2
    exact this ha (by simp [hav])
  have hve2 : e2s ∉ v := (List.nodup_cons.1 (List.nodup_append.1 hnduv).2.1).1
  -- bounds for the three written indices
  have hb1 : e1s < edges.length := hbnd e1s (by simp)
  have hb2 : e1e < edges.length := hbnd e1e (by simp)
  have hb3 : e2s < edges.length := hbnd e2s (by simp)
  -- chain pieces of the original tour
  have hchain := h.1
  simp only [TourChain, List.cons_append, List.append_assoc,
    List.chain_cons] at hchain
  obtain ⟨hR1, hrest⟩ := hchain
  rw [List.chain_split] at hrest
  obtain ⟨hA, hB⟩ := hrest
  -- names from the source mutation
  set nxt := edgeAt edges e1e with hnxt
  set e2e := edgeAt edges e2s with he2e
  have hedges' : relocateApply edges e1s e2s =
      ((edges.set e1s nxt).set e1e e2e).set e2s e1e := by
    simp [relocateApply, ← hR1, hnxt, he2e]
  -- reads in the rewritten array
  have ea1 : edgeAt (relocateApply edges e1s e2s) e1s = nxt := by
    rw [hedges', edgeAt_set_ne _ _ _ _ h1e2, edgeAt_set_ne _ _ _ _ h12,
      edgeAt_set_self _ _ _ hb1]
  have ea2 : edgeAt (relocateApply edges e1s e2s) e1e = e2e := by
    rw [hedges', edgeAt_set_ne _ _ _ _ h2e2,
      edgeAt_set_self _ _ _ (by simpa [List.length_set] using hb2)]
  have ea3 : edgeAt (relocateApply edges e1s e2s) e2s = e1e := by
    rw [hedges', edgeAt_set_self _ _ _ (by simpa [List.length_set] using hb3)]
  have eaO : ∀ j, j ≠ e1s → j ≠ e1e → j ≠ e2s →
      edgeAt (relocateApply edges e1s e2s) j = edgeAt edges j := by
    intro j hj1 hj2 hj3
    rw [hedges', edgeAt_set_ne _ _ _ _ hj3, edgeAt_set_ne _ _ _ _ hj2,
      edgeAt_set_ne _ _ _ _ hj1]
  constructor
  · -- the new tour chain
    show List.Chain (fun a b => edgeAt (relocateApply edges e1s e2s) a = b)
      e1s ((u ++ e2s :: e1e :: v) ++ [e1s])
    have hshape : (u ++ e2s :: e1e :: v) ++ [e1s] =
        u ++ e2s :: (e1e :: (v ++ [e1s])) := by simp
    rw [hshape, List.chain_split]
    constructor
    · -- from e1s through u to e2s
      cases u with
      | nil =>
        have hAe : edgeAt edges e1e = e2s := by
          have := hA
          simp only [List.nil_append, List.chain_cons] at this
          exact this.1
        simp only [List.nil_append, List.chain_cons]
        exact ⟨by rw [ea1, hnxt, hAe], List.Chain.nil⟩
      | cons u0 u' =>
        have hA' := hA
        simp only [List.cons_append, List.chain_cons] at hA'
        obtain ⟨hAe, hAc⟩ := hA'
        simp only [List.cons_append, List.chain_cons]
        refine ⟨by rw [ea1, hnxt, hAe], ?_⟩
        refine chain_congr_edges u' u0 e2s ?_ hAc
        intro b hb
        have hbu : b ∈ u0 :: u' := hb
        exact eaO b (fun he => h1u (he ▸ hbu))
          (fun he => h2u (he ▸ hbu)) (fun he => hue2 (he ▸ hbu))
    · -- from e2s over e1e through v back to e1s
      refine List.chain_cons.2 ⟨ea3, ?_⟩
      cases v with
      | nil =>
        have hBe : edgeAt edges e2s = e1s := by
          have := hB
          simp only [List.nil_append, List.chain_cons] at this
          exact this.1
        simp only [List.nil_append, List.chain_cons]
        exact ⟨by rw [ea2, he2e, hBe], List.Chain.nil⟩
      | cons v0 v' =>
        have hB' := hB
        simp only [List.cons_append, List.chain_cons] at hB'
        obtain ⟨hBe, hBc⟩ := hB'
        simp only [List.cons_append, List.chain_cons]
        refine ⟨by rw [ea2, he2e, hBe], ?_⟩
        refine chain_congr_edges v' v0 e1s ?_ hBc
        intro b hb
        have hbv : b ∈ v0 :: v' := hb
        exact eaO b (fun he => h1v (he ▸ hbv))
          (fun he => h2v (he ▸ hbv)) (fun he => hve2 (he ▸ hbv))
  · -- the new tour is a permutation of 0 .. N - 1
    have hp : (u ++ e2s :: e1e :: v).Perm (e1e :: (u ++ e2s :: v)) :=
      (List.Perm.append_left u (List.Perm.swap e1e e2s v)).trans
        List.perm_middle
    have hlen : (relocateApply edges e1s e2s).length = edges.length :=
      relocateApply_length edges e1s e2s
    rw [hlen]
    exact (List.Perm.cons e1s hp).trans h.2

/-- or_opt_step mutation restores the Hamiltonian-cycle invariant: if the
tour reads e1s, e1e, nxt, then u, then e2s, then v, the new tour moves the
pair (e1e, nxt) to sit right after e2s, keeping its orientation. -/
theorem orOptApply_hamTour {edges : List Nat} {e1s e1e nxt e2s : Nat}
    {u v : List Nat}
    (h : HamTour edges (e1s :: e1e :: nxt :: (u ++ e2s :: v))) :
    HamTour (orOptApply edges e1s e2s)
      (e1s :: (u ++ e2s :: e1e :: nxt :: v)) := by
  have hnd := hamTour_nodup h
  have hbnd : ∀ b ∈ e1s :: e1e :: nxt :: (u ++ e2s :: v),
      b < edges.length := fun b hb => hamTour_mem_lt h hb
  have h1 : e1s ∉ e1e :: nxt :: (u ++ e2s :: v) := (List.nodup_cons.1 hnd).1
  have hnd1 := (List.nodup_cons.1 hnd).2
  have h2 : e1e ∉ nxt :: (u ++ e2s :: v) := (List.nodup_cons.1 hnd1).1
  have hnd2 := (List.nodup_cons.1 hnd1).2
  have h3 : nxt ∉ u ++ e2s :: v := (List.nodup_cons.1 hnd2).1
  have hnduv : (u ++ e2s :: v).Nodup := (List.nodup_cons.1 hnd2).2
  have h12 : e1s ≠ e1e := fun he => h1 (by simp [he])
  have h13 : e1s ≠ nxt := fun he => h1 (by simp [he])
  have h1u : e1s ∉ u := fun hm => h1 (by simp [hm])
  have h1e2 : e1s ≠ e2s := fun he => h1 (by simp [he])
  have h1v : e1s ∉ v := fun hm => h1 (by simp [hm])
  have h23 : e1e ≠ nxt := fun he => h2 (by simp [he])
  have h2u : e1e ∉ u := fun hm => h2 (by simp [hm])
  have h2e2 : e1e ≠ e2s := fun he => h2 (by simp [he])
  have h2v : e1e ∉ v := fun hm => h2 (by simp [hm])
  have h3u : nxt ∉ u := fun hm => h3 (by simp [hm])
  have h3e2 : nxt ≠ e2s := fun he => h3 (by simp [he])
  have h3v : nxt ∉ v := fun hm => h3 (by simp [hm])
  have hue2 : e2s ∉ u := by
    intro hm
    exact (List.nodup_append.1 hnduv).2.2 hm (by simp)
  have hve2 : e2s ∉ v := (List.nodup_cons.1 (List.nodup_append.1 hnduv).2.1).1
  have hb1 : e1s < edges.length := hbnd e1s (by simp)
  have hb2 : e1e < edges.length := hbnd e1e (by simp)
  have hb3 : nxt < edges.length := hbnd nxt (by simp)
  have hb4 : e2s < edges.length := hbnd e2s (by simp)
  have hchain := h.1
  simp only [TourChain, List.cons_append, List.append_assoc,
    List.chain_cons] at hchain
  obtain ⟨hR1, hR2, hrest⟩ := hchain
  rw [List.chain_split] at hrest
  obtain ⟨hA, hB⟩ := hrest
  set nxt2 := edgeAt edges nxt with hnxt2
  set e2e := edgeAt edges e2s with he2e
  have hedges' : orOptApply edges e1s e2s =
      ((edges.set e1s nxt2).set nxt e2e).set e2s e1e := by
    have hread : edgeAt (edges.set e1s (edgeAt edges nxt)) e2s =
        edgeAt edges e2s :=
      edgeAt_set_ne _ _ _ _ h1e2.symm
    simp only [orOptApply, hR1, hR2, hread, hnxt2, he2e]
  have ea1 : edgeAt (orOptApply edges e1s e2s) e1s = nxt2 := by
    rw [hedges', edgeAt_set_ne _ _ _ _ h1e2, edgeAt_set_ne _ _ _ _ h13,
      edgeAt_set_self _ _ _ hb1]
  have eaMid : edgeAt (orOptApply edges e1s e2s) e1e = nxt := by
    rw [hedges', edgeAt_set_ne _ _ _ _ h2e2, edgeAt_set_ne _ _ _ _ h23,
      edgeAt_set_ne _ _ _ _ h12.symm, hR2]
  have ea2 : edgeAt (orOptApply edges e1s e2s) nxt = e2e := by
    rw [hedges', edgeAt_set_ne _ _ _ _ h3e2,
      edgeAt_set_self _ _ _ (by simpa [List.length_set] using hb3)]
  have ea3 : edgeAt (orOptApply edges e1s e2s) e2s = e1e := by
    rw [hedges', edgeAt_set_self _ _ _ (by simpa [List.length_set] using hb4)]
  have eaO : ∀ j, j ≠ e1s → j ≠ nxt → j ≠ e2s →
      edgeAt (orOptApply edges e1s e2s) j = edgeAt edges j := by
    intro j hj1 hj2 hj3
    rw [hedges', edgeAt_set_ne _ _ _ _ hj3, edgeAt_set_ne _ _ _ _ hj2,
      edgeAt_set_ne _ _ _ _ hj1]
  constructor
  · show List.Chain (fun a b => edgeAt (orOptApply edges e1s e2s) a = b)
      e1s ((u ++ e2s :: e1e :: nxt :: v) ++ [e1s])
    have hshape : (u ++ e2s :: e1e :: nxt :: v) ++ [e1s] =
        u ++ e2s :: (e1e :: nxt :: (v ++ [e1s])) := by simp
    rw [hshape, List.chain_split]
    constructor
    · cases u with
      | nil =>
        have hAe : edgeAt edges nxt = e2s := by
          have := hA
          simp only [List.nil_append, List.chain_cons] at this
          exact this.1
        simp only [List.nil_append, List.chain_cons]
        exact ⟨by rw [ea1, hnxt2, hAe], List.Chain.nil⟩
      | cons u0 u' =>
        have hA' := hA
        simp only [List.cons_append, List.chain_cons] at hA'
        obtain ⟨hAe, hAc⟩ := hA'
        simp only [List.cons_append, List.chain_cons]
        refine ⟨by rw [ea1, hnxt2, hAe], ?_⟩
        refine chain_congr_edges u' u0 e2s ?_ hAc
        intro b hb
        have hbu : b ∈ u0 :: u' := hb
        exact eaO b (fun he => h1u (he ▸ hbu))
          (fun he => h3u (he ▸ hbu)) (fun he => hue2 (he ▸ hbu))
    · refine List.chain_cons.2 ⟨ea3, ?_⟩
      refine List.chain_cons.2 ⟨eaMid, ?_⟩
      cases v with
      | nil =>
        have hBe : edgeAt edges e2s = e1s := by
          have := hB
          simp only [List.nil_append, List.chain_cons] at this
          exact this.1
        simp only [List.nil_append, List.chain_cons]
        exact ⟨by rw [ea2, he2e, hBe], List.Chain.nil⟩
      | cons v0 v' =>
        have hB' := hB
        simp only [List.cons_append, List.chain_cons] at hB'
        obtain ⟨hBe, hBc⟩ := hB'
        simp only [List.cons_append, List.chain_cons]
        refine ⟨by rw [ea2, he2e, hBe], ?_⟩
        refine chain_congr_edges v' v0 e1s ?_ hBc
        intro b hb
        have hbv : b ∈ v0 :: v' := hb
        exact eaO b (fun he => h1v (he ▸ hbv))
          (fun he => h3v (he ▸ hbv)) (fun he => hve2 (he ▸ hbv))
  · have hp : (u ++ e2s :: e1e :: nxt :: v).Perm
        (e1e :: nxt :: (u ++ e2s :: v)) :=
      ((List.Perm.append_left u
        ((List.Perm.swap e1e e2s (nxt :: v)).trans
          (List.Perm.cons e1e (List.Perm.swap nxt e2s v)))).trans
        List.perm_middle).trans (List.Perm.cons e1e List.perm_middle)
    have hlen : (orOptApply edges e1s e2s).length = edges.length :=
      orOptApply_length edges e1s e2s
    rw [hlen]
    exact (List.Perm.cons e1s hp).trans h.2

/-- two_opt_step mutation restores the Hamiltonian-cycle invariant: if the
tour reads e1s, e1e, then m, then e2s, then v, the new tour replaces the
edges out of e1s and e2s and reverses the segment from e1e to e2s. -/
theorem twoOptApply_hamTour {edges : List Nat} {e1s e1e e2s : Nat}
    {m v : List Nat}
    (h : HamTour edges (e1s :: e1e :: (m ++ e2s :: v))) :
    HamTour (twoOptApply edges e1s e2s)
      (e1s :: e2s :: (m.reverse ++ e1e :: v)) := by
  have hnd := hamTour_nodup h
  have hbnd : ∀ b ∈ e1s :: e1e :: (m ++ e2s :: v), b < edges.length :=
    fun b hb => hamTour_mem_lt h hb
  have h1 : e1s ∉ e1e :: (m ++ e2s :: v) := (List.nodup_cons.1 hnd).1
  have hnd1 := (List.nodup_cons.1 hnd).2
  have h2 : e1e ∉ m ++ e2s :: v := (List.nodup_cons.1 hnd1).1
  have hndmv : (m ++ e2s :: v).Nodup := (List.nodup_cons.1 hnd1).2
  have h12 : e1s ≠ e1e := fun he => h1 (by simp [he])
  have h1m : e1s ∉ m := fun hm => h1 (by simp [hm])
  have h1e2 : e1s ≠ e2s := fun he => h1 (by simp [he])
  have h1v : e1s ∉ v := fun hm => h1 (by simp [hm])
  have h2m : e1e ∉ m := fun hm => h2 (by simp [hm])
  have h2e2 : e1e ≠ e2s := fun he => h2 (by simp [he])
  have h2v : e1e ∉ v := fun hm => h2 (by simp [hm])
  have hndm : m.Nodup := (List.nodup_append.1 hndmv).1
  have hme2 : e2s ∉ m := by
    intro hm
    exact (List.nodup_append.1 hndmv).2.2 hm (by simp)
  have hmv : ∀ a ∈ m, a ∉ v := by
    intro a ha hav
    exact (List.nodup_append.1 hndmv).2.2 ha (by simp [hav])
  have hve2 : e2s ∉ v :=
    (List.nodup_cons.1 (List.nodup_append.1 hndmv).2.1).1
  have hb1 : e1s < edges.length := hbnd e1s (by simp)
  have hb2 : e1e < edges.length := hbnd e1e (by simp)
  have hb3 : e2s < edges.length := hbnd e2s (by simp)
  have hbm : ∀ b ∈ m, b < edges.length :=
    fun b hb => hbnd b (by simp [hb])
  have hbv : ∀ b ∈ v, b < edges.length :=
    fun b hb => hbnd b (by simp [hb])
  have hchain := h.1
  simp only [TourChain, List.cons_append, List.append_assoc,
    List.chain_cons] at hchain
  obtain ⟨hR1, hrest⟩ := hchain
  rw [List.chain_split] at hrest
  obtain ⟨hA, hB⟩ := hrest
  set e2e := edgeAt edges e2s with he2e
  -- the collected to_reverse segment is exactly e1e :: m
  have hlent : (e1s :: e1e :: (m ++ e2s :: v)).length = edges.length :=
    hamTour_length h
  have hwalk : walkTo edges e1e e2s edges.length = e1e :: m := by
    refine walkTo_eq m e1e e2s edges.length hA ?_ ?_ ?_
    · exact List.nodup_cons.2 ⟨h2m, hndm⟩
    · intro hm
      rcases List.mem_cons.1 hm with h' | h'
      · exact h2e2 h'.symm
      · exact hme2 h'
    · simp at hlent ⊢
      omega
  -- unfold the mutation
  have happly : twoOptApply edges e1s e2s =
      ((chainWrite (edges.set e1s e2s) e2s (m.reverse ++ [e1e])).1.set
        (chainWrite (edges.set e1s e2s) e2s (m.reverse ++ [e1e])).2 e2e) := by
    simp only [twoOptApply, hR1, hwalk, List.reverse_cons, he2e]
  have hndL : (e2s :: (m.reverse ++ [e1e])).Nodup := by
    refine List.nodup_cons.2 ⟨?_, ?_⟩
    · intro hm
      rcases List.mem_append.1 hm with h' | h'
      · exact hme2 (List.mem_reverse.1 h')
      · simp only [List.mem_singleton] at h'
        exact h2e2 h'.symm
    · rw [List.nodup_append]
      refine ⟨List.nodup_reverse.2 hndm, List.nodup_singleton e1e, ?_⟩
      intro a ha hae
      simp only [List.mem_singleton] at hae
      exact h2m (hae ▸ List.mem_reverse.1 ha)
  have hbndL : ∀ b ∈ e2s :: (m.reverse ++ [e1e]),
      b < (edges.set e1s e2s).length := by
    intro b hb
    rw [List.length_set]
    rcases List.mem_cons.1 hb with h' | h'
    · exact h' ▸ hb3
    · rcases List.mem_append.1 h' with h'' | h''
      · exact hbm b (List.mem_reverse.1 h'')
      · simp only [List.mem_singleton] at h''
        exact h'' ▸ hb2
  obtain ⟨hcw2, hcwlen, hcwout, hcwchain⟩ :=
    chainWrite_spec (edges.set e1s e2s) e2s hndL hbndL
  have hcw2' : (chainWrite (edges.set e1s e2s) e2s (m.reverse ++ [e1e])).2 =
      e1e := by
    rw [hcw2, List.getLastD_concat]
  have hdrop : (m.reverse ++ [e1e]).dropLast = m.reverse := by
    simp
  have hedges' : twoOptApply edges e1s e2s =
      (chainWrite (edges.set e1s e2s) e2s (m.reverse ++ [e1e])).1.set
        e1e e2e := by
    rw [happly, hcw2']
  have hblen : e1e <
      (chainWrite (edges.set e1s e2s) e2s (m.reverse ++ [e1e])).1.length := by
    rw [hcwlen, List.length_set]
    exact hb2
  -- reads in the final array
  have eaFin : ∀ j, j ≠ e1e →
      edgeAt (twoOptApply edges e1s e2s) j =
        edgeAt (chainWrite (edges.set e1s e2s) e2s (m.reverse ++ [e1e])).1 j := by
    intro j hj
    rw [hedges', edgeAt_set_ne _ _ _ _ hj]
  have ea2 : edgeAt (twoOptApply edges e1s e2s) e1e = e2e := by
    rw [hedges', edgeAt_set_self _ _ _ hblen]
  have eaOut : ∀ j, j ≠ e1e → j ≠ e2s → j ∉ m →
      edgeAt (twoOptApply edges e1s e2s) j = edgeAt (edges.set e1s e2s) j := by
    intro j hj1 hj2 hjm
    rw [eaFin j hj1]
    refine hcwout j ?_
    rw [hdrop]
    intro hm
    rcases List.mem_cons.1 hm with h' | h'
    · exact hj2 h'
    · exact hjm (List.mem_reverse.1 h')
  have ea1 : edgeAt (twoOptApply edges e1s e2s) e1s = e2s := by
    rw [eaOut e1s h12 h1e2 h1m, edgeAt_set_self _ _ _ hb1]
  constructor
  · show List.Chain (fun a b => edgeAt (twoOptApply edges e1s e2s) a = b)
      e1s ((e2s :: (m.reverse ++ e1e :: v)) ++ [e1s])
    have hshape : (e2s :: (m.reverse ++ e1e :: v)) ++ [e1s] =
        e2s :: (m.reverse ++ e1e :: (v ++ [e1s])) := by simp
    rw [hshape]
    refine List.chain_cons.2 ⟨ea1, ?_⟩
    rw [List.chain_split]
    constructor
    · -- reversed segment: transport the chainWrite chain to the final array
      have hc : List.Chain
          (fun a b =>
            edgeAt (chainWrite (edges.set e1s e2s) e2s
              (m.reverse ++ [e1e])).1 a = b)
          e2s (m.reverse ++ [e1e]) := hcwchain
      refine chain_congr_edges m.reverse e2s e1e ?_ hc
      intro b hb
      have hbne : b ≠ e1e := by
        intro he
        rcases List.mem_cons.1 hb with h' | h'
        · exact h2e2 (he.symm.trans h')
        · exact h2m (he ▸ List.mem_reverse.1 h')
      exact eaFin b hbne
    · -- from e1e through v back to e1s
      cases v with
      | nil =>
        have hBe : edgeAt edges e2s = e1s := by
          have := hB
          simp only [List.nil_append, List.chain_cons] at this
          exact this.1
        simp only [List.nil_append, List.chain_cons]
        exact ⟨by rw [ea2, he2e, hBe], List.Chain.nil⟩
      | cons v0 v' =>
        have hB' := hB
        simp only [List.cons_append, List.chain_cons] at hB'
        obtain ⟨hBe, hBc⟩ := hB'
        simp only [List.cons_append, List.chain_cons]
        refine ⟨by rw [ea2, he2e, hBe], ?_⟩
        have hBc' : List.Chain (fun a b => edgeAt (edges.set e1s e2s) a = b)
            v0 (v' ++ [e1s]) := by
          refine chain_congr_edges v' v0 e1s ?_ hBc
          intro b hb
          have : b ≠ e1s := by
            intro he
            exact h1v (he ▸ hb)
          exact edgeAt_set_ne _ _ _ _ this
        refine chain_congr_edges v' v0 e1s ?_ hBc'
        intro b hb
        have hbv' : b ∈ v0 :: v' := hb
        refine eaOut b (fun he => h2v (he ▸ hbv'))
          (fun he => hve2 (he ▸ hbv')) (fun hm => hmv b hm hbv')
  · have hp : (e2s :: (m.reverse ++ e1e :: v)).Perm
        (e1e :: (m ++ e2s :: v)) := by
      refine (List.Perm.cons e2s List.perm_middle).trans ?_
      refine (List.Perm.swap e1e e2s (m.reverse ++ v)).trans ?_
      refine (List.Perm.cons e1e (List.Perm.cons e2s
        ((List.reverse_perm m).append_right v))).trans ?_
      exact List.Perm.cons e1e List.perm_middle.symm
    have hlen : (twoOptApply edges e1s e2s).length = edges.length :=
      twoOptApply_length edges e1s e2s
    rw [hlen]
    exact (List.Perm.cons e1s hp).trans h.2

/-- Successor of the element preceding l in a cyclic decomposition: the
head of l, or the wrap-around node w when l is empty. -/
def headWrap (l : List Nat) (w : Nat) : Nat :=
  match l with
  | [] => w
  | x :: _ => x

theorem pathCost_split_mid (d : Nat → Nat → Nat) (x b : Nat)
    (l₁ l₂ : List Nat) :
    pathCost d x (l₁ ++ b :: l₂) =
      pathCost d x (l₁ ++ [b]) + pathCost d b l₂ := by
  rw [pathCost_append d l₁ x (b :: l₂), pathCost_append d l₁ x [b]]
  simp [pathCost]
  omega

/-- Cost identity of the relocate move, as a pure cyclic-list fact: moving
e1e from between e1s and its old successor to between e2s and its old
successor trades the three old edges for the three new ones. -/
theorem tspCost_relocate (d : Nat → Nat → Nat) (e1s e1e e2s : Nat)
    (u v : List Nat) :
    tspCost d (e1s :: (u ++ e2s :: e1e :: v)) +
      (d e1s e1e + d e1e (headWrap u e2s) + d e2s (headWrap v e1s)) =
    tspCost d (e1s :: e1e :: (u ++ e2s :: v)) +
      (d e1s (headWrap u e2s) + d e2s e1e + d e1e (headWrap v e1s)) := by
  have hold : tspCost d (e1s :: e1e :: (u ++ e2s :: v)) =
      d e1s e1e + (pathCost d e1e (u ++ [e2s]) +
        pathCost d e2s (v ++ [e1s])) := by
    have h1 : tspCost d (e1s :: e1e :: (u ++ e2s :: v)) =
        pathCost d e1s (e1e :: (u ++ e2s :: (v ++ [e1s]))) := by
      simp [tspCost]
    rw [h1, pathCost_cons, pathCost_split_mid d e1e e2s u (v ++ [e1s]),
      pathCost_split_mid d e2s e1s v []]
  have hnew : tspCost d (e1s :: (u ++ e2s :: e1e :: v)) =
      pathCost d e1s (u ++ [e2s]) + (d e2s e1e +
        pathCost d e1e (v ++ [e1s])) := by
    have h1 : tspCost d (e1s :: (u ++ e2s :: e1e :: v)) =
        pathCost d e1s (u ++ e2s :: (e1e :: (v ++ [e1s]))) := by
      simp [tspCost]
    rw [h1, pathCost_split_mid d e1s e2s u (e1e :: (v ++ [e1s])),
      pathCost_cons, pathCost_split_mid d e1e e1s v []]
  rw [hold, hnew]
  cases u with
  | nil =>
    cases v with
    | nil => simp [pathCost, headWrap]; omega
    | cons v0 v' => simp [pathCost, headWrap, pathCost_cons]; omega
  | cons u0 u' =>
    cases v with
    | nil => simp [pathCost, headWrap, pathCost_cons]; omega
    | cons v0 v' => simp [pathCost, headWrap, pathCost_cons]; omega

/-- Cost identity of the or-opt move: relocating the pair (e1e, nxt) keeps
the internal edge and trades the three boundary edges. -/
theorem tspCost_orOpt (d : Nat → Nat → Nat) (e1s e1e nxt e2s : Nat)
    (u v : List Nat) :
    tspCost d (e1s :: (u ++ e2s :: e1e :: nxt :: v)) +
      (d e1s e1e + d nxt (headWrap u e2s) + d e2s (headWrap v e1s)) =
    tspCost d (e1s :: e1e :: nxt :: (u ++ e2s :: v)) +
      (d e1s (headWrap u e2s) + d e2s e1e + d nxt (headWrap v e1s)) := by
  have hold : tspCost d (e1s :: e1e :: nxt :: (u ++ e2s :: v)) =
      d e1s e1e + (d e1e nxt + (pathCost d nxt (u ++ [e2s]) +
        pathCost d e2s (v ++ [e1s]))) := by
    have h1 : tspCost d (e1s :: e1e :: nxt :: (u ++ e2s :: v)) =
        pathCost d e1s (e1e :: nxt :: (u ++ e2s :: (v ++ [e1s]))) := by
      simp [tspCost]
    rw [h1, pathCost_cons, pathCost_cons,
      pathCost_split_mid d nxt e2s u (v ++ [e1s]),
      pathCost_split_mid d e2s e1s v []]
  have hnew : tspCost d (e1s :: (u ++ e2s :: e1e :: nxt :: v)) =
      pathCost d e1s (u ++ [e2s]) + (d e2s e1e + (d e1e nxt +
        pathCost d nxt (v ++ [e1s]))) := by
    have h1 : tspCost d (e1s :: (u ++ e2s :: e1e :: nxt :: v)) =
        pathCost d e1s (u ++ e2s :: (e1e :: nxt :: (v ++ [e1s]))) := by
      simp [tspCost]
    rw [h1, pathCost_split_mid d e1s e2s u (e1e :: nxt :: (v ++ [e1s])),
      pathCost_cons, pathCost_cons, pathCost_split_mid d nxt e1s v []]
  rw [hold, hnew]
  cases u with
  | nil =>
    cases v with
    | nil => simp [pathCost, headWrap]; omega
    | cons v0 v' => simp [pathCost, headWrap, pathCost_cons]; omega
  | cons u0 u' =>
    cases v with
    | nil => simp [pathCost, headWrap, pathCost_cons]; omega
    | cons v0 v' => simp [pathCost, headWrap, pathCost_cons]; omega

/-- Cost identity of the two-opt move: for a symmetric matrix the reversed
segment keeps its cost, and the two cut edges are traded for the two new
ones. -/
theorem tspCost_twoOpt (d : Nat → Nat → Nat)
    (hsym : ∀ i j, d i j = d j i) (e1s e1e e2s : Nat) (m v : List Nat) :
    tspCost d (e1s :: e2s :: (m.reverse ++ e1e :: v)) +
      (d e1s e1e + d e2s (headWrap v e1s)) =
    tspCost d (e1s :: e1e :: (m ++ e2s :: v)) +
      (d e1s e2s + d e1e (headWrap v e1s)) := by
  have hold : tspCost d (e1s :: e1e :: (m ++ e2s :: v)) =
      d e1s e1e + (pathCost d e1e (m ++ [e2s]) +
        pathCost d e2s (v ++ [e1s])) := by
    have h1 : tspCost d (e1s :: e1e :: (m ++ e2s :: v)) =
        pathCost d e1s (e1e :: (m ++ e2s :: (v ++ [e1s]))) := by
      simp [tspCost]
    rw [h1, pathCost_cons, pathCost_split_mid d e1e e2s m (v ++ [e1s])]
  have hrev : pathCost d e2s (m.reverse ++ [e1e]) =
      pathCost d e1e (m ++ [e2s]) := by
    rw [pathCost_reverse d hsym m.reverse e2s e1e, List.reverse_reverse]
  have hnew : tspCost d (e1s :: e2s :: (m.reverse ++ e1e :: v)) =
      d e1s e2s + (pathCost d e1e (m ++ [e2s]) +
        pathCost d e1e (v ++ [e1s])) := by
    have h1 : tspCost d (e1s :: e2s :: (m.reverse ++ e1e :: v)) =
        pathCost d e1s (e2s :: (m.reverse ++ e1e :: (v ++ [e1s]))) := by
      simp [tspCost]
    rw [h1, pathCost_cons,
      pathCost_split_mid d e2s e1e m.reverse (v ++ [e1s]), hrev]
  rw [hold, hnew]
  cases v with
  | nil => simp [pathCost, headWrap]; omega
  | cons v0 v' => simp [pathCost, headWrap, pathCost_cons]; omega

/-! Candidate lists: each operator scan is a strict-improvement fold over
an explicit list of improving candidates, read off from the loops. -/

/-- Concatenation of per-outer-index candidate lists. -/
def catLists (c : Nat → List Best) : List Nat → List Best
  | [] => []
  | x :: xs => c x ++ catLists c xs

/-- Concatenation of a list of candidate lists. -/
def joinAll : List (List Best) → List Best
  | [] => []
  | s :: ss => s ++ joinAll ss

/-- Improving two-opt candidate for the pair (e1s, e2s), when the pair is
admissible and the move strictly improves. -/
def twoOptCandAt (d : Nat → Nat → Nat) (edges : List Nat)
    (e1s e2s : Nat) : Option Best :=
  let e1e := edgeAt edges e1s
  let e2e := edgeAt edges e2s
  if e2s = e1e ∨ e2e = e1s then none
  else
    let before := d e1s e1e + d e2s e2e
    let after := d e1s e2s + d e1e e2e
    if after < before then some (before - after, e1s, e2s) else none

/-- Improving two-opt candidates of one outer index, in inner-loop order. -/
def twoOptCands (d : Nat → Nat → Nat) (edges : List Nat) (e1s : Nat) :
    List Best :=
  (List.range' (e1s + 1) (edges.length - (e1s + 1))).filterMap
    (twoOptCandAt d edges e1s)

/-- All improving two-opt candidates, in the scan order of the loops. -/
def twoOptAllCands (d : Nat → Nat → Nat) (edges : List Nat) : List Best :=
  catLists (twoOptCands d edges) (List.range edges.length)

/-- Improving relocate candidate for (e1s, e2s). -/
def relocateCandAt (d : Nat → Nat → Nat) (edges : List Nat)
    (e1s e1e nxt e2s : Nat) : Option Best :=
  let e2e := edgeAt edges e2s
  let before := d e1s e1e + d e1e nxt + d e2s e2e
  let after := d e1s nxt + d e2s e1e + d e1e e2e
  if after < before then some (before - after, e1s, e2s) else none

/-- Improving relocate candidates along the inner walk. -/
def relocateCandWalk (d : Nat → Nat → Nat) (edges : List Nat)
    (e1s e1e nxt : Nat) : Nat → Nat → List Best
  | 0, _ => []
  | fuel + 1, e2s =>
    if e2s = e1s then []
    else
      match relocateCandAt d edges e1s e1e nxt e2s with
      | some c =>
        c :: relocateCandWalk d edges e1s e1e nxt fuel (edgeAt edges e2s)
      | none => relocateCandWalk d edges e1s e1e nxt fuel (edgeAt edges e2s)

/-- Improving relocate candidates of one outer index. -/
def relocateCands (d : Nat → Nat → Nat) (edges : List Nat) (e1s : Nat) :
    List Best :=
  let e1e := edgeAt edges e1s
  let nxt := edgeAt edges e1e
  relocateCandWalk d edges e1s e1e nxt edges.length nxt

/-- All improving relocate candidates, in scan order. -/
def relocateAllCands (d : Nat → Nat → Nat) (edges : List Nat) :
    List Best :=
  catLists (relocateCands d edges) (List.range edges.length)

/-- Improving or-opt candidate for (e1s, e2s). -/
def orOptCandAt (d : Nat → Nat → Nat) (edges : List Nat)
    (e1s e1e nxt nxt2 e2s : Nat) : Option Best :=
  let e2e := edgeAt edges e2s
  let before := d e1s e1e + d nxt nxt2 + d e2s e2e
  let after := d e1s nxt2 + d e2s e1e + d nxt e2e
  if after < before then some (before - after, e1s, e2s) else none

/-- Improving or-opt candidates along the inner walk. -/
def orOptCandWalk (d : Nat → Nat → Nat) (edges : List Nat)
    (e1s e1e nxt nxt2 : Nat) : Nat → Nat → List Best
  | 0, _ => []
  | fuel + 1, e2s =>
    if e2s = e1s then []
    else
      match orOptCandAt d edges e1s e1e nxt nxt2 e2s with
      | some c =>
        c :: orOptCandWalk d edges e1s e1e nxt nxt2 fuel (edgeAt edges e2s)
      | none => orOptCandWalk d edges e1s e1e nxt nxt2 fuel (edgeAt edges e2s)

/-- Improving or-opt candidates of one outer index. -/
def orOptCands (d : Nat → Nat → Nat) (edges : List Nat) (e1s : Nat) :
    List Best :=
  let e1e := edgeAt edges e1s
  let nxt := edgeAt edges e1e
  let nxt2 := edgeAt edges nxt
  orOptCandWalk d edges e1s e1e nxt nxt2 edges.length nxt2

/-- All improving or-opt candidates, in scan order. -/
def orOptAllCands (d : Nat → Nat → Nat) (edges : List Nat) : List Best :=
  catLists (orOptCands d edges) (List.range edges.length)

/-! Algebra of the strict-improvement fold. -/

theorem mergeBest_assoc (a b c : Best) :
    mergeBest (mergeBest a b) c = mergeBest a (mergeBest b c) := by
  simp only [mergeBest]
  split_ifs <;> first | rfl | (exfalso; omega)

theorem mergeBest_zero (a : Best) : mergeBest a (0, 0, 0) = a := by
  simp only [mergeBest]
  split_ifs with h
  · exact absurd h (Nat.not_lt_zero _)
  · rfl

theorem mergeBest_absorb (a c : Best) :
    mergeBest a (mergeBest (0, 0, 0) c) = mergeBest a c := by
  simp only [mergeBest]
  split_ifs <;> first | rfl | (exfalso; omega)

theorem foldl_mergeBest_eq (s : List Best) :
    ∀ a : Best,
      s.foldl mergeBest a = mergeBest a (s.foldl mergeBest (0, 0, 0)) := by
  induction s with
  | nil => intro a; exact (mergeBest_zero a).symm
  | cons c s ih =>
    intro a
    simp only [List.foldl_cons]
    rw [ih (mergeBest a c), ih (mergeBest (0, 0, 0) c), ← mergeBest_assoc,
      mergeBest_absorb]

theorem foldl_mergeBest_join :
    ∀ (segs : List (List Best)) (a : Best),
      (segs.map (fun s => s.foldl mergeBest (0, 0, 0))).foldl mergeBest a =
        (joinAll segs).foldl mergeBest a := by
  intro segs
  induction segs with
  | nil => intro a; rfl
  | cons s ss ih =>
    intro a
    simp only [List.map_cons, joinAll, List.foldl_cons]
    rw [ih, List.foldl_append, ← foldl_mergeBest_eq s a]

theorem reduceBest_join (segs : List (List Best)) :
    reduceBest (segs.map (fun s => s.foldl mergeBest (0, 0, 0))) =
      (joinAll segs).foldl mergeBest (0, 0, 0) :=
  foldl_mergeBest_join segs (0, 0, 0)

/-! Each look_up lambda is the strict-improvement fold over its candidate
list. -/

theorem foldl_merge_catLists (c : Nat → List Best) :
    ∀ (l : List Nat) (acc : Best),
      l.foldl (fun a x => (c x).foldl mergeBest a) acc =
        (catLists c l).foldl mergeBest acc := by
  intro l
  induction l with
  | nil => intro acc; rfl
  | cons x xs ih =>
    intro acc
    simp only [List.foldl_cons, catLists]
    rw [ih, List.foldl_append]

theorem twoOptCheck_eq_candAt (d : Nat → Nat → Nat) (edges : List Nat)
    (e1s : Nat) (acc : Best) (e2s : Nat) :
    twoOptCheck d edges e1s acc e2s =
      match twoOptCandAt d edges e1s e2s with
      | some c => mergeBest acc c
      | none => acc := by
  simp only [twoOptCheck, twoOptCandAt]
  split_ifs <;> rfl

theorem foldl_twoOptCheck (d : Nat → Nat → Nat) (edges : List Nat)
    (e1s : Nat) :
    ∀ (l : List Nat) (acc : Best),
      l.foldl (twoOptCheck d edges e1s) acc =
        (l.filterMap (twoOptCandAt d edges e1s)).foldl mergeBest acc := by
  intro l
  induction l with
  | nil => intro acc; rfl
  | cons x xs ih =>
    intro acc
    simp only [List.foldl_cons, List.filterMap_cons]
    rw [twoOptCheck_eq_candAt]
    cases twoOptCandAt d edges e1s x with
    | none => exact ih acc
    | some c => simp only [List.foldl_cons]; exact ih (mergeBest acc c)

theorem twoOptLookUp_eq (d : Nat → Nat → Nat) (edges : List Nat)
    (s e : Nat) :
    twoOptLookUp d edges s e =
      (catLists (twoOptCands d edges) (List.range' s (e - s))).foldl
        mergeBest (0, 0, 0) := by
  unfold twoOptLookUp
  have hfun : (fun (acc : Best) e1s =>
      (List.range' (e1s + 1) (edges.length - (e1s + 1))).foldl
        (twoOptCheck d edges e1s) acc) =
      (fun (acc : Best) e1s =>
        (twoOptCands d edges e1s).foldl mergeBest acc) := by
    funext acc e1s
    rw [foldl_twoOptCheck]
    rfl
  rw [hfun]
  exact foldl_merge_catLists (twoOptCands d edges) _ _

theorem relocateInner_eq (d : Nat → Nat → Nat) (edges : List Nat)
    (e1s e1e nxt : Nat) :
    ∀ (fuel e2s : Nat) (acc : Best),
      relocateInner d edges e1s e1e nxt fuel e2s acc =
        (relocateCandWalk d edges e1s e1e nxt fuel e2s).foldl
          mergeBest acc := by
  intro fuel
  induction fuel with
  | zero => intro e2s acc; rfl
  | succ fuel ih =>
    intro e2s acc
    by_cases h1 : e2s = e1s
    · simp [relocateInner, relocateCandWalk, h1]
    · simp only [relocateInner, relocateCandWalk, if_neg h1,
        relocateCandAt]
      by_cases h2 : d e1s nxt + d e2s e1e + d e1e (edgeAt edges e2s) <
          d e1s e1e + d e1e nxt + d e2s (edgeAt edges e2s)
      · simp only [if_pos h2]
        rw [ih]
        rfl
      · simp only [if_neg h2]
        rw [ih]

theorem relocateLookUp_eq (d : Nat → Nat → Nat) (edges : List Nat)
    (s e : Nat) :
    relocateLookUp d edges s e =
      (catLists (relocateCands d edges) (List.range' s (e - s))).foldl
        mergeBest (0, 0, 0) := by
  unfold relocateLookUp
  have hfun : (fun (acc : Best) e1s =>
      relocateInner d edges e1s (edgeAt edges e1s)
        (edgeAt edges (edgeAt edges e1s)) edges.length
        (edgeAt edges (edgeAt edges e1s)) acc) =
      (fun (acc : Best) e1s =>
        (relocateCands d edges e1s).foldl mergeBest acc) := by
    funext acc e1s
    rw [relocateInner_eq]
    rfl
  rw [hfun]
  exact foldl_merge_catLists (relocateCands d edges) _ _

theorem orOptInner_eq (d : Nat → Nat → Nat) (edges : List Nat)
    (e1s e1e nxt nxt2 : Nat) :
    ∀ (fuel e2s : Nat) (acc : Best),
      orOptInner d edges e1s e1e nxt nxt2 fuel e2s acc =
        (orOptCandWalk d edges e1s e1e nxt nxt2 fuel e2s).foldl
          mergeBest acc := by
  intro fuel
  induction fuel with
  | zero => intro e2s acc; rfl
  | succ fuel ih =>
    intro e2s acc
    by_cases h1 : e2s = e1s
    · simp [orOptInner, orOptCandWalk, h1]
    · simp only [orOptInner, orOptCandWalk, if_neg h1, orOptCandAt]
      by_cases h2 : d e1s nxt2 + d e2s e1e + d nxt (edgeAt edges e2s) <
          d e1s e1e + d nxt nxt2 + d e2s (edgeAt edges e2s)
      · simp only [if_pos h2]
        rw [ih]
        rfl
      · simp only [if_neg h2]
        rw [ih]

theorem orOptLookUp_eq (d : Nat → Nat → Nat) (edges : List Nat)
    (s e : Nat) :
    orOptLookUp d edges s e =
      (catLists (orOptCands d edges) (List.range' s (e - s))).foldl
        mergeBest (0, 0, 0) := by
  unfold orOptLookUp
  have hfun : (fun (acc : Best) e1s =>
      orOptInner d edges e1s (edgeAt edges e1s)
        (edgeAt edges (edgeAt edges e1s))
        (edgeAt edges (edgeAt edges (edgeAt edges e1s))) edges.length
        (edgeAt edges (edgeAt edges (edgeAt edges e1s))) acc) =
      (fun (acc : Best) e1s =>
        (orOptCands d edges e1s).foldl mergeBest acc) := by
    funext acc e1s
    rw [orOptInner_eq]
    rfl
  rw [hfun]
  exact foldl_merge_catLists (orOptCands d edges) _ _

/-! From per-worker scans to the single candidate-list fold. -/

/-- Concatenation of the index ranges [p.1, p.2) of a pair list. -/
def catRanges : List (Nat × Nat) → List Nat
  | [] => []
  | p :: ps => List.range' p.1 (p.2 - p.1) ++ catRanges ps

theorem catLists_append (c : Nat → List Best) (l₁ l₂ : List Nat) :
    catLists c (l₁ ++ l₂) = catLists c l₁ ++ catLists c l₂ := by
  induction l₁ with
  | nil => rfl
  | cons x xs ih => simp [catLists, ih]

theorem joinAll_catRanges (c : Nat → List Best) :
    ∀ ps : List (Nat × Nat),
      joinAll (ps.map (fun p => catLists c (List.range' p.1 (p.2 - p.1)))) =
        catLists c (catRanges ps) := by
  intro ps
  induction ps with
  | nil => rfl
  | cons p ps ih => simp [joinAll, catRanges, catLists_append, ih]

theorem workerResults_fold (c : Nat → List Best)
    (lookUp : Nat → Nat → Best)
    (hl : ∀ s e, lookUp s e =
      (catLists c (List.range' s (e - s))).foldl mergeBest (0, 0, 0))
    (limits : List Nat) :
    reduceBest (workerResults lookUp limits) =
      (catLists c (catRanges (limits.zip limits.tail))).foldl
        mergeBest (0, 0, 0) := by
  unfold workerResults
  have hmap : (limits.zip limits.tail).map (fun p => lookUp p.1 p.2) =
      ((limits.zip limits.tail).map
        (fun p => catLists c (List.range' p.1 (p.2 - p.1)))).map
        (fun s => s.foldl mergeBest (0, 0, 0)) := by
    rw [List.map_map]
    exact List.map_congr_left (fun p _ => hl p.1 p.2)
  rw [hmap, reduceBest_join, joinAll_catRanges]

/-! The ranges of a monotone limits list concatenate to one range. -/

theorem chain_le_head_getLast :
    ∀ (limits : List Nat) (a b : Nat), limits.head? = some a →
      limits.getLast? = some b → List.Chain' (· ≤ ·) limits → a ≤ b
  | [], a, b, ha, _, _ => by simp at ha
  | [x], a, b, ha, hb, _ => by
    simp at ha hb
    omega
  | x :: y :: rest, a, b, ha, hb, hc => by
    simp only [List.head?_cons, Option.some.injEq] at ha
    have hxy : x ≤ y := (List.chain'_cons.1 hc).1
    have := chain_le_head_getLast (y :: rest) y b (by simp)
      (by simpa using hb) (List.chain'_cons.1 hc).2
    omega

theorem catRanges_zip_eq :
    ∀ (limits : List Nat) (a b : Nat), limits.head? = some a →
      limits.getLast? = some b → List.Chain' (· ≤ ·) limits →
      catRanges (limits.zip limits.tail) = List.range' a (b - a)
  | [], a, b, ha, _, _ => by simp at ha
  | [x], a, b, ha, hb, _ => by
    simp only [List.head?_cons, Option.some.injEq] at ha
    simp only [List.getLast?_singleton, Option.some.injEq] at hb
    subst ha
    subst hb
    simp [catRanges]
  | x :: y :: rest, a, b, ha, hb, hc => by
    simp only [List.head?_cons, Option.some.injEq] at ha
    subst ha
    have hxy : x ≤ y := (List.chain'_cons.1 hc).1
    have hyb : y ≤ b := chain_le_head_getLast (y :: rest) y b (by simp)
      (by simpa using hb) (List.chain'_cons.1 hc).2
    have ih := catRanges_zip_eq (y :: rest) y b (by simp)
      (by simpa using hb) (List.chain'_cons.1 hc).2
    show List.range' x (y - x) ++ catRanges ((y :: rest).zip (y :: rest).tail) =
      List.range' x (b - x)
    rw [ih]
    have hr := List.range'_append x (y - x) (b - y) 1
    simp only [one_mul, Nat.mul_one] at hr
    rw [show x + (y - x) = y by omega] at hr
    rw [hr]
    congr 1
    omega

theorem validPartition_catRanges {n : Nat} {limits : List Nat}
    (h : validPartition n limits) :
    catRanges (limits.zip limits.tail) = List.range n := by
  obtain ⟨h0, hn, hc⟩ := h
  rw [catRanges_zip_eq limits 0 n h0 hn hc]
  simp [List.range_eq_range']

/-! Two-opt worker limits: outer indices at or beyond N - 1 contribute no
candidates (the inner range is empty), so only the limits clipped to
N - 1 matter.  The constructor's _sym_two_opt_rank_limits always satisfy
this clipped-partition property, irrespective of how far the recorded
ranks run. -/

/-- What the two-opt scan needs of its limits: boundaries 0 and N, and the
boundaries clipped at N - 1 nondecreasing. -/
def twoOptPartOK (n : Nat) (limits : List Nat) : Prop :=
  limits.head? = some 0 ∧ limits.getLast? = some n ∧
    List.Chain' (· ≤ ·) (limits.map (fun l => min l (n - 1)))

theorem validPartition_twoOptPartOK {n : Nat} {limits : List Nat}
    (h : validPartition n limits) : twoOptPartOK n limits := by
  obtain ⟨h0, hn, hc⟩ := h
  refine ⟨h0, hn, ?_⟩
  rw [List.chain'_map]
  exact hc.imp (fun a b hab => min_le_min hab le_rfl)

theorem filter_range' (m : Nat) :
    ∀ (k s : Nat), (List.range' s k).filter (fun x => decide (x < m)) =
      List.range' s (min k (m - s)) := by
  intro k
  induction k with
  | zero => intro s; simp
  | succ k ih =>
    intro s
    rw [List.range'_succ]
    by_cases hs : s < m
    · have hcond : decide (s < m) = true := by simpa using hs
      rw [List.filter_cons, if_pos hcond, ih (s + 1)]
      have hmin : min (k + 1) (m - s) = min k (m - (s + 1)) + 1 := by omega
      rw [hmin, List.range'_succ]
    · have hcond : ¬ decide (s < m) = true := by simpa using hs
      rw [List.filter_cons, if_neg hcond, ih (s + 1)]
      have h1 : min k (m - (s + 1)) = 0 := by omega
      have h2 : min (k + 1) (m - s) = 0 := by omega
      rw [h1, h2]
      simp

theorem catLists_filter (c : Nat → List Best) (p : Nat → Bool)
    (hc : ∀ x, p x = false → c x = []) :
    ∀ l : List Nat, catLists c l = catLists c (l.filter p) := by
  intro l
  induction l with
  | nil => rfl
  | cons x xs ih =>
    rw [List.filter_cons]
    by_cases hx : p x = true
    · simp only [hx, if_true, catLists]
      rw [ih]
    · have : p x = false := by
        cases hpx : p x
        · rfl
        · exact absurd hpx hx
      simp only [this, Bool.false_eq_true, if_false, catLists, hc x this]
      rw [ih]
      simp

theorem filter_catRanges (m : Nat) :
    ∀ ps : List (Nat × Nat),
      (catRanges ps).filter (fun x => decide (x < m)) =
        catRanges (ps.map (fun q => (min q.1 m, min q.2 m))) := by
  intro ps
  induction ps with
  | nil => rfl
  | cons q ps ih =>
    simp only [catRanges, List.filter_append, List.map_cons]
    rw [ih, filter_range' m (q.2 - q.1) q.1]
    congr 1
    by_cases hq : q.1 ≤ m
    · have hmq : min q.1 m = q.1 := by omega
      rw [hmq]
      congr 1
      omega
    · have h1 : min (q.2 - q.1) (m - q.1) = 0 := by omega
      have h2 : min q.2 m - min q.1 m = 0 := by omega
      rw [h1, h2]
      simp

theorem twoOptCands_nil (d : Nat → Nat → Nat) (edges : List Nat)
    (e1s : Nat) (h : edges.length ≤ e1s + 1) :
    twoOptCands d edges e1s = [] := by
  unfold twoOptCands
  have : edges.length - (e1s + 1) = 0 := by omega
  rw [this]
  rfl

theorem twoOptScan_eq (d : Nat → Nat → Nat) (edges : List Nat)
    {limits : List Nat} (hOK : twoOptPartOK edges.length limits) :
    reduceBest (workerResults (twoOptLookUp d edges) limits) =
      (twoOptAllCands d edges).foldl mergeBest (0, 0, 0) := by
  obtain ⟨h0, hn, hc⟩ := hOK
  rw [workerResults_fold (twoOptCands d edges) _
    (twoOptLookUp_eq d edges) limits]
  have hnil : ∀ x, (fun x => decide (x < edges.length - 1)) x = false →
      twoOptCands d edges x = [] := by
    intro x hx
    simp only [decide_eq_false_iff_not, Nat.not_lt] at hx
    exact twoOptCands_nil d edges x (by omega)
  have hclip : catRanges (((limits.zip limits.tail)).map
      (fun q => (min q.1 (edges.length - 1), min q.2 (edges.length - 1)))) =
      List.range' 0 (edges.length - 1) := by
    have hzipmap : ((limits.zip limits.tail)).map
        (fun q => (min q.1 (edges.length - 1), min q.2 (edges.length - 1))) =
        (limits.map (fun l => min l (edges.length - 1))).zip
          ((limits.map (fun l => min l (edges.length - 1))).tail) := by
      rw [← List.map_tail, List.zip_map]
      rfl
    rw [hzipmap]
    have hres := catRanges_zip_eq
      (limits.map (fun l => min l (edges.length - 1))) 0 (edges.length - 1)
      (by rw [List.head?_map, h0]; simp)
      (by
        rw [List.getLast?_map, hn]
        simp [Nat.min_def]
        omega)
      hc
    rw [hres]
    simp
  have hfr : (List.range edges.length).filter
      (fun x => decide (x < edges.length - 1)) =
      List.range' 0 (edges.length - 1) := by
    rw [List.range_eq_range', filter_range' (edges.length - 1)
      edges.length 0]
    congr 1
    omega
  rw [catLists_filter (twoOptCands d edges) _ hnil
    (catRanges (limits.zip limits.tail)), filter_catRanges, hclip]
  unfold twoOptAllCands
  rw [catLists_filter (twoOptCands d edges) _ hnil
    (List.range edges.length), hfr]

theorem relocateScan_eq (d : Nat → Nat → Nat) (edges : List Nat)
    {limits : List Nat} (hvp : validPartition edges.length limits) :
    reduceBest (workerResults (relocateLookUp d edges) limits) =
      (relocateAllCands d edges).foldl mergeBest (0, 0, 0) := by
  rw [workerResults_fold (relocateCands d edges) _
    (relocateLookUp_eq d edges) limits, validPartition_catRanges hvp]
  rfl

theorem orOptScan_eq (d : Nat → Nat → Nat) (edges : List Nat)
    {limits : List Nat} (hvp : validPartition edges.length limits) :
    reduceBest (workerResults (orOptLookUp d edges) limits) =
      (orOptAllCands d edges).foldl mergeBest (0, 0, 0) := by
  rw [workerResults_fold (orOptCands d edges) _
    (orOptLookUp_eq d edges) limits, validPartition_catRanges hvp]
  rfl

/-! Soundness of the fold result: a positive winner is an element of the
candidate list. -/

theorem foldl_mergeBest_result :
    ∀ (L : List Best) (a : Best),
      L.foldl mergeBest a = a ∨ L.foldl mergeBest a ∈ L := by
  intro L
  induction L with
  | nil => intro a; exact Or.inl rfl
  | cons c L ih =>
    intro a
    simp only [List.foldl_cons]
    rcases ih (mergeBest a c) with h | h
    · rw [h]
      by_cases hac : a.1 < c.1
      · right
        simp [mergeBest, hac]
      · left
        simp [mergeBest, hac]
    · right
      exact List.mem_cons_of_mem _ h

theorem foldl_mergeBest_pos_mem (L : List Best)
    (h : 0 < (L.foldl mergeBest (0, 0, 0)).1) :
    L.foldl mergeBest (0, 0, 0) ∈ L := by
  rcases foldl_mergeBest_result L (0, 0, 0) with h' | h'
  · rw [h'] at h
    exact absurd h (by simp)
  · exact h'

theorem mem_catLists {c : Nat → List Best} {x : Best} :
    ∀ {l : List Nat}, x ∈ catLists c l ↔ ∃ y ∈ l, x ∈ c y := by
  intro l
  induction l with
  | nil => simp [catLists]
  | cons z zs ih =>
    simp only [catLists, List.mem_append, ih, List.mem_cons]
    constructor
    · rintro (h | ⟨y, hy, hx⟩)
      · exact ⟨z, Or.inl rfl, h⟩
      · exact ⟨y, Or.inr hy, hx⟩
    · rintro ⟨y, hy | hy, hx⟩
      · exact Or.inl (hy ▸ hx)
      · exact Or.inr ⟨y, hy, hx⟩

theorem twoOptCandAt_some {d : Nat → Nat → Nat} {edges : List Nat}
    {e1s e2s : Nat} {r : Best}
    (h : twoOptCandAt d edges e1s e2s = some r) :
    r = (d e1s (edgeAt edges e1s) + d e2s (edgeAt edges e2s) -
        (d e1s e2s + d (edgeAt edges e1s) (edgeAt edges e2s)), e1s, e2s) ∧
      e2s ≠ edgeAt edges e1s ∧ edgeAt edges e2s ≠ e1s ∧
      d e1s e2s + d (edgeAt edges e1s) (edgeAt edges e2s) <
        d e1s (edgeAt edges e1s) + d e2s (edgeAt edges e2s) := by
  simp only [twoOptCandAt] at h
  split_ifs at h with h1 h2
  · simp only [Option.some.injEq] at h
    push_neg at h1
    exact ⟨h.symm, h1.1, h1.2, h2⟩

theorem relocateCandAt_some {d : Nat → Nat → Nat} {edges : List Nat}
    {e1s e1e nxt e2s : Nat} {r : Best}
    (h : relocateCandAt d edges e1s e1e nxt e2s = some r) :
    r = (d e1s e1e + d e1e nxt + d e2s (edgeAt edges e2s) -
        (d e1s nxt + d e2s e1e + d e1e (edgeAt edges e2s)), e1s, e2s) ∧
      d e1s nxt + d e2s e1e + d e1e (edgeAt edges e2s) <
        d e1s e1e + d e1e nxt + d e2s (edgeAt edges e2s) := by
  simp only [relocateCandAt] at h
  split_ifs at h with h1
  · simp only [Option.some.injEq] at h
    exact ⟨h.symm, h1⟩

theorem orOptCandAt_some {d : Nat → Nat → Nat} {edges : List Nat}
    {e1s e1e nxt nxt2 e2s : Nat} {r : Best}
    (h : orOptCandAt d edges e1s e1e nxt nxt2 e2s = some r) :
    r = (d e1s e1e + d nxt nxt2 + d e2s (edgeAt edges e2s) -
        (d e1s nxt2 + d e2s e1e + d nxt (edgeAt edges e2s)), e1s, e2s) ∧
      d e1s nxt2 + d e2s e1e + d nxt (edgeAt edges e2s) <
        d e1s e1e + d nxt nxt2 + d e2s (edgeAt edges e2s) := by
  simp only [orOptCandAt] at h
  split_ifs at h with h1
  · simp only [Option.some.injEq] at h
    exact ⟨h.symm, h1⟩

/-! The relocate and or-opt inner walks enumerate exactly the rest of the
tour after the moved segment. -/

theorem relocateCandWalk_stop (d : Nat → Nat → Nat) (edges : List Nat)
    (e1s e1e nxt fuel : Nat) :
    relocateCandWalk d edges e1s e1e nxt fuel e1s = [] := by
  cases fuel <;> simp [relocateCandWalk]

theorem relocateCandWalk_eq {d : Nat → Nat → Nat} {edges : List Nat}
    {e1s e1e nxt : Nat} :
    ∀ (l : List Nat) (x fuel : Nat),
      List.Chain (fun a b => edgeAt edges a = b) x (l ++ [e1s]) →
      (x :: l).Nodup → e1s ∉ x :: l → (x :: l).length ≤ fuel →
      relocateCandWalk d edges e1s e1e nxt fuel x =
        (x :: l).filterMap (relocateCandAt d edges e1s e1e nxt)
  | [], x, fuel, hchain, _, he1s, hfuel => by
    simp only [List.nil_append, List.chain_cons] at hchain
    obtain ⟨fuel, rfl⟩ : ∃ f, fuel = f + 1 := by
      cases fuel with
      | zero => simp at hfuel
      | succ f => exact ⟨f, rfl⟩
    have hx : x ≠ e1s := fun he => he1s (by simp [he])
    simp only [relocateCandWalk, if_neg hx, hchain.1,
      relocateCandWalk_stop, List.filterMap_cons, List.filterMap_nil]
    cases relocateCandAt d edges e1s e1e nxt x <;> rfl
  | y :: l, x, fuel, hchain, hnd, he1s, hfuel => by
    simp only [List.cons_append, List.chain_cons] at hchain
    obtain ⟨fuel, rfl⟩ : ∃ f, fuel = f + 1 := by
      cases fuel with
      | zero => simp at hfuel
      | succ f => exact ⟨f, rfl⟩
    have hx : x ≠ e1s := fun he => he1s (by simp [he])
    have hrec := @relocateCandWalk_eq d edges e1s e1e nxt l y fuel hchain.2
      (by simpa using hnd.of_cons)
      (fun hm => he1s (List.mem_cons_of_mem _ hm))
      (by simpa using Nat.succ_le_succ_iff.1 hfuel)
    simp only [relocateCandWalk, if_neg hx, hchain.1, hrec,
      List.filterMap_cons]
    cases relocateCandAt d edges e1s e1e nxt x <;> rfl

theorem orOptCandWalk_stop (d : Nat → Nat → Nat) (edges : List Nat)
    (e1s e1e nxt nxt2 fuel : Nat) :
    orOptCandWalk d edges e1s e1e nxt nxt2 fuel e1s = [] := by
  cases fuel <;> simp [orOptCandWalk]

theorem orOptCandWalk_eq {d : Nat → Nat → Nat} {edges : List Nat}
    {e1s e1e nxt nxt2 : Nat} :
    ∀ (l : List Nat) (x fuel : Nat),
      List.Chain (fun a b => edgeAt edges a = b) x (l ++ [e1s]) →
      (x :: l).Nodup → e1s ∉ x :: l → (x :: l).length ≤ fuel →
      orOptCandWalk d edges e1s e1e nxt nxt2 fuel x =
        (x :: l).filterMap (orOptCandAt d edges e1s e1e nxt nxt2)
  | [], x, fuel, hchain, _, he1s, hfuel => by
    simp only [List.nil_append, List.chain_cons] at hchain
    obtain ⟨fuel, rfl⟩ : ∃ f, fuel = f + 1 := by
      cases fuel with
      | zero => simp at hfuel
      | succ f => exact ⟨f, rfl⟩
    have hx : x ≠ e1s := fun he => he1s (by simp [he])
    simp only [orOptCandWalk, if_neg hx, hchain.1,
      orOptCandWalk_stop, List.filterMap_cons, List.filterMap_nil]
    cases orOptCandAt d edges e1s e1e nxt nxt2 x <;> rfl
  | y :: l, x, fuel, hchain, hnd, he1s, hfuel => by
    simp only [List.cons_append, List.chain_cons] at hchain
    obtain ⟨fuel, rfl⟩ : ∃ f, fuel = f + 1 := by
      cases fuel with
      | zero => simp at hfuel
      | succ f => exact ⟨f, rfl⟩
    have hx : x ≠ e1s := fun he => he1s (by simp [he])
    have hrec := @orOptCandWalk_eq d edges e1s e1e nxt nxt2 l y fuel hchain.2
      (by simpa using hnd.of_cons)
      (fun hm => he1s (List.mem_cons_of_mem _ hm))
      (by simpa using Nat.succ_le_succ_iff.1 hfuel)
    simp only [orOptCandWalk, if_neg hx, hchain.1, hrec,
      List.filterMap_cons]
    cases orOptCandAt d edges e1s e1e nxt nxt2 x <;> rfl

/-- Cost of the tour emitted from node 0 equals the cost of any
Hamiltonian tour of the same successor array. -/
theorem tspCost_getTour_eq (d : Nat → Nat → Nat) {edges t : List Nat}
    (h : HamTour edges t) : tspCost d (getTour edges 0) = tspCost d t := by
  have hpos : 0 < edges.length := by
    rcases t with _ | ⟨x, xs⟩
    · exact absurd h.1 (by simp [TourChain])
    · have := hamTour_length h
      simp at this
      omega
  have h0 : (0 : Nat) ∈ t := hamTour_mem_of_lt h hpos
  obtain ⟨u, hu, _⟩ := hamTour_rotate_to h h0
  rw [hamTour_getTour hu]
  exact tspCost_hamTour_eq d hu h

/-- A pair of consecutive elements anywhere in a chain is related. -/
theorem chain_pair {R : Nat → Nat → Prop} :
    ∀ (l₁ : List Nat) (x a b : Nat) (l₂ : List Nat),
      List.Chain R x (l₁ ++ a :: b :: l₂) → R a b
  | [], x, a, b, l₂, h => by
    simp only [List.nil_append, List.chain_cons] at h
    exact h.2.1
  | y :: l₁, x, a, b, l₂, h => by
    simp only [List.cons_append, List.chain_cons] at h
    exact chain_pair l₁ y a b l₂ h.2

/-- Successor of a mid-tour element read off the tour decomposition. -/
theorem tourChain_succ_mid {edges : List Nat} {x : Nat} {l₁ : List Nat}
    {a : Nat} {v : List Nat}
    (h : TourChain edges (x :: (l₁ ++ a :: v))) :
    edgeAt edges a = headWrap v x := by
  cases v with
  | nil =>
    have h' : List.Chain (fun p q => edgeAt edges p = q) x
        (l₁ ++ a :: x :: []) := by
      have := h
      simp only [TourChain, List.cons_append, List.append_assoc] at this
      simpa using this
    exact chain_pair l₁ x a x [] h'
  | cons b v' =>
    have h' : List.Chain (fun p q => edgeAt edges p = q) x
        (l₁ ++ a :: b :: (v' ++ [x])) := by
      have := h
      simp only [TourChain, List.cons_append, List.append_assoc] at this
      simpa using this
    exact chain_pair l₁ x a b (v' ++ [x]) h'

/-- two_opt_step with any admissible worker limits: preserves the
Hamiltonian-cycle invariant and the length of the successor array,
decreases the emitted tour cost by exactly the returned gain, and leaves
the array untouched on gain 0. -/
theorem twoOptStep_good (d : Nat → Nat → Nat)
    (hsym : ∀ i j, d i j = d j i) {edges limits : List Nat}
    (hOK : twoOptPartOK edges.length limits) (hham : HamCycle edges) :
    HamCycle (twoOptStepW d edges limits).2 ∧
    (twoOptStepW d edges limits).2.length = edges.length ∧
    tspCost d (getTour (twoOptStepW d edges limits).2 0) +
      (twoOptStepW d edges limits).1 = tspCost d (getTour edges 0) ∧
    ((twoOptStepW d edges limits).1 = 0 →
      (twoOptStepW d edges limits).2 = edges) := by
  by_cases h4 : edges.length < 4
  · have hstep : twoOptStepW d edges limits = (0, edges) := by
      simp [twoOptStepW, h4]
    rw [hstep]
    exact ⟨hham, rfl, by simp, fun _ => rfl⟩
  · by_cases hpos :
      0 < (reduceBest (workerResults (twoOptLookUp d edges) limits)).1
    · have hstep : twoOptStepW d edges limits =
          ((reduceBest (workerResults (twoOptLookUp d edges) limits)).1,
            twoOptApply edges
              (reduceBest (workerResults (twoOptLookUp d edges) limits)).2.1
              (reduceBest (workerResults (twoOptLookUp d edges) limits)).2.2)
          := by
        simp only [twoOptStepW, if_neg h4, if_pos hpos]
      have hbeq := twoOptScan_eq d edges hOK
      have hmem : (reduceBest (workerResults (twoOptLookUp d edges) limits))
          ∈ twoOptAllCands d edges := by
        rw [hbeq]
        exact foldl_mergeBest_pos_mem _ (by rw [← hbeq]; exact hpos)
      simp only [twoOptAllCands] at hmem
      rw [mem_catLists] at hmem
      obtain ⟨e1s, he1sr, hmem⟩ := hmem
      rw [twoOptCands, List.mem_filterMap] at hmem
      obtain ⟨e2s, he2sr, hcand⟩ := hmem
      have he1sn : e1s < edges.length := List.mem_range.1 he1sr
      have he2sb : e1s < e2s ∧ e2s < edges.length := by
        rw [List.mem_range'] at he2sr
        obtain ⟨i, hi, rfl⟩ := he2sr
        omega
      obtain ⟨hr, hne1, hne2, hlt⟩ := twoOptCandAt_some hcand
      -- rotate the tour to start at e1s and split out e2s
      obtain ⟨t, ht⟩ := hham
      obtain ⟨rest, hrot, _⟩ :=
        hamTour_rotate_to ht (hamTour_mem_of_lt ht he1sn)
      have hlenrot := hamTour_length hrot
      obtain ⟨y, rest', rfl⟩ : ∃ y rest', rest = y :: rest' := by
        cases rest with
        | nil => simp at hlenrot; omega
        | cons y rest' => exact ⟨y, rest', rfl⟩
      have hy : edgeAt edges e1s = y := by
        have := hrot.1
        simp only [TourChain, List.cons_append, List.chain_cons] at this
        exact this.1
      have he2smem : e2s ∈ rest' := by
        have : e2s ∈ e1s :: y :: rest' :=
          hamTour_mem_of_lt hrot he2sb.2
        rcases List.mem_cons.1 this with h' | h'
        · omega
        · rcases List.mem_cons.1 h' with h'' | h''
          · exact absurd (h''.trans hy.symm) hne1
          · exact h''
      obtain ⟨m, v, rfl⟩ := List.append_of_mem he2smem
      have he2e : edgeAt edges e2s = headWrap v e1s := by
        refine @tourChain_succ_mid _ _ (y :: m) _ _ hrot.1
      have happly := @twoOptApply_hamTour _ _ y _ _ _ hrot
      have hcost := tspCost_twoOpt d hsym e1s y e2s m v
      have hr1 : (reduceBest (workerResults (twoOptLookUp d edges)
          limits)).2.1 = e1s := by rw [hr]
      have hr2 : (reduceBest (workerResults (twoOptLookUp d edges)
          limits)).2.2 = e2s := by rw [hr]
      have hgain : (reduceBest (workerResults (twoOptLookUp d edges)
          limits)).1 =
          d e1s (edgeAt edges e1s) + d e2s (edgeAt edges e2s) -
            (d e1s e2s + d (edgeAt edges e1s) (edgeAt edges e2s)) := by
        rw [hr]
      have hsnd : (twoOptStepW d edges limits).2 =
          twoOptApply edges e1s e2s := by
        rw [hstep, hr1, hr2]
      have hfst : (twoOptStepW d edges limits).1 =
          d e1s (edgeAt edges e1s) + d e2s (edgeAt edges e2s) -
            (d e1s e2s + d (edgeAt edges e1s) (edgeAt edges e2s)) := by
        rw [hstep, hgain]
      rw [hsnd, hfst]
      refine ⟨⟨_, happly⟩, twoOptApply_length edges e1s e2s, ?_, ?_⟩
      · have hc1 := tspCost_getTour_eq d happly
        have hc2 := tspCost_getTour_eq d hrot
        rw [hc1, hc2]
        rw [hy, he2e] at hlt
        rw [hy, he2e]
        omega
      · intro h0
        rw [hgain] at hpos
        omega
    · have hz : (reduceBest (workerResults (twoOptLookUp d edges)
          limits)).1 = 0 := by omega
      have hstep : twoOptStepW d edges limits =
          ((reduceBest (workerResults (twoOptLookUp d edges) limits)).1,
            edges) := by
        simp only [twoOptStepW, if_neg h4, if_neg hpos]
      have hsnd : (twoOptStepW d edges limits).2 = edges := by
        rw [hstep]
      have hfst : (twoOptStepW d edges limits).1 = 0 := by
        rw [hstep]
        exact hz
      rw [hsnd, hfst]
      exact ⟨hham, rfl, by omega, fun _ => rfl⟩

theorem headWrap_append_cons (u : List Nat) (a : Nat) (v : List Nat)
    (w : Nat) : headWrap (u ++ a :: v) w = headWrap u a := by
  cases u <;> rfl

/-- relocate_step with any valid worker limits: preserves the invariant
and the length, decreases the emitted tour cost by the returned gain, and
leaves the array untouched on gain 0. -/
theorem relocateStep_good (d : Nat → Nat → Nat) {edges limits : List Nat}
    (hvp : validPartition edges.length limits) (hham : HamCycle edges) :
    HamCycle (relocateStepW d edges limits).2 ∧
    (relocateStepW d edges limits).2.length = edges.length ∧
    tspCost d (getTour (relocateStepW d edges limits).2 0) +
      (relocateStepW d edges limits).1 = tspCost d (getTour edges 0) ∧
    ((relocateStepW d edges limits).1 = 0 →
      (relocateStepW d edges limits).2 = edges) := by
  by_cases h3 : edges.length < 3
  · have hstep : relocateStepW d edges limits = (0, edges) := by
      simp [relocateStepW, h3]
    rw [hstep]
    exact ⟨hham, rfl, by simp, fun _ => rfl⟩
  · by_cases hpos :
      0 < (reduceBest (workerResults (relocateLookUp d edges) limits)).1
    · have hstep : relocateStepW d edges limits =
          ((reduceBest (workerResults (relocateLookUp d edges) limits)).1,
            relocateApply edges
              (reduceBest (workerResults (relocateLookUp d edges)
                limits)).2.1
              (reduceBest (workerResults (relocateLookUp d edges)
                limits)).2.2) := by
        simp only [relocateStepW, if_neg h3, if_pos hpos]
      have hbeq := relocateScan_eq d edges hvp
      have hmem : (reduceBest (workerResults (relocateLookUp d edges)
          limits)) ∈ relocateAllCands d edges := by
        rw [hbeq]
        exact foldl_mergeBest_pos_mem _ (by rw [← hbeq]; exact hpos)
      simp only [relocateAllCands] at hmem
      rw [mem_catLists] at hmem
      obtain ⟨e1s, he1sr, hmem⟩ := hmem
      have he1sn : e1s < edges.length := List.mem_range.1 he1sr
      -- rotate the tour to start at e1s
      obtain ⟨t, ht⟩ := hham
      obtain ⟨rest, hrot, _⟩ :=
        hamTour_rotate_to ht (hamTour_mem_of_lt ht he1sn)
      have hlenrot := hamTour_length hrot
      obtain ⟨y, rest', rfl⟩ : ∃ y rest', rest = y :: rest' := by
        cases rest with
        | nil => simp at hlenrot; omega
        | cons y rest' => exact ⟨y, rest', rfl⟩
      obtain ⟨z, rest'', rfl⟩ : ∃ z rest'', rest' = z :: rest'' := by
        cases rest' with
        | nil => simp at hlenrot; omega
        | cons z rest'' => exact ⟨z, rest'', rfl⟩
      have hchain0 := hrot.1
      simp only [TourChain, List.cons_append, List.chain_cons] at hchain0
      obtain ⟨hy, hz, hchainz⟩ := hchain0
      have hnd := hamTour_nodup hrot
      have hwalkeq : relocateCands d edges e1s =
          (z :: rest'').filterMap (relocateCandAt d edges e1s y z) := by
        have heq : relocateCands d edges e1s =
            relocateCandWalk d edges e1s y z edges.length z := by
          simp only [relocateCands, hy, hz]
        rw [heq]
        refine @relocateCandWalk_eq d edges e1s y z rest'' z
          edges.length hchainz ?_ ?_ ?_
        · have := (List.nodup_cons.1 (List.nodup_cons.1 hnd).2).2
          exact this
        · intro hm
          exact (List.nodup_cons.1 hnd).1 (List.mem_cons_of_mem _ hm)
        · simp at hlenrot ⊢
          omega
      rw [hwalkeq, List.mem_filterMap] at hmem
      obtain ⟨e2s, he2sr, hcand⟩ := hmem
      obtain ⟨hr, hlt⟩ := relocateCandAt_some hcand
      obtain ⟨u, v, hddc⟩ := List.append_of_mem he2sr
      have hnxt : z = headWrap u e2s := by
        rw [← headWrap_append_cons u e2s v 0, ← hddc]
        rfl
      rw [hddc] at hrot
      have he2e : edgeAt edges e2s = headWrap v e1s :=
        @tourChain_succ_mid _ _ (y :: u) _ _ hrot.1
      have happly := @relocateApply_hamTour _ _ y _ _ _ hrot
      have hcost := tspCost_relocate d e1s y e2s u v
      have hr1 : (reduceBest (workerResults (relocateLookUp d edges)
          limits)).2.1 = e1s := by rw [hr]
      have hr2 : (reduceBest (workerResults (relocateLookUp d edges)
          limits)).2.2 = e2s := by rw [hr]
      have hgain : (reduceBest (workerResults (relocateLookUp d edges)
          limits)).1 =
          d e1s y + d y z + d e2s (edgeAt edges e2s) -
            (d e1s z + d e2s y + d y (edgeAt edges e2s)) := by
        rw [hr]
      have hsnd : (relocateStepW d edges limits).2 =
          relocateApply edges e1s e2s := by
        rw [hstep, hr1, hr2]
      have hfst : (relocateStepW d edges limits).1 =
          d e1s y + d y z + d e2s (edgeAt edges e2s) -
            (d e1s z + d e2s y + d y (edgeAt edges e2s)) := by
        rw [hstep, hgain]
      rw [hsnd, hfst]
      refine ⟨⟨_, happly⟩, relocateApply_length edges e1s e2s, ?_, ?_⟩
      · have hc1 := tspCost_getTour_eq d happly
        have hc2 := tspCost_getTour_eq d hrot
        rw [hc1, hc2]
        rw [he2e, hnxt]
        rw [he2e, hnxt] at hlt
        omega
      · intro h0
        rw [hgain] at hpos
        omega
    · have hz0 : (reduceBest (workerResults (relocateLookUp d edges)
          limits)).1 = 0 := by omega
      have hstep : relocateStepW d edges limits =
          ((reduceBest (workerResults (relocateLookUp d edges) limits)).1,
            edges) := by
        simp only [relocateStepW, if_neg h3, if_neg hpos]
      have hsnd : (relocateStepW d edges limits).2 = edges := by
        rw [hstep]
      have hfst : (relocateStepW d edges limits).1 = 0 := by
        rw [hstep]
        exact hz0
      rw [hsnd, hfst]
      exact ⟨hham, rfl, by omega, fun _ => rfl⟩

/-- or_opt_step with any valid worker limits: preserves the invariant and
the length, decreases the emitted tour cost by the returned gain, and
leaves the array untouched on gain 0. -/
theorem orOptStep_good (d : Nat → Nat → Nat) {edges limits : List Nat}
    (hvp : validPartition edges.length limits) (hham : HamCycle edges) :
    HamCycle (orOptStepW d edges limits).2 ∧
    (orOptStepW d edges limits).2.length = edges.length ∧
    tspCost d (getTour (orOptStepW d edges limits).2 0) +
      (orOptStepW d edges limits).1 = tspCost d (getTour edges 0) ∧
    ((orOptStepW d edges limits).1 = 0 →
      (orOptStepW d edges limits).2 = edges) := by
  by_cases h4 : edges.length < 4
  · have hstep : orOptStepW d edges limits = (0, edges) := by
      simp [orOptStepW, h4]
    rw [hstep]
    exact ⟨hham, rfl, by simp, fun _ => rfl⟩
  · by_cases hpos :
      0 < (reduceBest (workerResults (orOptLookUp d edges) limits)).1
    · have hstep : orOptStepW d edges limits =
          ((reduceBest (workerResults (orOptLookUp d edges) limits)).1,
            orOptApply edges
              (reduceBest (workerResults (orOptLookUp d edges) limits)).2.1
              (reduceBest (workerResults (orOptLookUp d edges)
                limits)).2.2) := by
        simp only [orOptStepW, if_neg h4, if_pos hpos]
      have hbeq := orOptScan_eq d edges hvp
      have hmem : (reduceBest (workerResults (orOptLookUp d edges)
          limits)) ∈ orOptAllCands d edges := by
        rw [hbeq]
        exact foldl_mergeBest_pos_mem _ (by rw [← hbeq]; exact hpos)
      simp only [orOptAllCands] at hmem
      rw [mem_catLists] at hmem
      obtain ⟨e1s, he1sr, hmem⟩ := hmem
      have he1sn : e1s < edges.length := List.mem_range.1 he1sr
      obtain ⟨t, ht⟩ := hham
      obtain ⟨rest, hrot, _⟩ :=
        hamTour_rotate_to ht (hamTour_mem_of_lt ht he1sn)
      have hlenrot := hamTour_length hrot
      obtain ⟨y, rest', rfl⟩ : ∃ y rest', rest = y :: rest' := by
        cases rest with
        | nil => simp at hlenrot; omega
        | cons y rest' => exact ⟨y, rest', rfl⟩
      obtain ⟨z, rest'', rfl⟩ : ∃ z rest'', rest' = z :: rest'' := by
        cases rest' with
        | nil => simp at hlenrot; omega
        | cons z rest'' => exact ⟨z, rest'', rfl⟩
      obtain ⟨w, rest3, rfl⟩ : ∃ w rest3, rest'' = w :: rest3 := by
        cases rest'' with
        | nil => simp at hlenrot; omega
        | cons w rest3 => exact ⟨w, rest3, rfl⟩
      have hchain0 := hrot.1
      simp only [TourChain, List.cons_append, List.chain_cons] at hchain0
      obtain ⟨hy, hz, hw, hchainw⟩ := hchain0
      have hnd := hamTour_nodup hrot
      have hwalkeq : orOptCands d edges e1s =
          (w :: rest3).filterMap (orOptCandAt d edges e1s y z w) := by
        have heq : orOptCands d edges e1s =
            orOptCandWalk d edges e1s y z w edges.length w := by
          simp only [orOptCands, hy, hz, hw]
        rw [heq]
        refine @orOptCandWalk_eq d edges e1s y z w rest3 w
          edges.length hchainw ?_ ?_ ?_
        · exact (List.nodup_cons.1 (List.nodup_cons.1
            (List.nodup_cons.1 hnd).2).2).2
        · intro hm
          exact (List.nodup_cons.1 hnd).1
            (List.mem_cons_of_mem _ (List.mem_cons_of_mem _ hm))
        · simp at hlenrot ⊢
          omega
      rw [hwalkeq, List.mem_filterMap] at hmem
      obtain ⟨e2s, he2sr, hcand⟩ := hmem
      obtain ⟨hr, hlt⟩ := orOptCandAt_some hcand
      obtain ⟨u, v, hddc⟩ := List.append_of_mem he2sr
      have hnxt2 : w = headWrap u e2s := by
        rw [← headWrap_append_cons u e2s v 0, ← hddc]
        rfl
      rw [hddc] at hrot
      have he2e : edgeAt edges e2s = headWrap v e1s :=
        @tourChain_succ_mid _ _ (y :: z :: u) _ _ hrot.1
      have happly := @orOptApply_hamTour _ _ y z _ _ _ hrot
      have hcost := tspCost_orOpt d e1s y z e2s u v
      have hr1 : (reduceBest (workerResults (orOptLookUp d edges)
          limits)).2.1 = e1s := by rw [hr]
      have hr2 : (reduceBest (workerResults (orOptLookUp d edges)
          limits)).2.2 = e2s := by rw [hr]
      have hgain : (reduceBest (workerResults (orOptLookUp d edges)
          limits)).1 =
          d e1s y + d z w + d e2s (edgeAt edges e2s) -
            (d e1s w + d e2s y + d z (edgeAt edges e2s)) := by
        rw [hr]
      have hsnd : (orOptStepW d edges limits).2 =
          orOptApply edges e1s e2s := by
        rw [hstep, hr1, hr2]
      have hfst : (orOptStepW d edges limits).1 =
          d e1s y + d z w + d e2s (edgeAt edges e2s) -
            (d e1s w + d e2s y + d z (edgeAt edges e2s)) := by
        rw [hstep, hgain]
      rw [hsnd, hfst]
      refine ⟨⟨_, happly⟩, orOptApply_length edges e1s e2s, ?_, ?_⟩
      · have hc1 := tspCost_getTour_eq d happly
        have hc2 := tspCost_getTour_eq d hrot
        rw [hc1, hc2]
        rw [he2e, hnxt2]
        rw [he2e, hnxt2] at hlt
        omega
      · intro h0
        rw [hgain] at hpos
        omega
    · have hz0 : (reduceBest (workerResults (orOptLookUp d edges)
          limits)).1 = 0 := by omega
      have hstep : orOptStepW d edges limits =
          ((reduceBest (workerResults (orOptLookUp d edges) limits)).1,
            edges) := by
        simp only [orOptStepW, if_neg h4, if_neg hpos]
      have hsnd : (orOptStepW d edges limits).2 = edges := by
        rw [hstep]
      have hfst : (orOptStepW d edges limits).1 = 0 := by
        rw [hstep]
        exact hz0
      rw [hsnd, hfst]
      exact ⟨hham, rfl, by omega, fun _ => rfl⟩

/-! Support for the work-partition claim: closed form of the descending
sum. -/

theorem two_mul_sum_desc :
    ∀ m : Nat, 2 * ((List.range (m + 1)).map (fun j => m - j)).sum =
      m * (m + 1) := by
  intro m
  induction m with
  | zero => rfl
  | succ m ih =>
    have hre : (List.range (m + 2)).map (fun j => m + 1 - j) =
        (m + 1) :: (List.range (m + 1)).map (fun j => m - j) := by
      rw [List.range_succ_eq_map]
      simp only [List.map_cons, List.map_map]
      refine congrArg _ ?_
      exact List.map_congr_left (fun a _ => by
        simp only [Function.comp_apply, Nat.succ_eq_add_one]
        omega)
    rw [hre, List.sum_cons, Nat.mul_add, ih]
    ring

theorem sum_numberOfLookups (n : Nat) (hn : 3 ≤ n) :
    (numberOfLookups n).sum = totalLookups n := by
  obtain ⟨k, rfl⟩ : ∃ k, n = k + 3 := ⟨n - 3, by omega⟩
  have h1 : k + 3 - 2 = k + 1 := by omega
  have h2 : k + 3 - 3 = k := by omega
  have hmap : (List.range (k + 3 - 2)).map (fun j => k + 3 - 3 - j) =
      (List.range (k + 1)).map (fun j => k - j) := by
    rw [h1]
    exact List.map_congr_left (fun a _ => by omega)
  have hsum := two_mul_sum_desc k
  have htot : (k + 3) * (k + 3 - 3) = 2 * k + k * (k + 1) := by
    rw [h2]
    ring
  simp only [numberOfLookups, List.sum_cons, totalLookups]
  rw [hmap]
  omega

/-! Support for the construction-failure claim. -/

theorem foldBuild_none (first : Nat) :
    ∀ rest : List Nat,
      (rest.foldl
        (fun acc cur =>
          acc.bind (fun p => (setAtChecked p.1 p.2 cur).map
            (fun e => (e, cur))))
        (none : Option (List Nat × Nat))) = none := by
  intro rest
  induction rest with
  | nil => rfl
  | cons cur rest ih => simpa using ih

theorem foldBuild_isSome (first : Nat) :
    ∀ (rest : List Nat) (e : List Nat) (last : Nat),
      ((rest.foldl
        (fun acc cur =>
          acc.bind (fun p => (setAtChecked p.1 p.2 cur).map
            (fun e2 => (e2, cur))))
        (some (e, last))).bind
          (fun p => setAtChecked p.1 p.2 first)).isSome = true ↔
      (last < e.length ∧ ∀ x ∈ rest, x < e.length) := by
  intro rest
  induction rest with
  | nil =>
    intro e last
    simp only [List.foldl_nil, Option.some_bind, setAtChecked]
    constructor
    · intro h
      split_ifs at h with hlt
      · exact ⟨hlt, by simp⟩
      · simp at h
    · intro h
      rw [if_pos h.1]
      rfl
  | cons cur rest ih =>
    intro e last
    by_cases hlt : last < e.length
    · have hstep : (setAtChecked e last cur).map (fun e2 => (e2, cur)) =
          some (e.set last cur, cur) := by
        simp [setAtChecked, hlt]
      simp only [List.foldl_cons, Option.some_bind, hstep]
      rw [ih (e.set last cur) cur]
      simp only [List.length_set, List.mem_cons]
      constructor
      · rintro ⟨h1, h2⟩
        exact ⟨hlt, fun x hx => by
          rcases hx with hx | hx
          · exact hx ▸ h1
          · exact h2 x hx⟩
      · rintro ⟨h1, h2⟩
        exact ⟨h2 cur (Or.inl rfl), fun x hx => h2 x (Or.inr hx)⟩
    · have hstep : (setAtChecked e last cur).map (fun e2 => (e2, cur)) =
          none := by
        simp [setAtChecked, hlt]
      simp only [List.foldl_cons, Option.some_bind, hstep,
        foldBuild_none first rest, Option.none_bind, Option.isSome_none]
      exact ⟨fun h' => absurd h' (by simp), fun hcon => absurd hcon.1 hlt⟩

/-- C4 counterexample: the spec's per-outer-index workload W(i) = N-3-i is
not the array the constructor builds; at N = 6 the entry at index 1 is 3,
not 2. -/
theorem claim_C4_cex :
    ¬ (∀ i, i < 6 - 1 → (numberOfLookups 6).getD i 0 = 6 - 3 - i) := by
  decide

/-- C4 (amended): the two-opt workload array has length N-1 with entry 0
equal to N-3 and entry i equal to N-2-i for 1 ≤ i < N-1 (the reverse iota
fills positions 1..N-2 with N-3 down to 0), its sum is N(N-3)/2, and the
total used for the per-thread share is computed as N(N-3)/2, exactly the
sum of the array. -/
theorem claim_C4 (n : Nat) (hn : 3 ≤ n) :
    (numberOfLookups n).length = n - 1 ∧
    (numberOfLookups n).getD 0 0 = n - 3 ∧
    (∀ i, 1 ≤ i → i < n - 1 → (numberOfLookups n).getD i 0 = n - 2 - i) ∧
    (numberOfLookups n).sum = totalLookups n ∧
    totalLookups n = n * (n - 3) / 2 := by
  refine ⟨?_, rfl, ?_, sum_numberOfLookups n hn, rfl⟩
  · simp [numberOfLookups]
    omega
  · intro i h1 h2
    obtain ⟨j, rfl⟩ : ∃ j, i = j + 1 := ⟨i - 1, by omega⟩
    have hj : j < n - 2 := by omega
    simp only [numberOfLookups, List.getD_eq_getElem?_getD,
      List.getElem?_cons_succ]
    rw [List.getElem?_map, List.getElem?_range hj]
    simp
    omega

/-- C4 witness: the amended statement instantiated at N = 6. -/
theorem claim_C4_witness :
    (3 ≤ 6) ∧ ((numberOfLookups 6).length = 6 - 1 ∧
      (numberOfLookups 6).getD 0 0 = 6 - 3 ∧
      (∀ i, 1 ≤ i → i < 6 - 1 → (numberOfLookups 6).getD i 0 = 6 - 2 - i) ∧
      (numberOfLookups 6).sum = totalLookups 6 ∧
      totalLookups 6 = 6 * (6 - 3) / 2) :=
  ⟨by decide, claim_C4 6 (by decide)⟩

/-- C5 counterexample: an invalid initial sequence with a duplicate id (and
hence not a permutation) does not make the constructor fail: the tour
[0, 1, 0] on a 3-node instance builds without any exception. -/
theorem claim_C5_cex :
    (buildEdges 3 [0, 1, 0]).isSome = true ∧ ¬ ([0, 1, 0] : List Nat).Nodup
      := by
  constructor
  · rfl
  · decide

/-- C5 (amended): construction of the successor array from a nonempty
initial sequence fails (std::out_of_range from _edges.at) exactly when
some id in the sequence is out of range (at least N); length mismatches
and duplicate ids are not detected. -/
theorem claim_C5 (n : Nat) (tour : List Nat) (hne : tour ≠ []) :
    buildEdges n tour = none ↔ ∃ x ∈ tour, n ≤ x := by
  cases tour with
  | nil => exact absurd rfl hne
  | cons first rest =>
    have hspec := foldBuild_isSome first rest (List.replicate n 0) first
    simp only [List.length_replicate] at hspec
    have hbe : buildEdges n (first :: rest) =
        ((rest.foldl
          (fun acc cur =>
            acc.bind (fun p => (setAtChecked p.1 p.2 cur).map
              (fun e => (e, cur))))
          (some (List.replicate n 0, first))).bind
          (fun p => setAtChecked p.1 p.2 first)) := rfl
    rw [hbe]
    constructor
    · intro h
      by_contra hcon
      push_neg at hcon
      have hall : first < n ∧ ∀ x ∈ rest, x < n := by
        refine ⟨hcon first (by simp), fun x hx => hcon x (by simp [hx])⟩
      have := hspec.2 hall
      rw [h] at this
      simp at this
    · intro ⟨x, hx, hxn⟩
      cases hsome : ((rest.foldl
          (fun acc cur =>
            acc.bind (fun p => (setAtChecked p.1 p.2 cur).map
              (fun e2 => (e2, cur))))
          (some (List.replicate n 0, first))).bind
            (fun p => setAtChecked p.1 p.2 first)) with
      | none => rfl
      | some e =>
        have hsome' : ((rest.foldl
            (fun acc cur =>
              acc.bind (fun p => (setAtChecked p.1 p.2 cur).map
                (fun e2 => (e2, cur))))
            (some (List.replicate n 0, first))).bind
              (fun p => setAtChecked p.1 p.2 first)).isSome = true := by
          rw [hsome]
          rfl
        obtain ⟨h1, h2⟩ := hspec.1 hsome'
        rcases List.mem_cons.1 hx with hx' | hx'
        · omega
        · have := h2 x hx'
          omega

/-- C5 witness: a tour containing the out-of-range id 5 on a 3-node
instance makes construction fail. -/
theorem claim_C5_witness : buildEdges 3 [0, 5] = none :=
  (claim_C5 3 [0, 5] (by decide)).2 ⟨5, by decide, by decide⟩

/-- C7: for degenerate sizes (N < 4 for two_opt_step, N < 3 for
relocate_step, N < 4 for or_opt_step) the step returns gain 0 without any
error and leaves the successor array unchanged, for any worker limits. -/
theorem claim_C7 (d : Nat → Nat → Nat) (edges limits : List Nat) :
    (edges.length < 4 → twoOptStepW d edges limits = (0, edges)) ∧
    (edges.length < 3 → relocateStepW d edges limits = (0, edges)) ∧
    (edges.length < 4 → orOptStepW d edges limits = (0, edges)) := by
  refine ⟨fun h => ?_, fun h => ?_, fun h => ?_⟩
  · simp [twoOptStepW, h]
  · simp [relocateStepW, h]
  · simp [orOptStepW, h]

/-- C7 witness: the three degenerate step calls on a 2-node instance. -/
theorem claim_C7_witness :
    twoOptStepW (fun i j => i + j) [1, 0] [0, 2] = (0, [1, 0]) ∧
    relocateStepW (fun i j => i + j) [1, 0] [0, 2] = (0, [1, 0]) ∧
    orOptStepW (fun i j => i + j) [1, 0] [0, 2] = (0, [1, 0]) := by
  obtain ⟨h1, h2, h3⟩ := claim_C7 (fun i j => i + j) [1, 0] [0, 2]
  exact ⟨h1 (by decide), h2 (by decide), h3 (by decide)⟩

/-- C10: tsp::cost of a one-element tour [i] is the diagonal entry d(i,i),
which the Euclidean matrix defines as 3 * (max representable distance / 4);
in particular it is a huge positive sentinel, not 0, whenever the distance
type can represent at least 4. -/
theorem claim_C10 :
    (∀ (offDiag : Nat → Nat → Nat) (distMax i : Nat),
      tspCost (lineEntry offDiag distMax) [i] = 3 * (distMax / 4)) ∧
    (∀ (offDiag : Nat → Nat → Nat) (distMax i : Nat), 4 ≤ distMax →
      tspCost (lineEntry offDiag distMax) [i] ≠ 0) := by
  have hbase : ∀ (offDiag : Nat → Nat → Nat) (distMax i : Nat),
      tspCost (lineEntry offDiag distMax) [i] = 3 * (distMax / 4) := by
    intro offDiag distMax i
    simp [tspCost, pathCost, lineEntry]
  refine ⟨hbase, fun offDiag distMax i h4 => ?_⟩
  rw [hbase]
  have : 1 ≤ distMax / 4 := by omega
  omega

/-- C10 witness: at the 32-bit maximum the one-node tour cost is the
sentinel 3221225471, not 0. -/
theorem claim_C10_witness :
    tspCost (lineEntry (fun i j => i + j) 4294967295) [7] ≠ 0 ∧
    (4 : Nat) ≤ 4294967295 :=
  ⟨claim_C10.2 (fun i j => i + j) 4294967295 7 (by decide), by decide⟩

/-- Package a concrete cycle witness into HamCycle. -/
theorem hamCycle_of_tour (edges : List Nat) (x : Nat) (xs : List Nat)
    (h1 : List.Chain (fun a b => edgeAt edges a = b) x (xs ++ [x]))
    (h2 : (x :: xs).Perm (List.range edges.length)) : HamCycle edges :=
  ⟨x :: xs, h1, h2⟩

/-- C1: for every symmetric cost matrix and every successor array that is
one Hamiltonian cycle over 0..N-1, a single invocation of two_opt_step (on
any worker limits with the clipped-partition property, which includes the
constructor's two-opt limits), relocate_step or or_opt_step (on any valid
worker partition, which includes the constructor's rank limits) leaves the
successor array a permutation of 0..N-1 forming exactly one cycle through
all N nodes, of unchanged length. -/
theorem claim_C1 (d : Nat → Nat → Nat) (edges rl tl : List Nat)
    (hsym : ∀ i j, d i j = d j i) (hham : HamCycle edges)
    (hOK : twoOptPartOK edges.length tl)
    (hvp : validPartition edges.length rl) :
    (HamCycle (twoOptStepW d edges tl).2 ∧
      (twoOptStepW d edges tl).2.length = edges.length) ∧
    (HamCycle (relocateStepW d edges rl).2 ∧
      (relocateStepW d edges rl).2.length = edges.length) ∧
    (HamCycle (orOptStepW d edges rl).2 ∧
      (orOptStepW d edges rl).2.length = edges.length) := by
  obtain ⟨a1, a2, -, -⟩ := twoOptStep_good d hsym hOK hham
  obtain ⟨b1, b2, -, -⟩ := relocateStep_good d hvp hham
  obtain ⟨c1, c2, -, -⟩ := orOptStep_good d hvp hham
  exact ⟨⟨a1, a2⟩, ⟨b1, b2⟩, ⟨c1, c2⟩⟩

/-- C1 witness: the claim applied to the 4-cycle 0→1→2→3→0 with the
symmetric matrix d(i,j) = i + j and the single-worker partitions. -/
theorem claim_C1_witness :
    (HamCycle (twoOptStepW (fun i j => i + j) [1, 2, 3, 0] [0, 4]).2 ∧
      (twoOptStepW (fun i j => i + j) [1, 2, 3, 0] [0, 4]).2.length =
        ([1, 2, 3, 0] : List Nat).length) ∧
    (HamCycle (relocateStepW (fun i j => i + j) [1, 2, 3, 0] [0, 4]).2 ∧
      (relocateStepW (fun i j => i + j) [1, 2, 3, 0] [0, 4]).2.length =
        ([1, 2, 3, 0] : List Nat).length) ∧
    (HamCycle (orOptStepW (fun i j => i + j) [1, 2, 3, 0] [0, 4]).2 ∧
      (orOptStepW (fun i j => i + j) [1, 2, 3, 0] [0, 4]).2.length =
        ([1, 2, 3, 0] : List Nat).length) :=
  claim_C1 (fun i j => i + j) [1, 2, 3, 0] [0, 4] [0, 4]
    (fun i j => Nat.add_comm i j)
    (hamCycle_of_tour [1, 2, 3, 0] 0 [1, 2, 3]
      (by simp [List.chain_cons, edgeAt])
      (by
        have hr : List.range ([1, 2, 3, 0] : List Nat).length =
            [0, 1, 2, 3] := rfl
        rw [hr]))
    (by
      refine ⟨rfl, rfl, ?_⟩
      simp [List.chain'_cons])
    (by
      refine ⟨rfl, rfl, ?_⟩
      simp [List.chain'_cons])

/-- C2: under the same hypotheses as C1, the tsp::cost of the cycle
emitted from node 0 after a step equals the cost before the step minus the
returned gain (stated additively in Nat), and a step returning gain 0
leaves the successor array unchanged. -/
theorem claim_C2 (d : Nat → Nat → Nat) (edges rl tl : List Nat)
    (hsym : ∀ i j, d i j = d j i) (hham : HamCycle edges)
    (hOK : twoOptPartOK edges.length tl)
    (hvp : validPartition edges.length rl) :
    (tspCost d (getTour (twoOptStepW d edges tl).2 0) +
        (twoOptStepW d edges tl).1 = tspCost d (getTour edges 0) ∧
      ((twoOptStepW d edges tl).1 = 0 →
        (twoOptStepW d edges tl).2 = edges)) ∧
    (tspCost d (getTour (relocateStepW d edges rl).2 0) +
        (relocateStepW d edges rl).1 = tspCost d (getTour edges 0) ∧
      ((relocateStepW d edges rl).1 = 0 →
        (relocateStepW d edges rl).2 = edges)) ∧
    (tspCost d (getTour (orOptStepW d edges rl).2 0) +
        (orOptStepW d edges rl).1 = tspCost d (getTour edges 0) ∧
      ((orOptStepW d edges rl).1 = 0 →
        (orOptStepW d edges rl).2 = edges)) := by
  obtain ⟨-, -, a3, a4⟩ := twoOptStep_good d hsym hOK hham
  obtain ⟨-, -, b3, b4⟩ := relocateStep_good d hvp hham
  obtain ⟨-, -, c3, c4⟩ := orOptStep_good d hvp hham
  exact ⟨⟨a3, a4⟩, ⟨b3, b4⟩, ⟨c3, c4⟩⟩

/-- C2 witness: the claim applied to the 4-cycle 0→1→2→3→0 with the
symmetric matrix d(i,j) = i + j and the single-worker partitions. -/
theorem claim_C2_witness :
    (tspCost (fun i j => i + j)
        (getTour (twoOptStepW (fun i j => i + j) [1, 2, 3, 0] [0, 4]).2 0) +
        (twoOptStepW (fun i j => i + j) [1, 2, 3, 0] [0, 4]).1 =
      tspCost (fun i j => i + j) (getTour [1, 2, 3, 0] 0) ∧
      ((twoOptStepW (fun i j => i + j) [1, 2, 3, 0] [0, 4]).1 = 0 →
        (twoOptStepW (fun i j => i + j) [1, 2, 3, 0] [0, 4]).2 =
          [1, 2, 3, 0])) ∧
    (tspCost (fun i j => i + j)
        (getTour (relocateStepW (fun i j => i + j) [1, 2, 3, 0]
          [0, 4]).2 0) +
        (relocateStepW (fun i j => i + j) [1, 2, 3, 0] [0, 4]).1 =
      tspCost (fun i j => i + j) (getTour [1, 2, 3, 0] 0) ∧
      ((relocateStepW (fun i j => i + j) [1, 2, 3, 0] [0, 4]).1 = 0 →
        (relocateStepW (fun i j => i + j) [1, 2, 3, 0] [0, 4]).2 =
          [1, 2, 3, 0])) ∧
    (tspCost (fun i j => i + j)
        (getTour (orOptStepW (fun i j => i + j) [1, 2, 3, 0] [0, 4]).2 0) +
        (orOptStepW (fun i j => i + j) [1, 2, 3, 0] [0, 4]).1 =
      tspCost (fun i j => i + j) (getTour [1, 2, 3, 0] 0) ∧
      ((orOptStepW (fun i j => i + j) [1, 2, 3, 0] [0, 4]).1 = 0 →
        (orOptStepW (fun i j => i + j) [1, 2, 3, 0] [0, 4]).2 =
          [1, 2, 3, 0])) :=
  claim_C2 (fun i j => i + j) [1, 2, 3, 0] [0, 4] [0, 4]
    (fun i j => Nat.add_comm i j)
    (hamCycle_of_tour [1, 2, 3, 0] 0 [1, 2, 3]
      (by simp [List.chain_cons, edgeAt])
      (by
        have hr : List.range ([1, 2, 3, 0] : List Nat).length =
            [0, 1, 2, 3] := rfl
        rw [hr]))
    (by
      refine ⟨rfl, rfl, ?_⟩
      simp [List.chain'_cons])
    (by
      refine ⟨rfl, rfl, ?_⟩
      simp [List.chain'_cons])

/-- Abstract interface of one operator step on N-node instances: preserves
the Hamiltonian cycle and the array length, decreases the emitted tour
cost by exactly the returned gain, and does not touch the array on gain
0. -/
def GoodStep (d : Nat → Nat → Nat) (n : Nat)
    (step : List Nat → Nat × List Nat) : Prop :=
  ∀ e, HamCycle e → e.length = n →
    HamCycle (step e).2 ∧ (step e).2.length = n ∧
    tspCost d (getTour (step e).2 0) + (step e).1 =
      tspCost d (getTour e 0) ∧
    ((step e).1 = 0 → (step e).2 = e)

theorem twoOpt_goodStep (d : Nat → Nat → Nat)
    (hsym : ∀ i j, d i j = d j i) {n : Nat} {tl : List Nat}
    (hOK : twoOptPartOK n tl) :
    GoodStep d n (fun e => twoOptStepW d e tl) := by
  intro e hham hlen
  obtain ⟨h1, h2, h3, h4⟩ :=
    twoOptStep_good d hsym (hlen ▸ hOK) hham
  exact ⟨h1, hlen ▸ h2, h3, h4⟩

theorem relocate_goodStep (d : Nat → Nat → Nat) {n : Nat}
    {rl : List Nat} (hvp : validPartition n rl) :
    GoodStep d n (fun e => relocateStepW d e rl) := by
  intro e hham hlen
  obtain ⟨h1, h2, h3, h4⟩ := relocateStep_good d (hlen ▸ hvp) hham
  exact ⟨h1, hlen ▸ h2, h3, h4⟩

theorem orOpt_goodStep (d : Nat → Nat → Nat) {n : Nat}
    {rl : List Nat} (hvp : validPartition n rl) :
    GoodStep d n (fun e => orOptStepW d e rl) := by
  intro e hham hlen
  obtain ⟨h1, h2, h3, h4⟩ := orOptStep_good d (hlen ▸ hvp) hham
  exact ⟨h1, hlen ▸ h2, h3, h4⟩

/-- Full behaviour of a perform-all loop driven by a good step, for any
fuel exceeding the current tour cost: all recorded gains are positive,
there are at most cost-many of them, the invariant is preserved, the cost
drops by the sum of gains, the result does not depend on the fuel, an
empty trace means the array is untouched, and the loop exits on a 0-gain
step. -/
theorem performAllTrace_good {d : Nat → Nat → Nat} {n : Nat}
    {step : List Nat → Nat × List Nat} (hg : GoodStep d n step) :
    ∀ (c : Nat) (e : List Nat), HamCycle e → e.length = n →
      tspCost d (getTour e 0) ≤ c →
      ∀ fuel, tspCost d (getTour e 0) < fuel →
      (∀ g ∈ (performAllTrace step fuel e).1, 0 < g) ∧
      (performAllTrace step fuel e).1.length ≤ tspCost d (getTour e 0) ∧
      HamCycle (performAllTrace step fuel e).2 ∧
      (performAllTrace step fuel e).2.length = n ∧
      tspCost d (getTour (performAllTrace step fuel e).2 0) +
        (performAllTrace step fuel e).1.sum = tspCost d (getTour e 0) ∧
      (∀ fuel2, tspCost d (getTour e 0) < fuel2 →
        performAllTrace step fuel2 e = performAllTrace step fuel e) ∧
      ((performAllTrace step fuel e).1 = [] →
        (performAllTrace step fuel e).2 = e) ∧
      (step (performAllTrace step fuel e).2).1 = 0 := by
  intro c
  induction c with
  | zero =>
    intro e hham hlen hc fuel hfuel
    obtain ⟨hs1, hs2, hs3, hs4⟩ := hg e hham hlen
    have hz : (step e).1 = 0 := by omega
    obtain ⟨f, rfl⟩ : ∃ f, fuel = f + 1 := by
      cases fuel with
      | zero => omega
      | succ f => exact ⟨f, rfl⟩
    have hpa : performAllTrace step (f + 1) e = ([], e) := by
      simp only [performAllTrace, hz]
      simp
    rw [hpa]
    refine ⟨by simp, by simp, hham, hlen, by simp, ?_, fun _ => rfl, ?_⟩
    · intro fuel2 hfuel2
      obtain ⟨f2, rfl⟩ : ∃ f2, fuel2 = f2 + 1 := by
        cases fuel2 with
        | zero => omega
        | succ f2 => exact ⟨f2, rfl⟩
      simp only [performAllTrace, hz]
      simp
    · exact hz
  | succ c ih =>
    intro e hham hlen hc fuel hfuel
    obtain ⟨hs1, hs2, hs3, hs4⟩ := hg e hham hlen
    obtain ⟨f, rfl⟩ : ∃ f, fuel = f + 1 := by
      cases fuel with
      | zero => omega
      | succ f => exact ⟨f, rfl⟩
    by_cases hz : (step e).1 = 0
    · have hpa : performAllTrace step (f + 1) e = ([], e) := by
        simp only [performAllTrace, hz]
        simp
      rw [hpa]
      refine ⟨by simp, by simp, hham, hlen, by simp, ?_, fun _ => rfl, ?_⟩
      · intro fuel2 hfuel2
        obtain ⟨f2, rfl⟩ : ∃ f2, fuel2 = f2 + 1 := by
          cases fuel2 with
          | zero => omega
          | succ f2 => exact ⟨f2, rfl⟩
        simp only [performAllTrace, hz]
        simp
      · exact hz
    · have hgpos : 0 < (step e).1 := Nat.pos_of_ne_zero hz
      have hpa : performAllTrace step (f + 1) e =
          ((step e).1 :: (performAllTrace step f (step e).2).1,
            (performAllTrace step f (step e).2).2) := by
        simp only [performAllTrace, if_pos hgpos]
      have hcost2 : tspCost d (getTour (step e).2 0) ≤ c := by omega
      have hfuel2 : tspCost d (getTour (step e).2 0) < f := by omega
      obtain ⟨i1, i2, i3, i4, i5, i6, i7, i8⟩ :=
        ih (step e).2 hs1 hs2 hcost2 f hfuel2
      rw [hpa]
      refine ⟨?_, ?_, i3, i4, ?_, ?_, ?_, i8⟩
      · intro g hgm
        rcases List.mem_cons.1 hgm with h' | h'
        · exact h' ▸ hgpos
        · exact i1 g h'
      · simp only [List.length_cons]
        omega
      · simp only [List.sum_cons]
        omega
      · intro fuel2 hfuel2'
        obtain ⟨f2, rfl⟩ : ∃ f2, fuel2 = f2 + 1 := by
          cases fuel2 with
          | zero => omega
          | succ f2 => exact ⟨f2, rfl⟩
        have hf2 : tspCost d (getTour (step e).2 0) < f2 := by omega
        have := i6 f2 hf2
        simp only [performAllTrace, if_pos hgpos, this]
      · intro hcon
        simp at hcon

theorem eq_nil_of_sum_zero_of_pos {l : List Nat}
    (hpos : ∀ g ∈ l, 0 < g) (hs : l.sum = 0) : l = [] := by
  cases l with
  | nil => rfl
  | cons g t =>
    have := hpos g (List.mem_cons_self g t)
    simp [List.sum_cons] at hs
    omega


/-- One driver round with fuel above the current tour cost preserves the
invariant and the length, decreases the emitted tour cost by exactly the
sum of the three round gains, and does not depend on the fuel. -/
theorem driverRound_good (d : Nat → Nat → Nat)
    (hsym : ∀ i j, d i j = d j i) {n : Nat} {rl tl : List Nat}
    (hOK : twoOptPartOK n tl) (hvp : validPartition n rl)
    (e : List Nat) (hham : HamCycle e) (hlen : e.length = n)
    (fuel : Nat) (hfuel : tspCost d (getTour e 0) < fuel) :
    HamCycle (driverRound d rl tl fuel e).2 ∧
    (driverRound d rl tl fuel e).2.length = n ∧
    tspCost d (getTour (driverRound d rl tl fuel e).2 0) +
      ((driverRound d rl tl fuel e).1.1 +
        (driverRound d rl tl fuel e).1.2.1 +
        (driverRound d rl tl fuel e).1.2.2) = tspCost d (getTour e 0) ∧
    (∀ fuel2, tspCost d (getTour e 0) < fuel2 →
      driverRound d rl tl fuel2 e = driverRound d rl tl fuel e) := by
  obtain ⟨a1, a2, a3, a4, a5, a6, a7, a8⟩ :=
    performAllTrace_good (twoOpt_goodStep d hsym hOK)
      (tspCost d (getTour e 0)) e hham hlen le_rfl fuel hfuel
  have hcA : tspCost d (getTour
      (performAllTrace (fun x => twoOptStepW d x tl) fuel e).2 0) ≤
      tspCost d (getTour e 0) := by omega
  obtain ⟨b1, b2, b3, b4, b5, b6, b7, b8⟩ :=
    performAllTrace_good (relocate_goodStep d hvp)
      (tspCost d (getTour e 0)) _ a3 a4 hcA fuel
      (lt_of_le_of_lt hcA hfuel)
  have hcB : tspCost d (getTour
      (performAllTrace (fun x => relocateStepW d x rl) fuel
        (performAllTrace (fun x => twoOptStepW d x tl) fuel e).2).2 0)
      ≤ tspCost d (getTour e 0) := by omega
  obtain ⟨c1, c2, c3, c4, c5, c6, c7, c8⟩ :=
    performAllTrace_good (orOpt_goodStep d hvp)
      (tspCost d (getTour e 0)) _ b3 b4 hcB fuel
      (lt_of_le_of_lt hcB hfuel)
  refine ⟨c3, c4, ?_, ?_⟩
  · show tspCost d (getTour
      (performAllTrace (fun x => orOptStepW d x rl) fuel
        (performAllTrace (fun x => relocateStepW d x rl) fuel
          (performAllTrace (fun x => twoOptStepW d x tl) fuel e).2).2).2 0) +
      ((performAllTrace (fun x => twoOptStepW d x tl) fuel e).1.sum +
        (performAllTrace (fun x => relocateStepW d x rl) fuel
          (performAllTrace (fun x => twoOptStepW d x tl) fuel e).2).1.sum +
        (performAllTrace (fun x => orOptStepW d x rl) fuel
          (performAllTrace (fun x => relocateStepW d x rl) fuel
            (performAllTrace (fun x => twoOptStepW d x tl) fuel e).2).2).1.sum)
      = tspCost d (getTour e 0)
    omega
  · intro fuel2 hfuel2
    have h1 := a6 fuel2 hfuel2
    have h2 := b6 fuel2 (lt_of_le_of_lt hcA hfuel2)
    have h3 := c6 fuel2 (lt_of_le_of_lt hcB hfuel2)
    simp only [driverRound, performAll, h1, h2, h3]

/-- Full behaviour of the outer driver loop, for any fuel exceeding the
current tour cost: the invariant and the length are preserved and the
result does not depend on the fuel, so the loop stabilises after at most
cost-many improving rounds. -/
theorem driverLoop_good (d : Nat → Nat → Nat)
    (hsym : ∀ i j, d i j = d j i) {n : Nat} {rl tl : List Nat}
    (hOK : twoOptPartOK n tl) (hvp : validPartition n rl) :
    ∀ (c : Nat) (e : List Nat), HamCycle e → e.length = n →
      tspCost d (getTour e 0) ≤ c →
      ∀ fuel, tspCost d (getTour e 0) < fuel →
      HamCycle (driverLoop d rl tl fuel e) ∧
      (driverLoop d rl tl fuel e).length = n ∧
      (∀ fuel2, tspCost d (getTour e 0) < fuel2 →
        driverLoop d rl tl fuel2 e = driverLoop d rl tl fuel e) := by
  intro c
  induction c with
  | zero =>
    intro e hham hlen hc fuel hfuel
    obtain ⟨f, rfl⟩ : ∃ f, fuel = f + 1 := by
      cases fuel with
      | zero => omega
      | succ f => exact ⟨f, rfl⟩
    obtain ⟨r1, r2, r3, r4⟩ :=
      driverRound_good d hsym hOK hvp e hham hlen (f + 1) hfuel
    have hall : ¬(0 < (driverRound d rl tl (f + 1) e).1.1 ∨
        0 < (driverRound d rl tl (f + 1) e).1.2.1 ∨
        0 < (driverRound d rl tl (f + 1) e).1.2.2) := by
      rintro (h | h | h) <;> omega
    have hd : driverLoop d rl tl (f + 1) e =
        (driverRound d rl tl (f + 1) e).2 := by
      simp only [driverLoop, if_neg hall]
    rw [hd]
    refine ⟨r1, r2, ?_⟩
    intro fuel2 hfuel2
    obtain ⟨f2, rfl⟩ : ∃ f2, fuel2 = f2 + 1 := by
      cases fuel2 with
      | zero => omega
      | succ f2 => exact ⟨f2, rfl⟩
    have hr4 := r4 (f2 + 1) hfuel2
    simp only [driverLoop, hr4]
    rw [if_neg hall]
  | succ c ih =>
    intro e hham hlen hc fuel hfuel
    obtain ⟨f, rfl⟩ : ∃ f, fuel = f + 1 := by
      cases fuel with
      | zero => omega
      | succ f => exact ⟨f, rfl⟩
    obtain ⟨r1, r2, r3, r4⟩ :=
      driverRound_good d hsym hOK hvp e hham hlen (f + 1) hfuel
    by_cases hpos : 0 < (driverRound d rl tl (f + 1) e).1.1 ∨
        0 < (driverRound d rl tl (f + 1) e).1.2.1 ∨
        0 < (driverRound d rl tl (f + 1) e).1.2.2
    · have hcC : tspCost d
          (getTour (driverRound d rl tl (f + 1) e).2 0) + 1 ≤
          tspCost d (getTour e 0) := by
        rcases hpos with h | h | h <;> omega
      have hd : driverLoop d rl tl (f + 1) e =
          driverLoop d rl tl f (driverRound d rl tl (f + 1) e).2 := by
        simp only [driverLoop, if_pos hpos]
      obtain ⟨j1, j2, j3⟩ := ih _ r1 r2 (by omega) f (by omega)
      rw [hd]
      refine ⟨j1, j2, ?_⟩
      intro fuel2 hfuel2
      obtain ⟨f2, rfl⟩ : ∃ f2, fuel2 = f2 + 1 := by
        cases fuel2 with
        | zero => omega
        | succ f2 => exact ⟨f2, rfl⟩
      have hr4 := r4 (f2 + 1) hfuel2
      have hj3 := j3 f2 (by omega)
      simp only [driverLoop, hr4, hj3]
      rw [if_pos hpos]
    · have hd : driverLoop d rl tl (f + 1) e =
          (driverRound d rl tl (f + 1) e).2 := by
        simp only [driverLoop, if_neg hpos]
      rw [hd]
      refine ⟨r1, r2, ?_⟩
      intro fuel2 hfuel2
      obtain ⟨f2, rfl⟩ : ∃ f2, fuel2 = f2 + 1 := by
        cases fuel2 with
        | zero => omega
        | succ f2 => exact ⟨f2, rfl⟩
      have hr4 := r4 (f2 + 1) hfuel2
      simp only [driverLoop, hr4]
      rw [if_neg hpos]

/-- C3: every executed move of the three perform-all loops has strictly
positive gain, each such loop executes at most initial-cost-many moves,
and every loop (the three perform-alls and the outer driver) has already
stabilised at any fuel beyond the initial tour cost: since the
nonnegative integer tour cost strictly decreases with each applied move,
all loops terminate after finitely many steps bounded by the initial
cost. -/
theorem claim_C3 (d : Nat → Nat → Nat) (edges rl tl : List Nat)
    (hsym : ∀ i j, d i j = d j i) (hham : HamCycle edges)
    (hOK : twoOptPartOK edges.length tl)
    (hvp : validPartition edges.length rl) :
    (∀ fuel, tspCost d (getTour edges 0) < fuel →
      (∀ g ∈ (performAllTrace (fun e => twoOptStepW d e tl)
          fuel edges).1, 0 < g) ∧
      (∀ g ∈ (performAllTrace (fun e => relocateStepW d e rl)
          fuel edges).1, 0 < g) ∧
      (∀ g ∈ (performAllTrace (fun e => orOptStepW d e rl)
          fuel edges).1, 0 < g) ∧
      (performAllTrace (fun e => twoOptStepW d e tl)
          fuel edges).1.length ≤ tspCost d (getTour edges 0) ∧
      (performAllTrace (fun e => relocateStepW d e rl)
          fuel edges).1.length ≤ tspCost d (getTour edges 0) ∧
      (performAllTrace (fun e => orOptStepW d e rl)
          fuel edges).1.length ≤ tspCost d (getTour edges 0) ∧
      performAllTrace (fun e => twoOptStepW d e tl) fuel edges =
        performAllTrace (fun e => twoOptStepW d e tl)
          (tspCost d (getTour edges 0) + 1) edges ∧
      performAllTrace (fun e => relocateStepW d e rl) fuel edges =
        performAllTrace (fun e => relocateStepW d e rl)
          (tspCost d (getTour edges 0) + 1) edges ∧
      performAllTrace (fun e => orOptStepW d e rl) fuel edges =
        performAllTrace (fun e => orOptStepW d e rl)
          (tspCost d (getTour edges 0) + 1) edges) ∧
    (∀ fuel, tspCost d (getTour edges 0) < fuel →
      driverLoop d rl tl fuel edges =
        driverLoop d rl tl (tspCost d (getTour edges 0) + 1) edges) := by
  constructor
  · intro fuel hfuel
    obtain ⟨a1, a2, a3, a4, a5, a6, a7, a8⟩ :=
      performAllTrace_good (twoOpt_goodStep d hsym hOK)
        (tspCost d (getTour edges 0)) edges hham rfl le_rfl fuel hfuel
    obtain ⟨b1, b2, b3, b4, b5, b6, b7, b8⟩ :=
      performAllTrace_good (relocate_goodStep d hvp)
        (tspCost d (getTour edges 0)) edges hham rfl le_rfl fuel hfuel
    obtain ⟨c1, c2, c3, c4, c5, c6, c7, c8⟩ :=
      performAllTrace_good (orOpt_goodStep d hvp)
        (tspCost d (getTour edges 0)) edges hham rfl le_rfl fuel hfuel
    exact ⟨a1, b1, c1, a2, b2, c2,
      (a6 (tspCost d (getTour edges 0) + 1) (by omega)).symm,
      (b6 (tspCost d (getTour edges 0) + 1) (by omega)).symm,
      (c6 (tspCost d (getTour edges 0) + 1) (by omega)).symm⟩
  · intro fuel hfuel
    obtain ⟨j1, j2, j3⟩ :=
      driverLoop_good d hsym hOK hvp (tspCost d (getTour edges 0))
        edges hham rfl le_rfl fuel hfuel
    exact (j3 (tspCost d (getTour edges 0) + 1) (by omega)).symm

theorem claim_C3_witness :
    tspCost (fun i j => i + j) (getTour [1, 2, 3, 0] 0) < 13 ∧
    driverLoop (fun i j => i + j) [0, 4] [0, 4] 13 [1, 2, 3, 0] =
      driverLoop (fun i j => i + j) [0, 4] [0, 4]
        (tspCost (fun i j => i + j) (getTour [1, 2, 3, 0] 0) + 1)
        [1, 2, 3, 0] ∧
    (performAllTrace
        (fun e => twoOptStepW (fun i j => i + j) e [0, 4])
        13 [1, 2, 3, 0]).1.length ≤
      tspCost (fun i j => i + j) (getTour [1, 2, 3, 0] 0) :=
  ⟨by decide,
    (claim_C3 (fun i j => i + j) [1, 2, 3, 0] [0, 4] [0, 4]
      (fun i j => Nat.add_comm i j)
      (hamCycle_of_tour [1, 2, 3, 0] 0 [1, 2, 3]
        (by simp [List.chain_cons, edgeAt])
        (by
          have hr : List.range ([1, 2, 3, 0] : List Nat).length =
              [0, 1, 2, 3] := rfl
          rw [hr]))
      (by
        refine ⟨rfl, rfl, ?_⟩
        simp [List.chain'_cons])
      (by
        refine ⟨rfl, rfl, ?_⟩
        simp [List.chain'_cons])).2 13 (by decide),
    ((claim_C3 (fun i j => i + j) [1, 2, 3, 0] [0, 4] [0, 4]
      (fun i j => Nat.add_comm i j)
      (hamCycle_of_tour [1, 2, 3, 0] 0 [1, 2, 3]
        (by simp [List.chain_cons, edgeAt])
        (by
          have hr : List.range ([1, 2, 3, 0] : List Nat).length =
              [0, 1, 2, 3] := rfl
          rw [hr]))
      (by
        refine ⟨rfl, rfl, ?_⟩
        simp [List.chain'_cons])
      (by
        refine ⟨rfl, rfl, ?_⟩
        simp [List.chain'_cons])).1 13 (by decide)).2.2.2.1⟩

/-! Validity of the partitions built by the constructor. -/

theorem buildRankLimits_mem_le (n T : Nat) (i : Nat) (hi : i < T) :
    n / T * i + min i (n % T) ≤ n := by
  have key : ∀ (A B C mi : Nat), B + C = n → A ≤ B → mi ≤ C →
      A + mi ≤ n := by
    intro A B C mi h1 h2 h3
    omega
  have hmul : n / T * i ≤ T * (n / T) := by
    rw [Nat.mul_comm]
    exact Nat.mul_le_mul_right _ (Nat.le_of_lt hi)
  exact key _ _ _ _ (Nat.div_add_mod n T) hmul (Nat.min_le_right i (n % T))

/-- The rank limits built for the relocate and or-opt scans form a valid
monotone partition of [0, n] for every worker count T >= 1. -/
theorem buildRankLimits_valid (n T : Nat) (hT : 1 ≤ T) :
    validPartition n (buildRankLimits n T) := by
  obtain ⟨t, rfl⟩ : ∃ t, T = t + 1 := ⟨T - 1, by omega⟩
  refine ⟨?_, ?_, ?_⟩
  · rw [buildRankLimits, List.range_succ_eq_map]
    simp
  · rw [buildRankLimits]
    exact List.getLast?_concat _
  · rw [buildRankLimits]
    refine List.chain'_append.2 ⟨?_, List.chain'_singleton n, ?_⟩
    · rw [List.chain'_map, List.chain'_range_succ]
      intro m hm
      show n / (t + 1) * m + min m (n % (t + 1)) ≤
        n / (t + 1) * (m + 1) + min (m + 1) (n % (t + 1))
      rw [Nat.mul_succ]
      have h1 : min m (n % (t + 1)) ≤ min (m + 1) (n % (t + 1)) :=
        min_le_min (Nat.le_succ m) (Nat.le_refl (n % (t + 1)))
      generalize n / (t + 1) * m = A at *
      generalize min m (n % (t + 1)) = x at *
      generalize min (m + 1) (n % (t + 1)) = y at *
      generalize n / (t + 1) = q at *
      omega
    · intro x hx y hy
      simp only [List.head?_cons, Option.mem_def, Option.some.injEq] at hy
      subst hy
      have hx' : x ∈ (List.range (t + 1)).map
          (fun i => n / (t + 1) * i + min i (n % (t + 1))) :=
        List.mem_of_mem_getLast? hx
      simp only [List.mem_map, List.mem_range] at hx'
      obtain ⟨i, hi, rfl⟩ := hx'
      exact buildRankLimits_mem_le n (t + 1) i hi

theorem findRank_ge (cum : List Nat) (t : Nat) :
    ∀ (k rank : Nat), cum.length - rank ≤ k → rank ≤ findRank cum rank t := by
  intro k
  induction k with
  | zero =>
    intro rank hk
    rw [findRank]
    split
    · omega
    · exact le_refl rank
  | succ k ih =>
    intro rank hk
    rw [findRank]
    split
    · rename_i h
      have := ih (rank + 1) (by omega)
      omega
    · exact le_refl rank

theorem symRankLoop_chain (cum : List Nat) (share T : Nat) :
    ∀ (k i rank : Nat), T - i ≤ k →
      List.Chain' (· ≤ ·) (symRankLoop cum share T i rank) ∧
      (∀ x ∈ symRankLoop cum share T i rank, rank ≤ x) := by
  intro k
  induction k with
  | zero =>
    intro i rank hk
    rw [symRankLoop]
    split
    · omega
    · exact ⟨List.chain'_nil, by simp⟩
  | succ k ih =>
    intro i rank hk
    rw [symRankLoop]
    split
    · rename_i h
      obtain ⟨ihc, ihm⟩ := ih (i + 1)
        (findRank cum rank (i * share) + 1) (by omega)
      have hfr : rank ≤ findRank cum rank (i * share) :=
        findRank_ge cum (i * share) cum.length rank (by omega)
      constructor
      · refine List.chain'_cons'.2 ⟨?_, ihc⟩
        intro y hy
        have hym : y ∈ symRankLoop cum share T (i + 1)
            (findRank cum rank (i * share) + 1) :=
          List.mem_of_mem_head? hy
        have := ihm y hym
        omega
      · intro x hx
        rcases List.mem_cons.1 hx with h' | h'
        · omega
        · have := ihm x h'
          omega
    · exact ⟨List.chain'_nil, by simp⟩

/-- The rank limits built for the two-opt scan satisfy the (clipped)
partition property used by the two-opt scan canonicalisation, for every
worker count. -/
theorem buildSymTwoOptRankLimits_OK (n T : Nat) :
    twoOptPartOK n (buildSymTwoOptRankLimits n T) := by
  rw [buildSymTwoOptRankLimits]
  by_cases hT : T ≤ 1
  · rw [if_pos hT]
    refine ⟨rfl, rfl, ?_⟩
    simp [List.chain'_cons]
  · rw [if_neg hT]
    obtain ⟨hc, hm⟩ := symRankLoop_chain
      (runningSums (numberOfLookups n) 0) (totalLookups n / T) T T 1 0
      (by omega)
    refine ⟨rfl, ?_, ?_⟩
    · rw [← List.cons_append]
      exact List.getLast?_concat _
    · rw [List.map_cons]
      refine List.chain'_cons'.2 ⟨?_, ?_⟩
      · intro y hy
        simp only [Nat.zero_min]
        exact Nat.zero_le y
      · rw [List.map_append]
        refine List.chain'_append.2 ⟨?_, by simp, ?_⟩
        · rw [List.chain'_map]
          exact List.Chain'.imp (fun a b hab => min_le_min hab le_rfl) hc
        · intro x hx y hy
          simp only [List.map_cons, List.map_nil, List.head?_cons,
            Option.mem_def, Option.some.injEq] at hy
          subst hy
          have hx' : x ∈ (symRankLoop (runningSums (numberOfLookups n) 0)
              (totalLookups n / T) T 1 0).map (fun l => min l (n - 1)) :=
            List.mem_of_mem_getLast? hx
          simp only [List.mem_map] at hx'
          obtain ⟨a, ha, rfl⟩ := hx'
          have h1 : min a (n - 1) ≤ n - 1 := Nat.min_le_right a (n - 1)
          have h2 : n - 1 ≤ min n (n - 1) := by omega
          omega

/-! The step results do not depend on the worker limits, as long as the
limits form a valid partition: both scans reduce to the same canonical
fold over all candidates. -/

theorem twoOptStepW_indep (d : Nat → Nat → Nat) (e : List Nat)
    {tl1 tl2 : List Nat} (h1 : twoOptPartOK e.length tl1)
    (h2 : twoOptPartOK e.length tl2) :
    twoOptStepW d e tl1 = twoOptStepW d e tl2 := by
  simp only [twoOptStepW]
  rw [twoOptScan_eq d e h1, twoOptScan_eq d e h2]

theorem relocateStepW_indep (d : Nat → Nat → Nat) (e : List Nat)
    {rl1 rl2 : List Nat} (h1 : validPartition e.length rl1)
    (h2 : validPartition e.length rl2) :
    relocateStepW d e rl1 = relocateStepW d e rl2 := by
  simp only [relocateStepW]
  rw [relocateScan_eq d e h1, relocateScan_eq d e h2]

theorem orOptStepW_indep (d : Nat → Nat → Nat) (e : List Nat)
    {rl1 rl2 : List Nat} (h1 : validPartition e.length rl1)
    (h2 : validPartition e.length rl2) :
    orOptStepW d e rl1 = orOptStepW d e rl2 := by
  simp only [orOptStepW]
  rw [orOptScan_eq d e h1, orOptScan_eq d e h2]

/-- A perform-all loop driven by a good step preserves the invariant for
every fuel (no fuel bound needed). -/
theorem performAllTrace_inv {d : Nat → Nat → Nat} {n : Nat}
    {step : List Nat → Nat × List Nat} (hg : GoodStep d n step) :
    ∀ (fuel : Nat) (e : List Nat), HamCycle e → e.length = n →
      HamCycle (performAllTrace step fuel e).2 ∧
      (performAllTrace step fuel e).2.length = n := by
  intro fuel
  induction fuel with
  | zero =>
    intro e hham hlen
    exact ⟨hham, hlen⟩
  | succ f ih =>
    intro e hham hlen
    obtain ⟨hs1, hs2, _, _⟩ := hg e hham hlen
    by_cases hp : 0 < (step e).1
    · have hpa : performAllTrace step (f + 1) e =
          ((step e).1 :: (performAllTrace step f (step e).2).1,
            (performAllTrace step f (step e).2).2) := by
        simp only [performAllTrace, if_pos hp]
      rw [hpa]
      exact ih (step e).2 hs1 hs2
    · have hpa : performAllTrace step (f + 1) e = ([], e) := by
        simp only [performAllTrace, if_neg hp]
      rw [hpa]
      exact ⟨hham, hlen⟩

/-- Two perform-all loops whose steps agree on every invariant state
produce identical traces and final arrays. -/
theorem performAllTrace_congrOn {d : Nat → Nat → Nat} {n : Nat}
    {s1 s2 : List Nat → Nat × List Nat} (hg : GoodStep d n s1)
    (heq : ∀ e, HamCycle e → e.length = n → s1 e = s2 e) :
    ∀ (fuel : Nat) (e : List Nat), HamCycle e → e.length = n →
      performAllTrace s1 fuel e = performAllTrace s2 fuel e := by
  intro fuel
  induction fuel with
  | zero =>
    intro e _ _
    rfl
  | succ f ih =>
    intro e hham hlen
    obtain ⟨hs1, hs2, _, _⟩ := hg e hham hlen
    have he := heq e hham hlen
    simp only [performAllTrace, ← he]
    by_cases hp : 0 < (s1 e).1
    · rw [if_pos hp, if_pos hp, ih (s1 e).2 hs1 hs2]
    · rw [if_neg hp, if_neg hp]

/-- One driver round preserves the invariant for every fuel. -/
theorem driverRound_inv (d : Nat → Nat → Nat)
    (hsym : ∀ i j, d i j = d j i) {n : Nat} {rl tl : List Nat}
    (hOK : twoOptPartOK n tl) (hvp : validPartition n rl)
    (fuel : Nat) (e : List Nat) (hham : HamCycle e)
    (hlen : e.length = n) :
    HamCycle (driverRound d rl tl fuel e).2 ∧
    (driverRound d rl tl fuel e).2.length = n := by
  obtain ⟨a1, a2⟩ := performAllTrace_inv (twoOpt_goodStep d hsym hOK)
    fuel e hham hlen
  obtain ⟨b1, b2⟩ := performAllTrace_inv (relocate_goodStep d hvp)
    fuel _ a1 a2
  obtain ⟨c1, c2⟩ := performAllTrace_inv (orOpt_goodStep d hvp)
    fuel _ b1 b2
  exact ⟨c1, c2⟩

/-- One driver round gives the same gains and the same final array for
any two valid partition pairs. -/
theorem driverRound_congr (d : Nat → Nat → Nat)
    (hsym : ∀ i j, d i j = d j i) {n : Nat}
    {rl1 tl1 rl2 tl2 : List Nat}
    (hOK1 : twoOptPartOK n tl1) (hvp1 : validPartition n rl1)
    (hOK2 : twoOptPartOK n tl2) (hvp2 : validPartition n rl2)
    (fuel : Nat) (e : List Nat) (hham : HamCycle e)
    (hlen : e.length = n) :
    driverRound d rl1 tl1 fuel e = driverRound d rl2 tl2 fuel e := by
  have h1 : performAllTrace (fun x => twoOptStepW d x tl1) fuel e =
      performAllTrace (fun x => twoOptStepW d x tl2) fuel e :=
    performAllTrace_congrOn (twoOpt_goodStep d hsym hOK1)
      (fun x hx hlx => twoOptStepW_indep d x (hlx ▸ hOK1) (hlx ▸ hOK2))
      fuel e hham hlen
  obtain ⟨a1, a2⟩ := performAllTrace_inv (twoOpt_goodStep d hsym hOK1)
    fuel e hham hlen
  have h2 : performAllTrace (fun x => relocateStepW d x rl1) fuel
        (performAllTrace (fun x => twoOptStepW d x tl1) fuel e).2 =
      performAllTrace (fun x => relocateStepW d x rl2) fuel
        (performAllTrace (fun x => twoOptStepW d x tl1) fuel e).2 :=
    performAllTrace_congrOn (relocate_goodStep d hvp1)
      (fun x hx hlx => relocateStepW_indep d x (hlx ▸ hvp1) (hlx ▸ hvp2))
      fuel _ a1 a2
  obtain ⟨b1, b2⟩ := performAllTrace_inv (relocate_goodStep d hvp1)
    fuel _ a1 a2
  have h3 : performAllTrace (fun x => orOptStepW d x rl1) fuel
        (performAllTrace (fun x => relocateStepW d x rl1) fuel
          (performAllTrace (fun x => twoOptStepW d x tl1) fuel e).2).2 =
      performAllTrace (fun x => orOptStepW d x rl2) fuel
        (performAllTrace (fun x => relocateStepW d x rl1) fuel
          (performAllTrace (fun x => twoOptStepW d x tl1) fuel e).2).2 :=
    performAllTrace_congrOn (orOpt_goodStep d hvp1)
      (fun x hx hlx => orOptStepW_indep d x (hlx ▸ hvp1) (hlx ▸ hvp2))
      fuel _ b1 b2
  simp only [driverRound, performAll]
  rw [h3, h2, h1]

/-- The whole driver loop gives the same final array for any two valid
partition pairs, for every fuel. -/
theorem driverLoop_congr (d : Nat → Nat → Nat)
    (hsym : ∀ i j, d i j = d j i) {n : Nat}
    {rl1 tl1 rl2 tl2 : List Nat}
    (hOK1 : twoOptPartOK n tl1) (hvp1 : validPartition n rl1)
    (hOK2 : twoOptPartOK n tl2) (hvp2 : validPartition n rl2) :
    ∀ (fuel : Nat) (e : List Nat), HamCycle e → e.length = n →
      driverLoop d rl1 tl1 fuel e = driverLoop d rl2 tl2 fuel e := by
  intro fuel
  induction fuel with
  | zero =>
    intro e _ _
    rfl
  | succ f ih =>
    intro e hham hlen
    have hr := driverRound_congr d hsym hOK1 hvp1 hOK2 hvp2
      (f + 1) e hham hlen
    obtain ⟨i1, i2⟩ := driverRound_inv d hsym hOK1 hvp1 (f + 1) e hham hlen
    simp only [driverLoop, hr]
    by_cases hp : 0 < (driverRound d rl2 tl2 (f + 1) e).1.1 ∨
        0 < (driverRound d rl2 tl2 (f + 1) e).1.2.1 ∨
        0 < (driverRound d rl2 tl2 (f + 1) e).1.2.2
    · rw [if_pos hp, if_pos hp]
      exact ih (driverRound d rl2 tl2 (f + 1) e).2 (hr ▸ i1) (hr ▸ i2)
    · rw [if_neg hp, if_neg hp]

/-- C8: two full local-search runs that differ only in the requested
worker count T (any T in [1, N]) end with final tours of identical total
cost — in this sequential model the final successor arrays coincide, so in
particular the costs do. -/
theorem claim_C8 (d : Nat → Nat → Nat) (edges : List Nat)
    (hsym : ∀ i j, d i j = d j i) (hham : HamCycle edges)
    (T1 T2 fuel : Nat) (hT1 : 1 ≤ T1) (hT1n : T1 ≤ edges.length)
    (hT2 : 1 ≤ T2) (hT2n : T2 ≤ edges.length) :
    tspCost d (getTour (driverLoop d (buildRankLimits edges.length T1)
        (buildSymTwoOptRankLimits edges.length T1) fuel edges) 0) =
      tspCost d (getTour (driverLoop d (buildRankLimits edges.length T2)
        (buildSymTwoOptRankLimits edges.length T2) fuel edges) 0) := by
  have h := driverLoop_congr d hsym
    (buildSymTwoOptRankLimits_OK edges.length T1)
    (buildRankLimits_valid edges.length T1 hT1)
    (buildSymTwoOptRankLimits_OK edges.length T2)
    (buildRankLimits_valid edges.length T2 hT2)
    fuel edges hham rfl
  rw [h]

theorem claim_C8_witness :
    tspCost (fun i j => i + j) (getTour (driverLoop (fun i j => i + j)
        (buildRankLimits ([1, 2, 3, 0] : List Nat).length 1)
        (buildSymTwoOptRankLimits ([1, 2, 3, 0] : List Nat).length 1)
        5 [1, 2, 3, 0]) 0) =
      tspCost (fun i j => i + j) (getTour (driverLoop (fun i j => i + j)
        (buildRankLimits ([1, 2, 3, 0] : List Nat).length 2)
        (buildSymTwoOptRankLimits ([1, 2, 3, 0] : List Nat).length 2)
        5 [1, 2, 3, 0]) 0) :=
  claim_C8 (fun i j => i + j) [1, 2, 3, 0]
    (fun i j => Nat.add_comm i j)
    (hamCycle_of_tour [1, 2, 3, 0] 0 [1, 2, 3]
      (by simp [List.chain_cons, edgeAt])
      (by
        have hr : List.range ([1, 2, 3, 0] : List Nat).length =
            [0, 1, 2, 3] := rfl
        rw [hr]))
    1 2 5 (by decide) (by decide) (by decide) (by decide)

/-! First-max characterisation of the strict-improvement fold, and lexical
sortedness of the two-opt candidate list. -/

/-- Lexicographic order on the (edge_1_start, edge_2_start) components of
a candidate. -/
def bestLexLT (x y : Best) : Prop :=
  x.2.1 < y.2.1 ∨ (x.2.1 = y.2.1 ∧ x.2.2 < y.2.2)

/-- The strict-improvement fold either keeps the accumulator (when no
candidate beats it) or returns the first candidate attaining the maximal
gain: every candidate before it is strictly worse, every one after it no
better. -/
theorem foldl_mergeBest_first :
    ∀ (L : List Best) (a : Best),
      (L.foldl mergeBest a = a ∧ ∀ x ∈ L, x.1 ≤ a.1) ∨
      (∃ u v, L = u ++ (L.foldl mergeBest a) :: v ∧
        a.1 < (L.foldl mergeBest a).1 ∧
        (∀ x ∈ u, x.1 < (L.foldl mergeBest a).1) ∧
        (∀ x ∈ v, x.1 ≤ (L.foldl mergeBest a).1)) := by
  intro L
  induction L with
  | nil =>
    intro a
    exact Or.inl ⟨rfl, by simp⟩
  | cons c L ih =>
    intro a
    simp only [List.foldl_cons]
    by_cases hc : a.1 < c.1
    · have hm : mergeBest a c = c := if_pos hc
      rw [hm]
      rcases ih c with ⟨he, hle⟩ | ⟨u, v, hL, ha, hu, hv⟩
      · right
        refine ⟨[], L, ?_, ?_, ?_, ?_⟩
        · rw [he, List.nil_append]
        · rw [he]
          exact hc
        · simp
        · rw [he]
          exact hle
      · right
        refine ⟨c :: u, v, ?_, ?_, ?_, ?_⟩
        · rw [List.cons_append, ← hL]
        · omega
        · intro x hx
          rcases List.mem_cons.1 hx with h' | h'
          · subst h'
            omega
          · exact hu x h'
        · exact hv
    · have hm : mergeBest a c = a := if_neg hc
      rw [hm]
      rcases ih a with ⟨he, hle⟩ | ⟨u, v, hL, ha, hu, hv⟩
      · left
        refine ⟨he, ?_⟩
        intro x hx
        rcases List.mem_cons.1 hx with h' | h'
        · subst h'
          omega
        · exact hle x h'
      · right
        refine ⟨c :: u, v, ?_, ha, ?_, hv⟩
        · rw [List.cons_append, ← hL]
        · intro x hx
          rcases List.mem_cons.1 hx with h' | h'
          · subst h'
            omega
          · exact hu x h'

theorem pairwise_catLists {S : Best → Best → Prop} {c : Nat → List Best} :
    ∀ {l : List Nat}, (∀ i ∈ l, List.Pairwise S (c i)) →
      List.Pairwise (fun i j => ∀ x ∈ c i, ∀ y ∈ c j, S x y) l →
      List.Pairwise S (catLists c l) := by
  intro l
  induction l with
  | nil =>
    intro _ _
    exact List.Pairwise.nil
  | cons x xs ih =>
    intro hin hpl
    rw [catLists]
    obtain ⟨hx, hxs⟩ := List.pairwise_cons.1 hpl
    refine List.pairwise_append.2
      ⟨hin x (List.mem_cons_self x xs), ih (fun i hi =>
        hin i (List.mem_cons_of_mem x hi)) hxs, ?_⟩
    intro a ha b hb
    obtain ⟨j, hj, hbj⟩ := mem_catLists.1 hb
    exact hx j hj a ha b hbj

theorem twoOptCandAt_proj {d : Nat → Nat → Nat} {edges : List Nat}
    {e1s e2s : Nat} {b : Best}
    (h : twoOptCandAt d edges e1s e2s = some b) :
    b.2.1 = e1s ∧ b.2.2 = e2s := by
  simp only [twoOptCandAt] at h
  split at h
  · exact absurd h (by simp)
  · split at h
    · rw [← Option.some_inj.1 h]
      exact ⟨rfl, rfl⟩
    · exact absurd h (by simp)

theorem mem_twoOptCands_proj {d : Nat → Nat → Nat} {edges : List Nat}
    {e1s : Nat} {b : Best} (h : b ∈ twoOptCands d edges e1s) :
    b.2.1 = e1s := by
  obtain ⟨e2s, _, hc⟩ := List.mem_filterMap.1 h
  exact (twoOptCandAt_proj hc).1

/-- The full two-opt candidate list is sorted in strictly increasing
lexicographic order of (edge_1_start, edge_2_start). -/
theorem twoOptAllCands_pairwise (d : Nat → Nat → Nat) (edges : List Nat) :
    List.Pairwise bestLexLT (twoOptAllCands d edges) := by
  rw [twoOptAllCands]
  refine pairwise_catLists ?_ ?_
  · intro i _
    rw [twoOptCands]
    refine List.Pairwise.filterMap (twoOptCandAt d edges i) ?_
      (List.pairwise_lt_range' (i + 1) (edges.length - (i + 1)) 1)
    intro a b hab x hx y hy
    obtain ⟨hx1, hx2⟩ := twoOptCandAt_proj hx
    obtain ⟨hy1, hy2⟩ := twoOptCandAt_proj hy
    right
    constructor
    · rw [hx1, hy1]
    · rw [hx2, hy2]
      exact hab
  · refine List.Pairwise.imp ?_ (List.pairwise_lt_range edges.length)
    intro i j hij x hx y hy
    left
    rw [mem_twoOptCands_proj hx, mem_twoOptCands_proj hy]
    exact hij

/-- C6: when two_opt_step finds a positive best gain, the selected pair is
an improving candidate of maximal gain, and among all candidates attaining
that gain it is the lexicographically first (smallest edge_1_start, then
smallest edge_2_start): an incumbent is overwritten only on strictly
greater gain and the cross-worker reduction keeps the leftmost maximum. -/
theorem claim_C6 (d : Nat → Nat → Nat) (edges limits : List Nat)
    (hOK : twoOptPartOK edges.length limits)
    (hpos : 0 < (reduceBest
      (workerResults (twoOptLookUp d edges) limits)).1) :
    reduceBest (workerResults (twoOptLookUp d edges) limits) ∈
      twoOptAllCands d edges ∧
    (∀ x ∈ twoOptAllCands d edges,
      x.1 ≤ (reduceBest
        (workerResults (twoOptLookUp d edges) limits)).1) ∧
    (∀ x ∈ twoOptAllCands d edges,
      x.1 = (reduceBest
          (workerResults (twoOptLookUp d edges) limits)).1 →
        (reduceBest (workerResults (twoOptLookUp d edges) limits)).2.1
            < x.2.1 ∨
          ((reduceBest
              (workerResults (twoOptLookUp d edges) limits)).2.1 = x.2.1 ∧
            (reduceBest
              (workerResults (twoOptLookUp d edges) limits)).2.2
              ≤ x.2.2)) := by
  rw [twoOptScan_eq d edges hOK] at hpos ⊢
  set r := (twoOptAllCands d edges).foldl mergeBest (0, 0, 0) with hr
  rcases foldl_mergeBest_first (twoOptAllCands d edges) (0, 0, 0) with
    ⟨he, _⟩ | ⟨u, v, hL, _, hu, hv⟩
  · rw [← hr] at he
    rw [he] at hpos
    exact absurd hpos (by simp)
  · rw [← hr] at hL hu hv
    have hpw := twoOptAllCands_pairwise d edges
    rw [hL] at hpw
    obtain ⟨hpu, hprv, hcross⟩ := List.pairwise_append.1 hpw
    obtain ⟨hrv, hpv⟩ := List.pairwise_cons.1 hprv
    refine ⟨?_, ?_, ?_⟩
    · rw [hL]
      exact List.mem_append.2 (Or.inr (List.mem_cons_self _ _))
    · intro x hx
      rw [hL] at hx
      rcases List.mem_append.1 hx with h' | h'
      · have := hu x h'
        omega
      · rcases List.mem_cons.1 h' with h'' | h''
        · rw [h'']
        · exact hv x h''
    · intro x hx hgain
      rw [hL] at hx
      rcases List.mem_append.1 hx with h' | h'
      · have := hu x h'
        omega
      · rcases List.mem_cons.1 h' with h'' | h''
        · rw [h'']
          right
          exact ⟨rfl, le_refl _⟩
        · rcases hrv x h'' with hlex | ⟨heq, hlt⟩
          · exact Or.inl hlex
          · exact Or.inr ⟨heq, Nat.le_of_lt hlt⟩

theorem claim_C6_witness :
    twoOptPartOK ([1, 2, 3, 0] : List Nat).length [0, 4] ∧
    0 < (reduceBest (workerResults (twoOptLookUp
      (fun i j => (([[0, 14, 10, 10], [14, 0, 10, 10],
        [10, 10, 0, 14], [10, 10, 14, 0]] : List (List Nat)).getD i
          []).getD j 0)
      [1, 2, 3, 0]) [0, 4])).1 ∧
    reduceBest (workerResults (twoOptLookUp
      (fun i j => (([[0, 14, 10, 10], [14, 0, 10, 10],
        [10, 10, 0, 14], [10, 10, 14, 0]] : List (List Nat)).getD i
          []).getD j 0)
      [1, 2, 3, 0]) [0, 4]) ∈
      twoOptAllCands
        (fun i j => (([[0, 14, 10, 10], [14, 0, 10, 10],
          [10, 10, 0, 14], [10, 10, 14, 0]] : List (List Nat)).getD i
            []).getD j 0)
        [1, 2, 3, 0] :=
  ⟨⟨rfl, rfl, by simp [List.chain'_cons]⟩, by decide,
    (claim_C6
      (fun i j => (([[0, 14, 10, 10], [14, 0, 10, 10],
        [10, 10, 0, 14], [10, 10, 14, 0]] : List (List Nat)).getD i
          []).getD j 0)
      [1, 2, 3, 0] [0, 4]
      ⟨rfl, rfl, by simp [List.chain'_cons]⟩ (by decide)).1⟩

/-! Diagonal avoidance: every cost lookup of the three operators is at
distinct indices, so the step results only depend on the off-diagonal
entries of the matrix. -/

theorem hamCycle_succ_lt {edges : List Nat} (hham : HamCycle edges)
    {a : Nat} (ha : a < edges.length) :
    edgeAt edges a < edges.length := by
  obtain ⟨t, ht⟩ := hham
  exact hamTour_mem_lt ht (hamTour_succ_mem ht (hamTour_mem_of_lt ht ha))

theorem hamCycle_succ_inj {edges : List Nat} (hham : HamCycle edges)
    {a b : Nat} (ha : a < edges.length) (hb : b < edges.length)
    (hab : edgeAt edges a = edgeAt edges b) : a = b := by
  obtain ⟨t, ht⟩ := hham
  exact hamTour_succ_injOn ht (hamTour_mem_of_lt ht ha)
    (hamTour_mem_of_lt ht hb) hab

theorem hamCycle_succ_ne_self {edges : List Nat} (hham : HamCycle edges)
    (h2 : 2 ≤ edges.length) {a : Nat} (ha : a < edges.length) :
    edgeAt edges a ≠ a := by
  obtain ⟨t, ht⟩ := hham
  obtain ⟨u, hrot, _⟩ := hamTour_rotate_to ht (hamTour_mem_of_lt ht ha)
  have hlen := hamTour_length hrot
  obtain ⟨y, u', rfl⟩ : ∃ y u', u = y :: u' := by
    cases u with
    | nil => simp at hlen; omega
    | cons y u' => exact ⟨y, u', rfl⟩
  have hchain := hrot.1
  simp only [TourChain, List.cons_append, List.chain_cons] at hchain
  have hnd := hamTour_nodup hrot
  rw [hchain.1]
  intro he
  exact (List.nodup_cons.1 hnd).1 (by rw [he]; exact List.mem_cons_self _ _)

theorem catLists_congr {c1 c2 : Nat → List Best} :
    ∀ {l : List Nat}, (∀ i ∈ l, c1 i = c2 i) →
      catLists c1 l = catLists c2 l := by
  intro l
  induction l with
  | nil =>
    intro _
    rfl
  | cons x xs ih =>
    intro h
    rw [catLists, catLists, h x (List.mem_cons_self x xs),
      ih (fun i hi => h i (List.mem_cons_of_mem x hi))]

theorem twoOptCandAt_congr {d1 d2 : Nat → Nat → Nat}
    (hoff : ∀ i j, i ≠ j → d1 i j = d2 i j) {edges : List Nat}
    (hham : HamCycle edges) {e1s e2s : Nat} (he1 : e1s < edges.length)
    (he2 : e2s < edges.length) (hlt : e1s < e2s) :
    twoOptCandAt d1 edges e1s e2s = twoOptCandAt d2 edges e1s e2s := by
  simp only [twoOptCandAt]
  by_cases hskip : e2s = edgeAt edges e1s ∨ edgeAt edges e2s = e1s
  · rw [if_pos hskip, if_pos hskip]
  · rw [if_neg hskip, if_neg hskip]
    have h2n : 2 ≤ edges.length := by omega
    have hne1 : e1s ≠ edgeAt edges e1s :=
      Ne.symm (hamCycle_succ_ne_self hham h2n he1)
    have hne2 : e2s ≠ edgeAt edges e2s :=
      Ne.symm (hamCycle_succ_ne_self hham h2n he2)
    have hne3 : e1s ≠ e2s := Nat.ne_of_lt hlt
    have hne4 : edgeAt edges e1s ≠ edgeAt edges e2s := fun he =>
      hne3 (hamCycle_succ_inj hham he1 he2 he)
    rw [hoff e1s _ hne1, hoff e2s _ hne2, hoff e1s e2s hne3,
      hoff _ _ hne4]

theorem twoOptAllCands_congr {d1 d2 : Nat → Nat → Nat}
    (hoff : ∀ i j, i ≠ j → d1 i j = d2 i j) {edges : List Nat}
    (hham : HamCycle edges) :
    twoOptAllCands d1 edges = twoOptAllCands d2 edges := by
  rw [twoOptAllCands, twoOptAllCands]
  refine catLists_congr ?_
  intro i hi
  have hin : i < edges.length := List.mem_range.1 hi
  rw [twoOptCands, twoOptCands]
  refine List.filterMap_congr ?_
  intro e2s he2s
  have hm := List.mem_range'_1.1 he2s
  exact twoOptCandAt_congr hoff hham hin (by omega) (by omega)

theorem relocateCandAt_congr {d1 d2 : Nat → Nat → Nat}
    (hoff : ∀ i j, i ≠ j → d1 i j = d2 i j) (edges : List Nat)
    {e1s e1e nxt e2s : Nat} (h1 : e1s ≠ e1e) (h2 : e1e ≠ nxt)
    (h3 : e2s ≠ edgeAt edges e2s) (h4 : e1s ≠ nxt) (h5 : e2s ≠ e1e)
    (h6 : e1e ≠ edgeAt edges e2s) :
    relocateCandAt d1 edges e1s e1e nxt e2s =
      relocateCandAt d2 edges e1s e1e nxt e2s := by
  simp only [relocateCandAt]
  rw [hoff e1s e1e h1, hoff e1e nxt h2, hoff e2s _ h3, hoff e1s nxt h4,
    hoff e2s e1e h5, hoff e1e _ h6]

theorem relocateCands_congr {d1 d2 : Nat → Nat → Nat}
    (hoff : ∀ i j, i ≠ j → d1 i j = d2 i j) {edges : List Nat}
    (hham : HamCycle edges) (h3n : 3 ≤ edges.length) {e1s : Nat}
    (he1s : e1s < edges.length) :
    relocateCands d1 edges e1s = relocateCands d2 edges e1s := by
  obtain ⟨t, ht⟩ := hham
  obtain ⟨rest, hrot, _⟩ :=
    hamTour_rotate_to ht (hamTour_mem_of_lt ht he1s)
  have hlenrot := hamTour_length hrot
  obtain ⟨y, rest', rfl⟩ : ∃ y rest', rest = y :: rest' := by
    cases rest with
    | nil => simp at hlenrot; omega
    | cons y rest' => exact ⟨y, rest', rfl⟩
  obtain ⟨z, rest'', rfl⟩ : ∃ z rest'', rest' = z :: rest'' := by
    cases rest' with
    | nil => simp at hlenrot; omega
    | cons z rest'' => exact ⟨z, rest'', rfl⟩
  have hchain0 := hrot.1
  simp only [TourChain, List.cons_append, List.chain_cons] at hchain0
  obtain ⟨hy, hz, hchainz⟩ := hchain0
  have hnd := hamTour_nodup hrot
  have hnd1 : e1s ∉ y :: z :: rest'' := (List.nodup_cons.1 hnd).1
  have hndt1 : (y :: z :: rest'').Nodup := (List.nodup_cons.1 hnd).2
  have hnd2 : y ∉ z :: rest'' := (List.nodup_cons.1 hndt1).1
  have hndt2 : (z :: rest'').Nodup := (List.nodup_cons.1 hndt1).2
  have hwalk : ∀ d : Nat → Nat → Nat, relocateCands d edges e1s =
      (z :: rest'').filterMap (relocateCandAt d edges e1s y z) := by
    intro d
    have heq : relocateCands d edges e1s =
        relocateCandWalk d edges e1s y z edges.length z := by
      simp only [relocateCands, hy, hz]
    rw [heq]
    refine @relocateCandWalk_eq d edges e1s y z rest'' z
      edges.length hchainz hndt2 ?_ ?_
    · intro hm
      exact hnd1 (List.mem_cons_of_mem _ hm)
    · simp only [List.length_cons] at hlenrot ⊢
      omega
  rw [hwalk d1, hwalk d2]
  refine List.filterMap_congr ?_
  intro e2s he2s
  have hmem : e2s ∈ e1s :: y :: z :: rest'' :=
    List.mem_cons_of_mem _ (List.mem_cons_of_mem _ he2s)
  have he2sn : e2s < edges.length := hamTour_mem_lt hrot hmem
  have h1 : e1s ≠ y := fun he =>
    hnd1 (by rw [he]; exact List.mem_cons_self _ _)
  have h2 : y ≠ z := fun he =>
    hnd2 (by rw [he]; exact List.mem_cons_self _ _)
  have h4 : e1s ≠ z := by
    intro he
    refine hnd1 ?_
    rw [he]
    exact List.mem_cons_of_mem _ (List.mem_cons_self _ _)
  have h5 : e2s ≠ y := fun he => hnd2 (he ▸ he2s)
  have he21 : e2s ≠ e1s := fun he =>
    hnd1 (List.mem_cons_of_mem _ (he ▸ he2s))
  have h3 : e2s ≠ edgeAt edges e2s :=
    Ne.symm (hamCycle_succ_ne_self ⟨_, hrot⟩ (by omega) he2sn)
  have h6 : y ≠ edgeAt edges e2s := fun he =>
    he21 (hamCycle_succ_inj ⟨_, hrot⟩ he1s he2sn (hy.trans he)).symm
  exact relocateCandAt_congr hoff edges h1 h2 h3 h4 h5 h6

theorem relocateAllCands_congr {d1 d2 : Nat → Nat → Nat}
    (hoff : ∀ i j, i ≠ j → d1 i j = d2 i j) {edges : List Nat}
    (hham : HamCycle edges) (h3n : 3 ≤ edges.length) :
    relocateAllCands d1 edges = relocateAllCands d2 edges := by
  rw [relocateAllCands, relocateAllCands]
  exact catLists_congr (fun i hi =>
    relocateCands_congr hoff hham h3n (List.mem_range.1 hi))

theorem orOptCandAt_congr {d1 d2 : Nat → Nat → Nat}
    (hoff : ∀ i j, i ≠ j → d1 i j = d2 i j) (edges : List Nat)
    {e1s e1e nxt nxt2 e2s : Nat} (h1 : e1s ≠ e1e) (h2 : nxt ≠ nxt2)
    (h3 : e2s ≠ edgeAt edges e2s) (h4 : e1s ≠ nxt2) (h5 : e2s ≠ e1e)
    (h6 : nxt ≠ edgeAt edges e2s) :
    orOptCandAt d1 edges e1s e1e nxt nxt2 e2s =
      orOptCandAt d2 edges e1s e1e nxt nxt2 e2s := by
  simp only [orOptCandAt]
  rw [hoff e1s e1e h1, hoff nxt nxt2 h2, hoff e2s _ h3,
    hoff e1s nxt2 h4, hoff e2s e1e h5, hoff nxt _ h6]

theorem orOptCands_congr {d1 d2 : Nat → Nat → Nat}
    (hoff : ∀ i j, i ≠ j → d1 i j = d2 i j) {edges : List Nat}
    (hham : HamCycle edges) (h4n : 4 ≤ edges.length) {e1s : Nat}
    (he1s : e1s < edges.length) :
    orOptCands d1 edges e1s = orOptCands d2 edges e1s := by
  obtain ⟨t, ht⟩ := hham
  obtain ⟨rest, hrot, _⟩ :=
    hamTour_rotate_to ht (hamTour_mem_of_lt ht he1s)
  have hlenrot := hamTour_length hrot
  obtain ⟨y, rest', rfl⟩ : ∃ y rest', rest = y :: rest' := by
    cases rest with
    | nil => simp at hlenrot; omega
    | cons y rest' => exact ⟨y, rest', rfl⟩
  obtain ⟨z, rest'', rfl⟩ : ∃ z rest'', rest' = z :: rest'' := by
    cases rest' with
    | nil => simp at hlenrot; omega
    | cons z rest'' => exact ⟨z, rest'', rfl⟩
  obtain ⟨w, rest3, rfl⟩ : ∃ w rest3, rest'' = w :: rest3 := by
    cases rest'' with
    | nil => simp at hlenrot; omega
    | cons w rest3 => exact ⟨w, rest3, rfl⟩
  have hchain0 := hrot.1
  simp only [TourChain, List.cons_append, List.chain_cons] at hchain0
  obtain ⟨hy, hz, hw, hchainw⟩ := hchain0
  have hnd := hamTour_nodup hrot
  have hnd1 : e1s ∉ y :: z :: w :: rest3 := (List.nodup_cons.1 hnd).1
  have hndt1 : (y :: z :: w :: rest3).Nodup := (List.nodup_cons.1 hnd).2
  have hnd2 : y ∉ z :: w :: rest3 := (List.nodup_cons.1 hndt1).1
  have hndt2 : (z :: w :: rest3).Nodup := (List.nodup_cons.1 hndt1).2
  have hnd3 : z ∉ w :: rest3 := (List.nodup_cons.1 hndt2).1
  have hndt3 : (w :: rest3).Nodup := (List.nodup_cons.1 hndt2).2
  have hwalk : ∀ d : Nat → Nat → Nat, orOptCands d edges e1s =
      (w :: rest3).filterMap (orOptCandAt d edges e1s y z w) := by
    intro d
    have heq : orOptCands d edges e1s =
        orOptCandWalk d edges e1s y z w edges.length w := by
      simp only [orOptCands, hy, hz, hw]
    rw [heq]
    refine @orOptCandWalk_eq d edges e1s y z w rest3 w
      edges.length hchainw hndt3 ?_ ?_
    · intro hm
      exact hnd1 (List.mem_cons_of_mem _ (List.mem_cons_of_mem _ hm))
    · simp only [List.length_cons] at hlenrot ⊢
      omega
  rw [hwalk d1, hwalk d2]
  refine List.filterMap_congr ?_
  intro e2s he2s
  have hmem : e2s ∈ e1s :: y :: z :: w :: rest3 :=
    List.mem_cons_of_mem _ (List.mem_cons_of_mem _
      (List.mem_cons_of_mem _ he2s))
  have he2sn : e2s < edges.length := hamTour_mem_lt hrot hmem
  have h1 : e1s ≠ y := by
    intro he
    refine hnd1 ?_
    rw [he]
    exact List.mem_cons_self _ _
  have h2 : z ≠ w := by
    intro he
    refine hnd3 ?_
    rw [he]
    exact List.mem_cons_self _ _
  have h4 : e1s ≠ w := by
    intro he
    refine hnd1 ?_
    rw [he]
    exact List.mem_cons_of_mem _ (List.mem_cons_of_mem _
      (List.mem_cons_self _ _))
  have h5 : e2s ≠ y := fun he =>
    hnd2 (List.mem_cons_of_mem _ (he ▸ he2s))
  have h3 : e2s ≠ edgeAt edges e2s :=
    Ne.symm (hamCycle_succ_ne_self ⟨_, hrot⟩ (by omega) he2sn)
  have hyn : y < edges.length := hamTour_mem_lt hrot
    (List.mem_cons_of_mem _ (List.mem_cons_self _ _))
  have h6 : z ≠ edgeAt edges e2s := fun he =>
    h5 (hamCycle_succ_inj ⟨_, hrot⟩ hyn he2sn (hz.trans he)).symm
  exact orOptCandAt_congr hoff edges h1 h2 h3 h4 h5 h6

theorem orOptAllCands_congr {d1 d2 : Nat → Nat → Nat}
    (hoff : ∀ i j, i ≠ j → d1 i j = d2 i j) {edges : List Nat}
    (hham : HamCycle edges) (h4n : 4 ≤ edges.length) :
    orOptAllCands d1 edges = orOptAllCands d2 edges := by
  rw [orOptAllCands, orOptAllCands]
  exact catLists_congr (fun i hi =>
    orOptCands_congr hoff hham h4n (List.mem_range.1 hi))

/-- C9: under the operators' preconditions, every cost-matrix lookup has
distinct indices, so each step's result is unchanged when the diagonal
entries of the matrix are replaced arbitrarily: the diagonal is never
read. -/
theorem claim_C9 (d1 d2 : Nat → Nat → Nat) (edges rl tl : List Nat)
    (hoff : ∀ i j, i ≠ j → d1 i j = d2 i j) (hham : HamCycle edges)
    (hOK : twoOptPartOK edges.length tl)
    (hvp : validPartition edges.length rl) :
    twoOptStepW d1 edges tl = twoOptStepW d2 edges tl ∧
    relocateStepW d1 edges rl = relocateStepW d2 edges rl ∧
    orOptStepW d1 edges rl = orOptStepW d2 edges rl := by
  refine ⟨?_, ?_, ?_⟩
  · simp only [twoOptStepW]
    rw [twoOptScan_eq d1 edges hOK, twoOptScan_eq d2 edges hOK,
      twoOptAllCands_congr hoff hham]
  · by_cases h3 : edges.length < 3
    · simp [relocateStepW, h3]
    · simp only [relocateStepW, if_neg h3]
      rw [relocateScan_eq d1 edges hvp, relocateScan_eq d2 edges hvp,
        relocateAllCands_congr hoff hham (by omega)]
  · by_cases h4 : edges.length < 4
    · simp [orOptStepW, h4]
    · simp only [orOptStepW, if_neg h4]
      rw [orOptScan_eq d1 edges hvp, orOptScan_eq d2 edges hvp,
        orOptAllCands_congr hoff hham (by omega)]

theorem claim_C9_witness :
    twoOptStepW (fun i j => i + j) [1, 2, 3, 0] [0, 4] =
      twoOptStepW (fun i j => if i = j then 99 else i + j)
        [1, 2, 3, 0] [0, 4] ∧
    relocateStepW (fun i j => i + j) [1, 2, 3, 0] [0, 4] =
      relocateStepW (fun i j => if i = j then 99 else i + j)
        [1, 2, 3, 0] [0, 4] ∧
    orOptStepW (fun i j => i + j) [1, 2, 3, 0] [0, 4] =
      orOptStepW (fun i j => if i = j then 99 else i + j)
        [1, 2, 3, 0] [0, 4] :=
  claim_C9 (fun i j => i + j) (fun i j => if i = j then 99 else i + j)
    [1, 2, 3, 0] [0, 4] [0, 4]
    (fun i j h => by simp [h])
    (hamCycle_of_tour [1, 2, 3, 0] 0 [1, 2, 3]
      (by simp [List.chain_cons, edgeAt])
      (by
        have hr : List.range ([1, 2, 3, 0] : List Nat).length =
            [0, 1, 2, 3] := rfl
        rw [hr]))
    (by
      refine ⟨rfl, rfl, ?_⟩
      simp [List.chain'_cons])
    (by
      refine ⟨rfl, rfl, ?_⟩
      simp [List.chain'_cons])
